import Mathlib

/-!
# Verification of the NeuroDark23 step-sequencer core

This file gives a shallow embedding, in Lean 4, of the scheduler,
pattern-store, synthesis-parameter and serialization logic of the
step-sequencer workstation (sources: `Synth/audio_engine.js`,
`Synth/timematrix.js`, `Synth/bass_synth.js`).

Conventions used throughout:

* JS numbers are modelled as `ℚ` where the code only performs exact
  arithmetic (`+`, `*`, `/`, comparisons) on values that fit a double,
  and as `ℝ` where transcendental functions (`Math.pow`) occur.
* JS arrays become `List`, JS objects used as string-keyed maps become
  association lists `List (String × _)` (preserving insertion order,
  as `Object.keys` does).
* A JS method mutating `this` becomes a function returning the new value
  of the mutated structure.
* For the clipboard deep-copy claims, object identity matters, so a
  second, heap-based model with explicit references is used there
  (see the `HeapModel` section below).
-/

/-! ## Data model (from `timematrix.js`)

A note event is `{ note, octave, slide, accent }`; an empty slot is
`null` (`Option.none` here).  A block is
`{ tracks: {id: (Note|null)[] }, drums: string[][] }`. -/

structure NoteEvent where
  note : String
  octave : ℤ
  slide : Bool
  accent : Bool
deriving DecidableEq, Repr

structure PatBlock where
  tracks : List (String × List (Option NoteEvent))
  drums : List (List String)
deriving DecidableEq, Repr

structure TimeMatrix where
  totalSteps : ℕ
  blocks : List PatBlock
  clipboard : Option PatBlock
deriving DecidableEq, Repr

namespace TimeMatrix

/-- `Object.keys(b.tracks)` — the track ids of a block in insertion order. -/
def trackIds (b : PatBlock) : List String := b.tracks.map (·.1)

/-- Assoc-list lookup, the JS `b.tracks[id]` read. -/
def trackOf (b : PatBlock) (id : String) : Option (List (Option NoteEvent)) :=
  (b.tracks.find? (fun kv => kv.1 = id)).map (·.2)

/-- `clearBlock(idx)` (from `timematrix.js`):
`Object.keys(b.tracks).forEach(k=>b.tracks[k].fill(null)); b.drums.forEach(d=>d.length=0)`;
no-op when the block does not exist. -/
def clearBlock (m : TimeMatrix) (idx : ℕ) : TimeMatrix :=
  match m.blocks.get? idx with
  | none => m
  | some b =>
      let cleared : PatBlock :=
        { tracks := b.tracks.map (fun kv => (kv.1, kv.2.map (fun _ => none)))
          drums := b.drums.map (fun _ => []) }
      { m with blocks := m.blocks.set idx cleared }

/-- `Array.prototype.splice(start, 1)` removal semantics: a negative start
counts from the end (clamped at 0), a start at or past the end removes
nothing. -/
def jsSpliceRemove1 {α : Type} (l : List α) (start : ℤ) : List α :=
  let actual : ℕ := if start < 0 then (start + l.length).toNat else start.toNat
  if actual < l.length then l.take actual ++ l.drop (actual + 1) else l

/-- `removeBlock(idx)` (from `timematrix.js`):
`if(this.blocks.length<=1) this.clearBlock(0); else this.blocks.splice(idx,1)`.
The JS method returns `undefined` — there is no success/failure result. -/
def removeBlock (m : TimeMatrix) (idx : ℤ) : TimeMatrix :=
  if m.blocks.length ≤ 1 then m.clearBlock 0
  else { m with blocks := jsSpliceRemove1 m.blocks idx }

/-- `moveBlock(idx, dir)` (from `timematrix.js`): fails returning `false`
when the target `idx+dir` is out of bounds; otherwise swaps
`blocks[idx+dir]` and `blocks[idx]` by indexed assignment and returns
`true`.  (The source does not bounds-check `idx` itself; for the claims
below only in-range `idx` is used.) -/
def moveBlock (m : TimeMatrix) (idx dir : ℤ) : TimeMatrix × Bool :=
  let t := idx + dir
  if t < 0 ∨ (m.blocks.length : ℤ) ≤ t then (m, false)
  else
    match m.blocks.get? t.toNat, m.blocks.get? idx.toNat with
    | some bt, some bi =>
        ({ m with blocks := (m.blocks.set t.toNat bi).set idx.toNat bt }, true)
    | _, _ => (m, true)

/-- Deep copy of a track array, `org.tracks[k].map(n => n ? {...n} : null)`.
At the value level the copy is the identity; the reference-level content
of this operation is verified in the `HeapModel` section. -/
def copyTrackVal (t : List (Option NoteEvent)) : List (Option NoteEvent) :=
  t.map (fun n => n)

/-- Value-level deep copy of a block (`{...n}` per note, `[...d]` per
drum list). -/
def copyBlockVal (b : PatBlock) : PatBlock :=
  { tracks := b.tracks.map (fun kv => (kv.1, copyTrackVal kv.2))
    drums := b.drums.map (fun d => d.map (fun x => x)) }

/-- `copyToClipboard(idx)` (value level): `false` and no change when the
block does not exist, else store a deep copy and return `true`. -/
def copyToClipboard (m : TimeMatrix) (idx : ℕ) : TimeMatrix × Bool :=
  match m.blocks.get? idx with
  | none => (m, false)
  | some b => ({ m with clipboard := some (copyBlockVal b) }, true)

/-- `Array.prototype.splice(k, 0, x)` insertion: the insertion point is
clamped to the array length. -/
def jsSpliceInsert {α : Type} (l : List α) (k : ℕ) (x : α) : List α :=
  l.take k ++ x :: l.drop k

/-- `pasteFromClipboard(idx)` (value level): `false` and no change when no
prior copy exists; otherwise inserts a deep copy of the clipboard after
`idx` and returns `true`. -/
def pasteFromClipboard (m : TimeMatrix) (idx : ℕ) : TimeMatrix × Bool :=
  match m.clipboard with
  | none => (m, false)
  | some src =>
      ({ m with blocks := jsSpliceInsert m.blocks (idx + 1) (copyBlockVal src) }, true)

/-- `getStepData(step, block)` (from `timematrix.js`): `{}` for a missing
block (modelled as `none`; the scheduler then dispatches nothing), else
`{ tracks: b.tracks, drums: b.drums[step]||[] }`. -/
def getStepData (m : TimeMatrix) (step block : ℕ) :
    Option (List (String × List (Option NoteEvent)) × List String) :=
  match m.blocks.get? block with
  | none => none
  | some b => some (b.tracks, (b.drums.get? step).getD [])

end TimeMatrix

/-! ## WAV 16-bit quantization (from `audio_engine.js`, `bufferToWave`)

```js
sample = Math.max(-1, Math.min(1, channels[i][offset]));
sample = (0.5 + sample < 0 ? sample * 32768 : sample * 32767)|0;
view.setInt16(pos, sample, true);
```

Note the JS operator precedence: the condition is `(0.5 + sample) < 0`,
i.e. `sample < -0.5`, and `|0` truncates toward zero (it does not
round). -/

/-- JS `x|0` on an in-range number: truncation toward zero. -/
def jsTruncToInt (x : ℚ) : ℤ := if 0 ≤ x then ⌊x⌋ else ⌈x⌉

/-- The encoder's sample conversion, exactly as written in
`bufferToWave`. -/
def wavQuantize (s : ℚ) : ℤ :=
  let c := max (-1) (min 1 s)
  if 1/2 + c < 0 then jsTruncToInt (c * 32768) else jsTruncToInt (c * 32767)

/-- Modelled from the spec's words (§4.6), for comparison with
`wavQuantize`: clamp to `[-1,1]`, then `round(s * 32767)` for
non-negative, `round(s * 32768)` for negative samples. -/
def specQuantize (s : ℚ) : ℤ :=
  let c := max (-1) (min 1 s)
  if c < 0 then round (c * 32768) else round (c * 32767)

/-- `view.setInt16(pos, v, true)`: the two's-complement 16-bit value is
written least-significant byte first. -/
def int16LEBytes (v : ℤ) : List ℕ :=
  let u := (v % 65536).toNat
  [u % 256, (u / 256) % 256]

/-! ## Filter envelope (from `bass_synth.js`, `BassFilter.create`)

```js
const t = params.cutoff / 100;
const baseFreq = 60 + (t * t * 9000);
let qVal = params.resonance;
if (accent) qVal = Math.min(28, qVal * 1.5 + 5);
if (baseFreq > 5000) qVal *= 0.6;
filter.Q.value = Math.min(30, qVal);
const envStrength = params.envMod / 100;
const peakFreq = Math.min(22050, baseFreq + (envStrength * 8000));
const attackTime = slide ? 0.12 : 0.005;
let decayTime = 0.1 + (params.decay / 100) * 0.8;
if (accent) decayTime = 0.18;
if (slide) decayTime = duration * 1.2;
```
-/

structure BassParams where
  cutoff : ℚ
  resonance : ℚ
  envMod : ℚ
  decay : ℚ
deriving Repr

structure FilterSpec where
  baseFreq : ℚ
  q : ℚ
  peakFreq : ℚ
  attackTime : ℚ
  decayTime : ℚ
deriving Repr

def BassFilter.create (params : BassParams) (duration : ℚ)
    (slide accent : Bool) : FilterSpec :=
  let t := params.cutoff / 100
  let baseFreq := 60 + t * t * 9000
  let qVal := params.resonance
  let qVal := if accent then min 28 (qVal * 1.5 + 5) else qVal
  let qVal := if baseFreq > 5000 then qVal * 0.6 else qVal
  let envStrength := params.envMod / 100
  let peakFreq := min 22050 (baseFreq + envStrength * 8000)
  let attackTime : ℚ := if slide then 0.12 else 0.005
  let decayTime := 0.1 + (params.decay / 100) * 0.8
  let decayTime := if accent then 0.18 else decayTime
  let decayTime := if slide then duration * 1.2 else decayTime
  { baseFreq := baseFreq, q := min 30 qVal, peakFreq := peakFreq
    attackTime := attackTime, decayTime := decayTime }

/-! ## Pitch resolution and portamento (from `bass_synth.js`, `play`)

```js
const noteMap = {'C':0,'C#':1,...,'B':11};
const noteIndex = noteMap[note];
if (noteIndex === undefined) return;
const midiNote = (octave + 1) * 12 + noteIndex;
const freq = 440 * Math.pow(2, (midiNote - 69) / 12);
...
if (!this.lastFreq) this.lastFreq = freq;
if (slide) {
  osc.frequency.setValueAtTime(this.lastFreq, time);
  osc.frequency.exponentialRampToValueAtTime(freq, time + 0.08);
} else {
  osc.frequency.setValueAtTime(freq, time);
}
this.lastFreq = freq;
```
-/

def playNoteMap : List (String × ℕ) :=
  [("C", 0), ("C#", 1), ("D", 2), ("D#", 3), ("E", 4), ("F", 5),
   ("F#", 6), ("G", 7), ("G#", 8), ("A", 9), ("A#", 10), ("B", 11)]

def noteIndex (note : String) : Option ℕ :=
  (playNoteMap.find? (fun kv => kv.1 = note)).map (·.2)

def midiNote (octave : ℤ) (idx : ℕ) : ℤ := (octave + 1) * 12 + idx

/-- `440 * Math.pow(2, (midiNote - 69) / 12)`. -/
noncomputable def midiFreq (m : ℤ) : ℝ := 440 * (2 : ℝ) ^ (((m : ℝ) - 69) / 12)

/-- The frequency the voice resolves for a `(pitch-class, octave)` pair;
`none` models the silent `return` on an unrecognized pitch-class. -/
noncomputable def playFreq (note : String) (octave : ℤ) : Option ℝ :=
  (noteIndex note).map (fun i => midiFreq (midiNote octave i))

/-- One oscillator frequency-automation event. -/
inductive FreqAuto : Type
  | setAt (f : ℝ) (t : ℝ)
  | expRampTo (f : ℝ) (t : ℝ)

/-- The frequency-automation part of `play` together with the `lastFreq`
state update: returns `none` (no sound, state untouched) on an
unrecognized pitch-class, else the emitted automation events and the new
`lastFreq`. -/
noncomputable def playGlide (lastFreq : ℝ) (note : String) (octave : ℤ)
    (time : ℝ) (slide : Bool) : Option (List FreqAuto × ℝ) :=
  match noteIndex note with
  | none => none
  | some i =>
      let freq := midiFreq (midiNote octave i)
      let lf := if lastFreq = 0 then freq else lastFreq
      if slide then
        some ([FreqAuto.setAt lf time, FreqAuto.expRampTo freq (time + 0.08)], freq)
      else
        some ([FreqAuto.setAt freq time], freq)

/-! ## Look-ahead scheduler (from `audio_engine.js`)

```js
scheduler() {
  while (this.nextNoteTime < this.ctx.currentTime + this.lookahead) {
    this.scheduleNote(AppState.currentPlayStep, AppState.currentPlayBlock, this.nextNoteTime);
    this.advanceNote();
  }
}
advanceNote() {
  const secPerBeat = 60.0 / AppState.bpm;
  const secPerStep = secPerBeat / 4;
  this.nextNoteTime += secPerStep;
  AppState.currentPlayStep++;
  if (AppState.currentPlayStep >= timeMatrix.totalSteps) {
    AppState.currentPlayStep = 0;
    AppState.currentPlayBlock++;
    if (AppState.currentPlayBlock >= timeMatrix.blocks.length)
      AppState.currentPlayBlock = 0;
  }
}
```
with `this.lookahead = 0.1`. -/

/-- `(60.0 / bpm) / 4` — sixteenth-note duration in seconds. -/
def secPerStep (bpm : ℚ) : ℚ := 60 / bpm / 4

/-- `this.lookahead` (100 ms). -/
def lookaheadWindow : ℚ := 0.1

/-- The transient scheduler cursor: `nextNoteTime`, `currentPlayStep`,
`currentPlayBlock`. -/
structure SchedState where
  nextNoteTime : ℚ
  step : ℕ
  block : ℕ
deriving DecidableEq, Repr

/-- The cursor part of `advanceNote`: increment the step, wrap to 0 at
`totalSteps` advancing the block, wrap the block to 0 at the chain
length. -/
def advanceCursor (S N : ℕ) (c : ℕ × ℕ) : ℕ × ℕ :=
  let s := c.1 + 1
  if S ≤ s then (0, if N ≤ c.2 + 1 then 0 else c.2 + 1) else (s, c.2)

/-- `advanceNote` with `S = totalSteps`, `N = blocks.length`. -/
def advanceNote (bpm : ℚ) (S N : ℕ) (st : SchedState) : SchedState :=
  { nextNoteTime := st.nextNoteTime + secPerStep bpm
    step := (advanceCursor S N (st.step, st.block)).1
    block := (advanceCursor S N (st.step, st.block)).2 }

/-- The `scheduler()` look-ahead while-loop, run at a clock reading
`clock` (`this.ctx.currentTime`): dispatches `(step, block)` pairs while
`nextNoteTime < clock + lookahead`.  The loop terminates because each
iteration advances `nextNoteTime` by the positive amount
`secPerStep bpm` (hence the `0 < bpm` argument). -/
def scheduler (bpm : ℚ) (hb : 0 < bpm) (S N : ℕ) (clock : ℚ)
    (st : SchedState) : List (ℕ × ℕ) × SchedState :=
  if h : st.nextNoteTime < clock + lookaheadWindow then
    let rest := scheduler bpm hb S N clock (advanceNote bpm S N st)
    ((st.step, st.block) :: rest.1, rest.2)
  else ([], st)
termination_by (⌈(clock + lookaheadWindow - st.nextNoteTime) / secPerStep bpm⌉).toNat
decreasing_by
  have hΔ : 0 < secPerStep bpm := by unfold secPerStep; positivity
  have hadv : (advanceNote bpm S N st).nextNoteTime
      = st.nextNoteTime + secPerStep bpm := rfl
  rw [hadv]
  have h1 : (clock + lookaheadWindow - (st.nextNoteTime + secPerStep bpm)) / secPerStep bpm
      = (clock + lookaheadWindow - st.nextNoteTime) / secPerStep bpm - 1 := by
    field_simp
    ring
  rw [h1, Int.ceil_sub_one]
  have h2 : (0 : ℤ) < ⌈(clock + lookaheadWindow - st.nextNoteTime) / secPerStep bpm⌉ := by
    rw [Int.ceil_pos]
    exact div_pos (by linarith) hΔ
  omega

/-- Repeated scheduler ticks: one call of the look-ahead loop per clock
reading in `ticks`, threading the cursor state; collects all dispatched
`(step, block)` pairs in order. -/
def schedulerRun (bpm : ℚ) (hb : 0 < bpm) (S N : ℕ) :
    List ℚ → SchedState → List (ℕ × ℕ) × SchedState
  | [], st => ([], st)
  | c :: cs, st =>
      let r := scheduler bpm hb S N c st
      let r2 := schedulerRun bpm hb S N cs r.2
      (r.1 ++ r2.1, r2.2)

/-! ## Step dispatch, live and offline (from `audio_engine.js`, v38)

Live (`scheduleNote`): read `getStepData`, trigger every drum id at
`time`, and for every track key with a note at `step` whose synth exists,
`synth.play(note, octave, time, 0.25, slide, accent)`.

Offline (`renderAudio` render loop): `t` starts at `0.01`; for each rep,
block and step: trigger `blk.drums[s]` (when non-empty) at `t`, play each
track's note with gate `secPerStep * 0.9`, then `t += secPerStep`. -/

/-- A dispatch to a voice: either a percussion trigger or a melodic
`play` call. -/
inductive DispatchEvent : Type
  | drum (id : String) (time : ℚ)
  | bass (trackId : String) (note : NoteEvent) (time : ℚ) (gate : ℚ)
deriving DecidableEq, Repr

/-- The voice-dispatch side effects of `scheduleNote(step, block, time)`
(the visual-queue push is a UI side channel and not modelled); `synthIds`
is the id set of `audioEngine.bassSynths`. -/
def scheduleNoteEvents (m : TimeMatrix) (synthIds : List String)
    (step block : ℕ) (time : ℚ) : List DispatchEvent :=
  match m.getStepData step block with
  | none => []
  | some (tracks, drums) =>
      drums.map (fun id => DispatchEvent.drum id time) ++
      tracks.filterMap (fun kv =>
        match kv.2.get? step with
        | some (some n) =>
            if synthIds.contains kv.1 then
              some (DispatchEvent.bass kv.1 n time 0.25)
            else none
        | _ => none)

/-- The live Scheduler Core's dispatch logic run for `k` consecutive
steps from cursor state `st`: dispatch the current step at
`nextNoteTime`, then `advanceNote`, `k` times. -/
def liveDispatch (m : TimeMatrix) (synthIds : List String) (bpm : ℚ) :
    ℕ → SchedState → List DispatchEvent
  | 0, _ => []
  | k + 1, st =>
      scheduleNoteEvents m synthIds st.step st.block st.nextNoteTime ++
      liveDispatch m synthIds bpm k (advanceNote bpm m.totalSteps m.blocks.length st)

/-- One step of the offline render loop body at time `t` (v38):
drums are triggered only under the `blk.drums[s] && blk.drums[s].length > 0`
guard, and bass notes get gate `secPerStep * 0.9`. -/
def offlineStepEvents (blk : PatBlock) (synthIds : List String)
    (gate : ℚ) (s : ℕ) (t : ℚ) : List DispatchEvent :=
  (match blk.drums.get? s with
   | some d => if 0 < d.length then d.map (fun id => DispatchEvent.drum id t) else []
   | none => []) ++
  blk.tracks.filterMap (fun kv =>
    match kv.2.get? s with
    | some (some n) =>
        if synthIds.contains kv.1 then
          some (DispatchEvent.bass kv.1 n t gate)
        else none
    | _ => none)

/-- The offline inner loop: `n` remaining steps of block `blk` starting
at step index `s` and time `t`; returns the events and the final time
cursor. -/
def offlineSteps (blk : PatBlock) (synthIds : List String) (Δ : ℚ) :
    ℕ → ℕ → ℚ → List DispatchEvent × ℚ
  | 0, _, t => ([], t)
  | n + 1, s, t =>
      let e := offlineStepEvents blk synthIds (Δ * 0.9) s t
      let r := offlineSteps blk synthIds Δ n (s + 1) (t + Δ)
      (e ++ r.1, r.2)

/-- The offline middle loop over the block chain. -/
def offlineBlocks (synthIds : List String) (Δ : ℚ) (S : ℕ) :
    List PatBlock → ℚ → List DispatchEvent × ℚ
  | [], t => ([], t)
  | blk :: rest, t =>
      let r1 := offlineSteps blk synthIds Δ S 0 t
      let r2 := offlineBlocks synthIds Δ S rest r1.2
      (r1.1 ++ r2.1, r2.2)

/-- The offline outer loop over repetitions. -/
def offlineReps (blocks : List PatBlock) (synthIds : List String)
    (Δ : ℚ) (S : ℕ) : ℕ → ℚ → List DispatchEvent × ℚ
  | 0, t => ([], t)
  | r + 1, t =>
      let r1 := offlineBlocks synthIds Δ S blocks t
      let r2 := offlineReps blocks synthIds Δ S r r1.2
      (r1.1 ++ r2.1, r2.2)

/-- The full `renderAudio` dispatch sequence: `reps` passes over the
whole block chain, local time cursor starting at `0.01`. -/
def renderAudioEvents (m : TimeMatrix) (synthIds : List String)
    (bpm : ℚ) (reps : ℕ) : List DispatchEvent :=
  (offlineReps m.blocks synthIds (secPerStep bpm) m.totalSteps reps 0.01).1

/-- The claim's observation of a dispatch event: voice id and
note-or-drum id, without the gate length. -/
inductive DispatchKey : Type
  | drum (id : String)
  | bass (trackId : String) (note : NoteEvent)
deriving DecidableEq, Repr

/-- Project a dispatch list to `(voice-id, note-or-drum-id,
relative-time-offset)` triples, offsets taken from `base` (the time of
the first step). -/
def relativeEvents (es : List DispatchEvent) (base : ℚ) :
    List (DispatchKey × ℚ) :=
  es.map (fun e =>
    match e with
    | DispatchEvent.drum id t => (DispatchKey.drum id, t - base)
    | DispatchEvent.bass tid n t _ => (DispatchKey.bass tid n, t - base))

/-- The projected dispatch content of one `(block, step)` cell at a given
(relative) time: the reference form both the live dispatch and the
offline render loop are proved to produce. -/
def stepKeys (blk : PatBlock) (synthIds : List String) (s : ℕ) (τ : ℚ) :
    List (DispatchKey × ℚ) :=
  ((blk.drums.get? s).getD []).map (fun id => (DispatchKey.drum id, τ)) ++
  blk.tracks.filterMap (fun kv =>
    match kv.2.get? s with
    | some (some n) =>
        if synthIds.contains kv.1 then some (DispatchKey.bass kv.1 n, τ) else none
    | _ => none)

/-- The reference dispatch sequence of one pass over a block list:
block by block, step by step, at relative times spaced `Δ` apart. -/
def canonPass (synthIds : List String) (Δ : ℚ) (S : ℕ) :
    List PatBlock → ℚ → List (DispatchKey × ℚ)
  | [], _ => []
  | blk :: rest, off =>
      (List.range S).flatMap (fun s => stepKeys blk synthIds s (off + s * Δ)) ++
      canonPass synthIds Δ S rest (off + S * Δ)

/-! ## Heap model of clipboard copy/paste (from `timematrix.js`)

The clipboard claims are about *reference* sharing, which the value-level
model cannot express.  Here JS object identity is explicit: note objects,
per-track slot arrays and per-step drum arrays live in a heap indexed by
allocation number; `{...n}`, `.map(...)` and `[...d]` allocate fresh
cells, exactly as in the source:

```js
copyToClipboard(idx) {
  if (!this.blocks[idx]) return false;
  const org = this.blocks[idx];
  const newTracks = {};
  Object.keys(org.tracks).forEach(k => {
    newTracks[k] = org.tracks[k].map(n => n ? {...n} : null);
  });
  const newDrums = org.drums.map(d => [...d]);
  this.clipboard = { tracks: newTracks, drums: newDrums };
  return true;
}
pasteFromClipboard(idx) {
  if (!this.clipboard) return false;
  const source = this.clipboard;
  /* same deep copy from source */
  this.blocks.splice(idx + 1, 0, { tracks: newTracks, drums: newDrums });
  return true;
}
```
-/

namespace HeapModel

/-- The JS object heap: note objects, track slot arrays (holding
references to note objects or `null`) and drum string arrays, plus the
next fresh allocation number. -/
structure Heap where
  noteObj : ℕ → Option NoteEvent
  trackArr : ℕ → Option (List (Option ℕ))
  drumArr : ℕ → Option (List String)
  next : ℕ

/-- A block at the reference level: track keys with references to slot
arrays, and one drum-array reference per step. -/
structure HBlock where
  tracks : List (String × ℕ)
  drums : List ℕ
deriving DecidableEq, Repr

structure HMatrix where
  blocks : List HBlock
  clipboard : Option HBlock

def allocNote (h : Heap) (n : NoteEvent) : Heap × ℕ :=
  ({ h with noteObj := fun r => if r = h.next then some n else h.noteObj r
            next := h.next + 1 }, h.next)

def allocTrack (h : Heap) (slots : List (Option ℕ)) : Heap × ℕ :=
  ({ h with trackArr := fun r => if r = h.next then some slots else h.trackArr r
            next := h.next + 1 }, h.next)

def allocDrum (h : Heap) (d : List String) : Heap × ℕ :=
  ({ h with drumArr := fun r => if r = h.next then some d else h.drumArr r
            next := h.next + 1 }, h.next)

def writeTrack (h : Heap) (r : ℕ) (slots : List (Option ℕ)) : Heap :=
  { h with trackArr := fun x => if x = r then some slots else h.trackArr x }

def writeNote (h : Heap) (r : ℕ) (n : NoteEvent) : Heap :=
  { h with noteObj := fun x => if x = r then some n else h.noteObj x }

def writeDrum (h : Heap) (r : ℕ) (d : List String) : Heap :=
  { h with drumArr := fun x => if x = r then some d else h.drumArr x }

def readTrack (h : Heap) (r : ℕ) : List (Option ℕ) := (h.trackArr r).getD []

def readDrum (h : Heap) (r : ℕ) : List String := (h.drumArr r).getD []

/-- `org.tracks[k].map(n => n ? {...n} : null)`: allocate a fresh copy of
every note object, left to right. -/
def copySlots (h : Heap) : List (Option ℕ) → Heap × List (Option ℕ)
  | [] => (h, [])
  | o :: rest =>
      let p : Heap × Option ℕ :=
        match o with
        | none => (h, none)
        | some r =>
            match h.noteObj r with
            | some n => ((allocNote h n).1, some (allocNote h n).2)
            | none => (h, none)
      let q := copySlots p.1 rest
      (q.1, p.2 :: q.2)

/-- Copy one track array: fresh note objects, then a fresh slot array. -/
def copyTrack (h : Heap) (tref : ℕ) : Heap × ℕ :=
  let s := copySlots h (readTrack h tref)
  allocTrack s.1 s.2

def copyTracks (h : Heap) : List (String × ℕ) → Heap × List (String × ℕ)
  | [] => (h, [])
  | kv :: rest =>
      let c := copyTrack h kv.2
      let r := copyTracks c.1 rest
      (r.1, (kv.1, c.2) :: r.2)

/-- `org.drums.map(d => [...d])`: one fresh array per step. -/
def copyDrums (h : Heap) : List ℕ → Heap × List ℕ
  | [] => (h, [])
  | dref :: rest =>
      let c := allocDrum h (readDrum h dref)
      let r := copyDrums c.1 rest
      (r.1, c.2 :: r.2)

/-- The deep copy shared by `copyToClipboard`, `pasteFromClipboard` (and
`duplicateBlock`): tracks first, then drums. -/
def copyBlock (h : Heap) (b : HBlock) : Heap × HBlock :=
  let t := copyTracks h b.tracks
  let d := copyDrums t.1 b.drums
  (d.1, { tracks := t.2, drums := d.2 })

def copyToClipboard (h : Heap) (m : HMatrix) (idx : ℕ) :
    (Heap × HMatrix) × Bool :=
  match m.blocks.get? idx with
  | none => ((h, m), false)
  | some b =>
      let c := copyBlock h b
      ((c.1, { m with clipboard := some c.2 }), true)

def pasteFromClipboard (h : Heap) (m : HMatrix) (idx : ℕ) :
    (Heap × HMatrix) × Bool :=
  match m.clipboard with
  | none => ((h, m), false)
  | some src =>
      let c := copyBlock h src
      ((c.1, { m with blocks := TimeMatrix.jsSpliceInsert m.blocks (idx + 1) c.2 }), true)

/-- The editing collaborator's mutations of pattern data (from
`ui_controller.js` / `main.js`): assign a note slot (allocating a fresh
note object), edit a note object in place, or edit a step's drum array
in place. -/
inductive Mutation : Type
  | setSlot (blockIdx : ℕ) (trackId : String) (s : ℕ) (v : Option NoteEvent)
  | editNote (blockIdx : ℕ) (trackId : String) (s : ℕ) (f : NoteEvent → NoteEvent)
  | editDrums (blockIdx : ℕ) (s : ℕ) (f : List String → List String)

def trackRefOf (m : HMatrix) (bIdx : ℕ) (tid : String) : Option ℕ :=
  (m.blocks.get? bIdx).bind
    (fun b => (b.tracks.find? (fun kv => kv.1 = tid)).map (·.2))

def applyMutation (h : Heap) (m : HMatrix) : Mutation → Heap
  | Mutation.setSlot bIdx tid s v =>
      match trackRefOf m bIdx tid with
      | none => h
      | some tref =>
          match v with
          | none => writeTrack h tref ((readTrack h tref).set s none)
          | some n =>
              let a := allocNote h n
              writeTrack a.1 tref ((readTrack a.1 tref).set s (some a.2))
  | Mutation.editNote bIdx tid s f =>
      match trackRefOf m bIdx tid with
      | none => h
      | some tref =>
          match (readTrack h tref).get? s with
          | some (some rn) =>
              (match h.noteObj rn with
               | some n => writeNote h rn (f n)
               | none => h)
          | _ => h
  | Mutation.editDrums bIdx s f =>
      match (m.blocks.get? bIdx).bind (fun b => b.drums.get? s) with
      | none => h
      | some dref => writeDrum h dref (f (readDrum h dref))

/-- A whole editing session: the block/clipboard reference structure is
untouched, only the heap changes. -/
def applyMutations (h : Heap) (m : HMatrix) (muts : List Mutation) : Heap :=
  muts.foldl (fun h' mu => applyMutation h' m mu) h

/-- Dereference a slot. -/
def slotValue (h : Heap) (o : Option ℕ) : Option NoteEvent := o.bind h.noteObj

/-- The observable contents of a track array. -/
def trackValue (h : Heap) (tref : ℕ) : List (Option NoteEvent) :=
  (readTrack h tref).map (slotValue h)

/-- The observable contents of a block: per-track note lists and per-step
drum lists. -/
def blockValue (h : Heap) (b : HBlock) :
    List (String × List (Option NoteEvent)) × List (List String) :=
  (b.tracks.map (fun kv => (kv.1, trackValue h kv.2)),
   b.drums.map (readDrum h))

/-- Every mutable reference reachable from a block: its track arrays, the
note objects its slots hold, and its drum arrays. -/
def blockRefs (h : Heap) (b : HBlock) : List ℕ :=
  b.tracks.map (·.2) ++
  b.tracks.flatMap (fun kv => (readTrack h kv.2).filterMap id) ++
  b.drums

/-- Well-formedness: every reference reachable from the store's blocks
was allocated (is below `next`). -/
def WFMat (h : Heap) (m : HMatrix) : Prop :=
  ∀ b ∈ m.blocks, ∀ r ∈ blockRefs h b, r < h.next

/-- `h'` extends `h`: only fresh cells were added, every already
allocated cell is unchanged. -/
def HeapExt (h' h : Heap) : Prop :=
  h.next ≤ h'.next ∧
  ∀ r, r < h.next →
    h'.noteObj r = h.noteObj r ∧ h'.trackArr r = h.trackArr r ∧
    h'.drumArr r = h.drumArr r

/-- The editing-session invariant after `copyToClipboard` produced the
clipboard block `cb` in heap `h₁`: allocation only moves forward, every
cell the clipboard references still holds its copy-time content, and the
store's blocks never reach a clipboard cell. -/
def MutInv (h₁ : Heap) (cb : HBlock) (m : HMatrix) (h : Heap) : Prop :=
  h₁.next ≤ h.next ∧
  (∀ r ∈ blockRefs h₁ cb,
    h.noteObj r = h₁.noteObj r ∧ h.trackArr r = h₁.trackArr r ∧
    h.drumArr r = h₁.drumArr r) ∧
  (∀ b ∈ m.blocks, ∀ r ∈ blockRefs h b, r ∉ blockRefs h₁ cb ∧ r < h.next)

end HeapModel

/-! ## CSV export / import (from `timematrix.js`, v35)

Strings are modelled as `List Char` (the character sequence of a JS
string); `s.split(sep)` becomes `splitSep`, template-literal
concatenation becomes `++` / `joinSep`, `parseInt` becomes `jsParseInt`
(optional sign, then the decimal-digit prefix; `none` models `NaN`). -/

namespace CSV

/-- Decimal digit characters (`String(n)` emits base-10 digits). -/
def digitChar (d : ℕ) : Char :=
  match d with
  | 0 => '0' | 1 => '1' | 2 => '2' | 3 => '3' | 4 => '4'
  | 5 => '5' | 6 => '6' | 7 => '7' | 8 => '8' | _ => '9'

/-- Fuel-driven decimal printer (most significant digit first); the fuel
`n + 1` always suffices. -/
def natToStrCore : ℕ → ℕ → List Char → List Char
  | 0, _, acc => acc
  | fuel + 1, n, acc =>
      if n < 10 then digitChar n :: acc
      else natToStrCore fuel (n / 10) (digitChar (n % 10) :: acc)

/-- JS `String(n)` for a non-negative integer. -/
def natToStr (n : ℕ) : List Char := natToStrCore (n + 1) n []

/-- JS `String(i)` for an integer (a leading `'-'` when negative). -/
def intToStr (i : ℤ) : List Char :=
  if i < 0 then '-' :: natToStr i.natAbs else natToStr i.toNat

def charVal (c : Char) : ℕ := c.toNat - 48

def parseDigitsVal : List Char → ℕ → ℕ
  | [], acc => acc
  | c :: cs, acc => parseDigitsVal cs (acc * 10 + charVal c)

/-- JS `parseInt(s)` (radix 10) on a whitespace-free string: an optional
sign, then the longest decimal-digit prefix; `none` models `NaN`. -/
def jsParseInt (s : List Char) : Option ℤ :=
  if s.head? = some '-' then
    (if (s.drop 1).takeWhile Char.isDigit = [] then none
     else some (-(parseDigitsVal ((s.drop 1).takeWhile Char.isDigit) 0 : ℤ)))
  else if s.head? = some '+' then
    (if (s.drop 1).takeWhile Char.isDigit = [] then none
     else some (parseDigitsVal ((s.drop 1).takeWhile Char.isDigit) 0))
  else
    (if s.takeWhile Char.isDigit = [] then none
     else some (parseDigitsVal (s.takeWhile Char.isDigit) 0))

/-- JS `s.split(sep)` for a one-character separator: always returns at
least one (possibly empty) part. -/
def splitSep (sep : Char) : List Char → List (List Char)
  | [] => [[]]
  | c :: rest =>
      match splitSep sep rest with
      | [] => [[c]]
      | p :: ps => if c = sep then [] :: p :: ps else (c :: p) :: ps

/-- Join with a one-character separator (inverse of `splitSep` on
separator-free parts). -/
def joinSep (sep : Char) : List (List Char) → List Char
  | [] => []
  | [p] => p
  | p :: ps => p ++ sep :: joinSep sep ps

/-- The whitespace class stripped by `String.prototype.trim`. -/
def isSpaceCh (c : Char) : Bool := c = ' ' ∨ c = '\n' ∨ c = '\t' ∨ c = '\r'

/-- JS `s.trim()`. -/
def jsTrim (s : List Char) : List Char :=
  ((s.dropWhile isSpaceCh).reverse.dropWhile isSpaceCh).reverse

/-- `this.noteMap` of the v35 `TimeMatrix` (1-based pitch-class codes). -/
def noteMapCSV : List (String × ℕ) :=
  [("C", 1), ("C#", 2), ("D", 3), ("D#", 4), ("E", 5), ("F", 6),
   ("F#", 7), ("G", 8), ("G#", 9), ("A", 10), ("A#", 11), ("B", 12)]

/-- `this.noteMapRev` (index 0 is the `'-'` placeholder). -/
def noteMapRevCSV : List String :=
  ["-", "C", "C#", "D", "D#", "E", "F"] ++ ["F#", "G", "G#", "A", "A#", "B"]

/-- The fixed drum channel order of the CSV format. -/
def drumOrder : List String :=
  ["kick", "snare", "clap", "hat", "ohat", "tom", "htom"]

/-- A bass synth's exportable configuration (`synth.id`, `synth.params`).
The nine numeric parameters are UI slider values (integers); `waveform`
is the string `"square"` or `"sawtooth"`. -/
structure SynthConfig where
  id : String
  volume : ℕ
  distortion : ℕ
  distTone : ℕ
  distGain : ℕ
  cutoff : ℕ
  resonance : ℕ
  envMod : ℕ
  decay : ℕ
  accentInt : ℕ
  waveform : String
deriving DecidableEq, Repr

/-- One note cell: `"0"` for an empty slot, else
`"{noteInt}-{octave}-{slideFlag}-{accentFlag}"` with
`noteInt = noteMap[n.note] || 0`. -/
def encodeNoteCell (n : Option NoteEvent) : List Char :=
  match n with
  | none => ['0']
  | some nv =>
      let nInt := (((noteMapCSV.find? (fun kv => kv.1 = nv.note)).map (·.2)).getD 0)
      joinSep '-' [natToStr nInt, intToStr nv.octave,
                   if nv.slide then ['1'] else ['0'],
                   if nv.accent then ['1'] else ['0']]

/-- The config cell of a synth row:
`"{id}:{volume}-{distortion}-{distTone}-{distGain}-{cutoff}-{resonance}-{envMod}-{decay}-{accentInt}-{waveInt}"`. -/
def configCell (sc : SynthConfig) : List Char :=
  sc.id.data ++ ':' ::
    joinSep '-' [natToStr sc.volume, natToStr sc.distortion,
                 natToStr sc.distTone, natToStr sc.distGain,
                 natToStr sc.cutoff, natToStr sc.resonance,
                 natToStr sc.envMod, natToStr sc.decay,
                 natToStr sc.accentInt,
                 natToStr (if sc.waveform = "square" then 1 else 0)]

/-- A synth's row: the config cell, then one note cell per global step
(blocks in order, `this.totalSteps` steps each;
`const n = track ? track[s] : null`). -/
def trackRowCells (m : TimeMatrix) (sc : SynthConfig) : List (List Char) :=
  configCell sc ::
    m.blocks.flatMap (fun block =>
      (List.range m.totalSteps).map (fun s =>
        encodeNoteCell
          (match TimeMatrix.trackOf block sc.id with
           | some track => (track.get? s).getD none
           | none => none)))

/-- One drum cell: a fixed-width binary string, one bit per channel of
`drumOrder` (`dStep.includes(dId) ? "1" : "0"`). -/
def binCell (dStep : List String) : List Char :=
  drumOrder.map (fun d => if dStep.contains d then '1' else '0')

/-- The drum row: `"drums:7"`, then one binary cell per global step
(`const dStep = block.drums[s] || []`). -/
def drumRowCells (m : TimeMatrix) : List (List Char) :=
  "drums:7".data ::
    m.blocks.flatMap (fun block =>
      (List.range m.totalSteps).map (fun s =>
        binCell ((block.drums.get? s).getD [])))

/-- The header row: `"{bpm}-{totalStepsGlobal}-{synthCount}"` followed by
the 1-based step labels. -/
def headerCells (bpm : ℕ) (m : TimeMatrix) (synthCount : ℕ) : List (List Char) :=
  joinSep '-' [natToStr bpm, natToStr (m.blocks.length * m.totalSteps),
               natToStr synthCount] ::
    (List.range (m.blocks.length * m.totalSteps)).map (fun i => natToStr (i + 1))

/-- `exportToCSV` as a cell grid: header row, one row per synth of
`audioEngine.bassSynths`, then the drum row. -/
def exportCells (bpm : ℕ) (m : TimeMatrix) (synths : List SynthConfig) :
    List (List (List Char)) :=
  headerCells bpm m synths.length :: (synths.map (trackRowCells m) ++ [drumRowCells m])

/-- The text `exportToCSV` returns: cells joined by `','`, rows joined by
`'\n'` (the source appends `"\n"` after the header and after each synth
row and ends with the drum row, i.e. exactly this intercalation). -/
def exportCSVText (bpm : ℕ) (m : TimeMatrix) (synths : List SynthConfig) :
    List Char :=
  joinSep '\n' ((exportCells bpm m synths).map (joinSep ','))

/-- `addBlock()` (from `timematrix.js`): append a block whose track keys
mirror the first block's (or seed `'bass-1'` when the store is empty),
with `totalSteps` empty slots and drum lists. -/
def addBlock (m : TimeMatrix) : TimeMatrix :=
  let newTracks : List (String × List (Option NoteEvent)) :=
    match m.blocks.head? with
    | some b0 => b0.tracks.map (fun kv => (kv.1, List.replicate m.totalSteps none))
    | none => [("bass-1", List.replicate m.totalSteps none)]
  { m with blocks := m.blocks ++
      [{ tracks := newTracks, drums := List.replicate m.totalSteps [] }] }

/-- `registerTrack(id)`: give every block an empty slot array under `id`
if it lacks one (JS property insertion appends the key last). -/
def registerTrack (m : TimeMatrix) (id : String) : TimeMatrix :=
  { m with blocks := m.blocks.map (fun b =>
      if (b.tracks.find? (fun kv => kv.1 = id)).isSome then b
      else { b with tracks := b.tracks ++ [(id, List.replicate m.totalSteps none)] }) }

/-- `this.blocks[blockIdx].tracks[id][stepIdx] = v` (no-op on a missing
key; the importer always registers the key first). -/
def setTrackSlot (b : PatBlock) (id : String) (s : ℕ) (v : Option NoteEvent) :
    PatBlock :=
  { b with tracks := b.tracks.map (fun kv =>
      if kv.1 = id then (kv.1, kv.2.set s v) else kv) }

/-- The drum ids a binary cell activates:
`binary[bit] === '1' && drumOrder[bit]`. -/
def decodeBin (bin : List Char) : List String :=
  (List.range bin.length).filterMap (fun bit =>
    match drumOrder.get? bit with
    | some d => if bin.get? bit = some '1' then some d else none
    | none => none)

/-- One iteration of the drum-row import loop at global step `sg`
(an absent or empty cell is skipped: `if(!binary) continue`). -/
def importDrumStep (S : ℕ) (cells : List (List Char)) (m : TimeMatrix)
    (sg : ℕ) : TimeMatrix :=
  match cells.get? (sg + 1) with
  | none => m
  | some [] => m
  | some bin =>
      match m.blocks.get? (sg / S) with
      | none => m
      | some b =>
          let b' : PatBlock := { b with drums := b.drums.set (sg % S) (decodeBin bin) }
          { m with blocks := m.blocks.set (sg / S) b' }

/-- One iteration of a track row's note import loop at global step `sg`:
skip `""`/`"0"` cells and cells that do not split into exactly 4 parts
or whose note code resolves to no `noteMapRev` entry; otherwise store the
decoded note.  (`parseInt(nParts[1])` cannot be `NaN` for exported text;
the `getD 0` default is unreachable there.) -/
def importNoteStep (S : ℕ) (id : String) (cells : List (List Char))
    (m : TimeMatrix) (sg : ℕ) : TimeMatrix :=
  match cells.get? (sg + 1) with
  | none => m
  | some nd =>
      if nd = [] ∨ nd = ['0'] then m
      else
        match splitSep '-' nd with
        | [p0, p1, p2, p3] =>
            (match jsParseInt p0 with
             | none => m
             | some k =>
                 match (if 0 ≤ k then noteMapRevCSV.get? k.toNat else none) with
                 | none => m
                 | some name =>
                     match m.blocks.get? (sg / S) with
                     | none => m
                     | some b =>
                         let nv : NoteEvent :=
                           { note := name, octave := (jsParseInt p1).getD 0
                             slide := p2 = ['1'], accent := p3 = ['1'] }
                         let b' := setTrackSlot b id (sg % S) (some nv)
                         { m with blocks := m.blocks.set (sg / S) b' })
        | _ => m

/-- Import one data row: the drum row when the first cell starts with
`"drums"`, a synth/track row when it contains `':'` (the nine synth
parameter writes touch only the voice objects, not the pattern store,
and are omitted here), anything else is ignored. -/
def importRow (S tsg : ℕ) (m : TimeMatrix) (line : List Char) : TimeMatrix :=
  let cells := splitSep ',' line
  let config := (cells.get? 0).getD []
  if "drums".data.isPrefixOf config then
    (List.range tsg).foldl (importDrumStep S cells) m
  else if config.contains ':' then
    let id : String := String.mk ((splitSep ':' config).headD [])
    (List.range tsg).foldl (importNoteStep S id cells) (registerTrack m id)
  else m

/-- `importFromCSV` (from `timematrix.js`, v35) on the character level.
`none` models the `return false` paths taken before any mutation
(`lines.length < 2`, `NaN` metadata); on success it returns the new
`AppState.bpm` and the rebuilt store (`this.blocks = []`, then
`ceil(totalStepsGlobal / totalSteps)` calls of `addBlock`, then the data
rows). -/
def importFromCSV (S : ℕ) (text : List Char) : Option (ℤ × TimeMatrix) :=
  let lines := splitSep '\n' (jsTrim text)
  if lines.length < 2 then none
  else
    let hdr := splitSep ',' (lines.headD [])
    let meta := splitSep '-' (hdr.headD [])
    match jsParseInt ((meta.get? 0).getD []), jsParseInt ((meta.get? 1).getD []) with
    | some bpm, some tsg =>
        let blocksNeeded : ℕ := if tsg ≤ 0 then 0 else (tsg.toNat + S - 1) / S
        let m0 : TimeMatrix := { totalSteps := S, blocks := [], clipboard := none }
        let m1 := (List.range blocksNeeded).foldl (fun m _ => addBlock m) m0
        some (bpm, (lines.drop 1).foldl (importRow S tsg.toNat) m1)
    | _, _ => none

/-- A usable track id for the CSV format: non-empty, free of the
delimiter characters (`','`, `'\n'`, `':'`) and of trim-able
whitespace, and not beginning with `"drums"` (which would misroute the
row to the drum branch). -/
def GoodId (id : String) : Prop :=
  id.data ≠ [] ∧
  (∀ c ∈ id.data, c ≠ ',' ∧ c ≠ '\n' ∧ c ≠ ':' ∧ isSpaceCh c = false) ∧
  "drums".data.isPrefixOf id.data = false

/-- The per-cell decision of a track row's import loop (extracted from
`importNoteStep`): the note the cell stores, or `none` when the cell is
skipped. -/
def decodeNoteCell (c : Option (List Char)) : Option NoteEvent :=
  match c with
  | none => none
  | some nd =>
      if nd = [] ∨ nd = ['0'] then none
      else
        match splitSep '-' nd with
        | [p0, p1, p2, p3] =>
            (match jsParseInt p0 with
             | none => none
             | some k =>
                 match (if 0 ≤ k then noteMapRevCSV.get? k.toNat else none) with
                 | none => none
                 | some name =>
                     some { note := name, octave := (jsParseInt p1).getD 0
                            slide := p2 = ['1'], accent := p3 = ['1'] })
        | _ => none

/-- The note of track `id` at `(block, step)`, `none` when the block,
track or slot is missing. -/
def noteAt (m : TimeMatrix) (bIdx : ℕ) (id : String) (s : ℕ) : Option NoteEvent :=
  match m.blocks.get? bIdx with
  | none => none
  | some b =>
      match TimeMatrix.trackOf b id with
      | none => none
      | some tr => (tr.get? s).getD none

/-- The drum ids triggered at `(block, step)`. -/
def drumsAt (m : TimeMatrix) (bIdx : ℕ) (s : ℕ) : List String :=
  ((m.blocks.get? bIdx).bind (fun b => b.drums.get? s)).getD []

/-- Whether a block of the store carries a slot array for track `id`. -/
def hasTrackKey (m : TimeMatrix) (bIdx : ℕ) (id : String) : Prop :=
  ∃ b, m.blocks.get? bIdx = some b ∧ (TimeMatrix.trackOf b id).isSome

/-- A note survives the CSV round-trip exactly: its pitch name is a
`noteMap` key (otherwise the export writes code `0`, which the import
resolves to the `'-'` placeholder) and its octave is non-negative (a
negative octave prints a `'-'` that collides with the cell's field
separator). -/
def ValidNote (nv : NoteEvent) : Prop :=
  nv.note ∈ noteMapCSV.map (fun kv => kv.1) ∧ 0 ≤ nv.octave

instance (nv : NoteEvent) : Decidable (ValidNote nv) :=
  inferInstanceAs (Decidable (_ ∧ _))

instance (id : String) : Decidable (GoodId id) :=
  inferInstanceAs (Decidable (_ ∧ _ ∧ _))

/-- A cell that stays one cell of one row: no comma, no newline. -/
def CellOK (p : List Char) : Prop := ∀ c ∈ p, c ≠ ',' ∧ c ≠ '\n'

end CSV

/-! # Theorems -/

/-! ## C7: filter envelope decay policy -/

/-- C7: for every note with decay parameter `d ∈ [0,100]`, gate length
`g` and flags `slide`/`accent`, the filter envelope decay time is
`g * 1.2` when `slide` is set (slide wins the tie-break over accent),
else `0.18` when `accent` is set, else `0.1 + (d/100) * 0.8`, whose
range over `d ∈ [0,100]` is `[0.1, 0.9]`. -/
theorem filter_decay_policy (p : BassParams) (g : ℚ) (slide accent : Bool)
    (h0 : 0 ≤ p.decay) (h1 : p.decay ≤ 100) :
    (BassFilter.create p g slide accent).decayTime =
      (if slide then g * 1.2
       else if accent then 0.18
       else 0.1 + p.decay / 100 * 0.8) ∧
    (slide = false → accent = false →
      0.1 ≤ (BassFilter.create p g slide accent).decayTime ∧
      (BassFilter.create p g slide accent).decayTime ≤ 0.9) := by
  constructor
  · show (if slide then g * 1.2 else if accent then 0.18
        else 0.1 + p.decay / 100 * 0.8) = _
    rfl
  · intro hs ha
    subst hs; subst ha
    show 0.1 ≤ 0.1 + p.decay / 100 * 0.8 ∧ 0.1 + p.decay / 100 * 0.8 ≤ 0.9
    constructor <;> nlinarith

theorem filter_decay_policy_witness :
    (0 ≤ (40 : ℚ) ∧ (40 : ℚ) ≤ 100) ∧
    ((BassFilter.create ⟨40, 8, 60, 40⟩ (1/4) true true).decayTime =
       (if true then (1/4 : ℚ) * 1.2 else if true then 0.18
        else 0.1 + 40 / 100 * 0.8) ∧
     (true = false → true = false →
       0.1 ≤ (BassFilter.create ⟨40, 8, 60, 40⟩ (1/4) true true).decayTime ∧
       (BassFilter.create ⟨40, 8, 60, 40⟩ (1/4) true true).decayTime ≤ 0.9)) :=
  ⟨⟨by norm_num, by norm_num⟩,
   filter_decay_policy ⟨40, 8, 60, 40⟩ (1/4) true true (by norm_num) (by norm_num)⟩

/-! ## C3: WAV 16-bit quantization -/

/-- C3 counterexample: at sample `s = -1/4` the encoder yields `-8191`
(it truncates `-1/4 × 32767 = -8191.75` toward zero, because the JS
condition `0.5 + sample < 0` tests against `-0.5`, not `0`), while the
claimed `round(s * 32768)` quantization yields `-8192`. -/
theorem wav_quantize_neq_spec_at_neg_quarter :
    wavQuantize (-1/4) = -8191 ∧ specQuantize (-1/4) = -8192 ∧
    wavQuantize (-1/4) ≠ specQuantize (-1/4) := by
  have hmax : max (-1 : ℚ) (min 1 (-1/4)) = -1/4 := by
    rw [min_eq_right (by norm_num), max_eq_right (by norm_num)]
  have h1 : wavQuantize (-1/4) = -8191 := by
    simp only [wavQuantize, hmax]
    rw [if_neg (by norm_num)]
    unfold jsTruncToInt
    rw [if_neg (by norm_num)]
    rw [Int.ceil_eq_iff]
    constructor <;> norm_num
  have h2 : specQuantize (-1/4) = -8192 := by
    simp only [specQuantize, hmax]
    rw [if_pos (by norm_num)]
    rw [show ((-1 : ℚ)/4 * 32768) = ((-8192 : ℤ) : ℚ) by norm_num]
    exact round_intCast _
  exact ⟨h1, h2, by rw [h1, h2]; decide⟩

/-- C3 amended: the encoder clamps `s` to `[-1,1]` and converts by
truncation toward zero — scaling by `32768` when the clamped value is
below `-1/2` and by `32767` otherwise (not by round, and with the
branch threshold at `-1/2` rather than `0`); the result always lies in
`[-32768, 32767]` and is written as two bytes, least significant first,
in 16-bit two's complement. -/
theorem wav_quantize_spec (s : ℚ) :
    wavQuantize s =
      (if max (-1) (min 1 s) < -(1/2)
       then jsTruncToInt (max (-1) (min 1 s) * 32768)
       else jsTruncToInt (max (-1) (min 1 s) * 32767)) ∧
    (-32768 ≤ wavQuantize s ∧ wavQuantize s ≤ 32767) ∧
    (∃ lo hi : ℕ, int16LEBytes (wavQuantize s) = [lo, hi] ∧
       lo < 256 ∧ hi < 256 ∧
       (lo : ℤ) + 256 * hi = wavQuantize s % 65536) := by
  have hc1 : (-1 : ℚ) ≤ max (-1) (min 1 s) := le_max_left _ _
  have hc2 : max (-1) (min 1 s) ≤ 1 := by
    apply max_le (by norm_num)
    exact min_le_left _ _
  have hiff : (1/2 + max (-1) (min 1 s) < 0) ↔ (max (-1) (min 1 s) < -(1/2)) := by
    constructor <;> intro <;> linarith
  have htrunc : ∀ (x : ℚ) (a b : ℤ), (a : ℚ) ≤ x → x ≤ (b : ℚ) →
      a ≤ jsTruncToInt x ∧ jsTruncToInt x ≤ b := by
    intro x a b hax hxb
    unfold jsTruncToInt
    by_cases h : 0 ≤ x
    · rw [if_pos h]
      refine ⟨Int.le_floor.mpr hax, ?_⟩
      have := Int.floor_mono hxb
      simpa using this
    · rw [if_neg h]
      refine ⟨?_, Int.ceil_le.mpr hxb⟩
      have := Int.ceil_mono hax
      simpa using this
  have heq : wavQuantize s =
      (if max (-1) (min 1 s) < -(1/2)
       then jsTruncToInt (max (-1) (min 1 s) * 32768)
       else jsTruncToInt (max (-1) (min 1 s) * 32767)) := by
    unfold wavQuantize
    rw [if_congr hiff rfl rfl]
  have hbounds : -32768 ≤ wavQuantize s ∧ wavQuantize s ≤ 32767 := by
    rw [heq]
    by_cases h : max (-1) (min 1 s) < -(1/2)
    · rw [if_pos h]
      have := htrunc (max (-1) (min 1 s) * 32768) (-32768) 32767
        (by push_cast; nlinarith) (by push_cast; nlinarith)
      exact this
    · rw [if_neg h]
      push_neg at h
      have := htrunc (max (-1) (min 1 s) * 32767) (-32768) 32767
        (by push_cast; nlinarith) (by push_cast; nlinarith)
      exact this
  refine ⟨heq, hbounds, ?_⟩
  refine ⟨(wavQuantize s % 65536).toNat % 256, ((wavQuantize s % 65536).toNat / 256) % 256,
    rfl, Nat.mod_lt _ (by norm_num), Nat.mod_lt _ (by norm_num), ?_⟩
  have hnn : 0 ≤ wavQuantize s % 65536 := Int.emod_nonneg _ (by norm_num)
  have hlt : wavQuantize s % 65536 < 65536 := Int.emod_lt_of_pos _ (by norm_num)
  set u := (wavQuantize s % 65536).toNat with hu
  have hub : u < 65536 := by omega
  have h2 : (u : ℤ) = wavQuantize s % 65536 := by omega
  rw [← h2]
  have : u % 256 + 256 * (u / 256 % 256) = u := by omega
  push_cast
  omega

/-! ## C5: last-block protection -/

/-- C5: on a single-block store, `removeBlock(idx)` (for any `idx`)
keeps the block count at 1 and clears the block's contents instead
(every note slot emptied, every drum list emptied); in general a
`removeBlock` call — hence any sequence of them — never brings the
block count below 1. -/
theorem removeBlock_last_block_protection (m : TimeMatrix) (idx : ℤ)
    (hm : 1 ≤ m.blocks.length) :
    (m.blocks.length = 1 →
      ∃ b0 b', m.blocks = [b0] ∧ (m.removeBlock idx).blocks = [b'] ∧
        b'.tracks = b0.tracks.map (fun kv => (kv.1, kv.2.map (fun _ => none))) ∧
        b'.drums = b0.drums.map (fun _ => ([] : List String))) ∧
    1 ≤ (m.removeBlock idx).blocks.length ∧
    ∀ idxs : List ℤ, 1 ≤ (idxs.foldl TimeMatrix.removeBlock m).blocks.length := by
  have hstep : ∀ (m' : TimeMatrix) (i : ℤ), 1 ≤ m'.blocks.length →
      1 ≤ (m'.removeBlock i).blocks.length := by
    intro m' i h1
    unfold TimeMatrix.removeBlock
    by_cases hl : m'.blocks.length ≤ 1
    · rw [if_pos hl]
      unfold TimeMatrix.clearBlock
      cases hg : m'.blocks.get? 0 with
      | none => simpa using h1
      | some b =>
          simp only [hg, List.length_set]
          exact h1
    · rw [if_neg hl]
      unfold TimeMatrix.jsSpliceRemove1
      push_neg at hl
      dsimp only
      by_cases hlt :
          (if i < 0 then (i + m'.blocks.length).toNat else i.toNat) < m'.blocks.length
      · rw [if_pos hlt]
        simp only [List.length_append, List.length_take, List.length_drop]
        omega
      · rw [if_neg hlt]
        omega
  refine ⟨?_, hstep m idx hm, ?_⟩
  · intro h1
    obtain ⟨b0, hb0⟩ := List.length_eq_one.mp h1
    refine ⟨b0,
      ⟨b0.tracks.map (fun kv => (kv.1, kv.2.map (fun _ => none))),
       b0.drums.map (fun _ => [])⟩, hb0, ?_, rfl, rfl⟩
    unfold TimeMatrix.removeBlock
    rw [if_pos (by omega)]
    unfold TimeMatrix.clearBlock
    rw [hb0]
    rfl
  · intro idxs
    induction idxs generalizing m with
    | nil => simpa using hm
    | cons i rest ih =>
        simpa using ih (m.removeBlock i) (hstep m i hm)

theorem removeBlock_last_block_protection_witness :
    1 ≤ (TimeMatrix.mk 16 [⟨[("bass-1", [some ⟨"C", 2, false, false⟩])], [["kick"]]⟩] none).blocks.length ∧
    1 ≤ ((TimeMatrix.mk 16 [⟨[("bass-1", [some ⟨"C", 2, false, false⟩])], [["kick"]]⟩] none).removeBlock 0).blocks.length :=
  ⟨by decide,
   (removeBlock_last_block_protection
     (TimeMatrix.mk 16 [⟨[("bass-1", [some ⟨"C", 2, false, false⟩])], [["kick"]]⟩] none)
     0 (by decide)).2.1⟩

/-! ## C9: structural operations at invalid indices -/

/-- C9 counterexample: `removeBlock(-1)` on a two-block store does
modify the store — JS `splice` interprets the negative start
end-relatively and removes the last block — refuting that `removeBlock`
at an invalid index leaves the store unmodified (the method also
returns `undefined`, not a boolean indicator). -/
theorem removeBlock_negative_index_modifies :
    (TimeMatrix.removeBlock
        ⟨16, [⟨[], []⟩, ⟨[], [["kick"]]⟩], none⟩ (-1)).blocks ≠
      ([⟨[], []⟩, ⟨[], [["kick"]]⟩] : List PatBlock) := by
  decide

/-- C9 amended: `moveBlock(idx, dir)` returns failure and leaves the
store unchanged whenever the target `idx + dir` is out of bounds;
`pasteFromClipboard` with no prior copy returns failure and changes
nothing; `removeBlock` returns no indicator at all, and at an invalid
*non-negative* index (with at least two blocks) it is a no-op — a
negative index, however, is interpreted end-relatively by `splice` and
can remove a block. -/
theorem structural_ops_invalid_index (m : TimeMatrix) (idx dir : ℤ) (j : ℕ) :
    ((idx + dir < 0 ∨ (m.blocks.length : ℤ) ≤ idx + dir) →
      m.moveBlock idx dir = (m, false)) ∧
    (m.clipboard = none → m.pasteFromClipboard j = (m, false)) ∧
    (2 ≤ m.blocks.length → (m.blocks.length : ℤ) ≤ idx →
      m.removeBlock idx = m) := by
  refine ⟨?_, ?_, ?_⟩
  · intro h
    unfold TimeMatrix.moveBlock
    rw [if_pos h]
  · intro h
    unfold TimeMatrix.pasteFromClipboard
    rw [h]
  · intro h2 hidx
    unfold TimeMatrix.removeBlock
    rw [if_neg (by omega)]
    unfold TimeMatrix.jsSpliceRemove1
    have hpos : ¬ idx < 0 := by omega
    rw [if_neg hpos]
    rw [if_neg (by omega)]

theorem structural_ops_invalid_index_witness :
    ((5 + 1 < 0 ∨ ((TimeMatrix.mk 16 [⟨[], []⟩, ⟨[], []⟩] none).blocks.length : ℤ) ≤ 5 + 1)) ∧
    (TimeMatrix.mk 16 [⟨[], []⟩, ⟨[], []⟩] none).moveBlock 5 1 =
      (TimeMatrix.mk 16 [⟨[], []⟩, ⟨[], []⟩] none, false) ∧
    (TimeMatrix.mk 16 [⟨[], []⟩, ⟨[], []⟩] none).pasteFromClipboard 0 =
      (TimeMatrix.mk 16 [⟨[], []⟩, ⟨[], []⟩] none, false) ∧
    (TimeMatrix.mk 16 [⟨[], []⟩, ⟨[], []⟩] none).removeBlock 7 =
      TimeMatrix.mk 16 [⟨[], []⟩, ⟨[], []⟩] none := by
  have h := structural_ops_invalid_index (TimeMatrix.mk 16 [⟨[], []⟩, ⟨[], []⟩] none) 5 1 0
  have h7 := structural_ops_invalid_index (TimeMatrix.mk 16 [⟨[], []⟩, ⟨[], []⟩] none) 7 0 0
  exact ⟨Or.inr (by norm_num), h.1 (Or.inr (by norm_num)), h.2.1 rfl,
    h7.2.2 (by norm_num) (by norm_num)⟩

/-! ## C1: look-ahead completeness -/

theorem secPerStep_pos (bpm : ℚ) (hb : 0 < bpm) : 0 < secPerStep bpm := by
  unfold secPerStep; positivity

/-- One look-ahead loop invocation dispatches exactly the consecutive
iterates of `advanceNote` from its start state, and ends in the
corresponding iterate. -/
theorem scheduler_dispatches_iterates (bpm : ℚ) (hb : 0 < bpm) (S N : ℕ)
    (clock : ℚ) (st : SchedState) :
    (scheduler bpm hb S N clock st).1 =
      (List.range (scheduler bpm hb S N clock st).1.length).map
        (fun k => (((advanceNote bpm S N)^[k] st).step,
                   ((advanceNote bpm S N)^[k] st).block)) ∧
    (scheduler bpm hb S N clock st).2 =
      (advanceNote bpm S N)^[(scheduler bpm hb S N clock st).1.length] st := by
  have hΔ : 0 < secPerStep bpm := secPerStep_pos bpm hb
  suffices H : ∀ (n : ℕ) (st : SchedState),
      (⌈(clock + lookaheadWindow - st.nextNoteTime) / secPerStep bpm⌉).toNat ≤ n →
      (scheduler bpm hb S N clock st).1 =
        (List.range (scheduler bpm hb S N clock st).1.length).map
          (fun k => (((advanceNote bpm S N)^[k] st).step,
                     ((advanceNote bpm S N)^[k] st).block)) ∧
      (scheduler bpm hb S N clock st).2 =
        (advanceNote bpm S N)^[(scheduler bpm hb S N clock st).1.length] st by
    exact H _ st le_rfl
  intro n
  induction n with
  | zero =>
      intro st hle
      have hstop : ¬ st.nextNoteTime < clock + lookaheadWindow := by
        intro hc
        have hpos : (0 : ℤ) <
            ⌈(clock + lookaheadWindow - st.nextNoteTime) / secPerStep bpm⌉ := by
          rw [Int.ceil_pos]
          exact div_pos (by linarith) hΔ
        omega
      rw [scheduler, dif_neg hstop]
      exact ⟨rfl, rfl⟩
  | succ n ih =>
      intro st hle
      by_cases hc : st.nextNoteTime < clock + lookaheadWindow
      · have hμ : (⌈(clock + lookaheadWindow -
            (advanceNote bpm S N st).nextNoteTime) / secPerStep bpm⌉).toNat ≤ n := by
          have hadv : (advanceNote bpm S N st).nextNoteTime
              = st.nextNoteTime + secPerStep bpm := rfl
          rw [hadv]
          have h1 : (clock + lookaheadWindow - (st.nextNoteTime + secPerStep bpm))
              / secPerStep bpm
              = (clock + lookaheadWindow - st.nextNoteTime) / secPerStep bpm - 1 := by
            field_simp
            ring
          rw [h1, Int.ceil_sub_one]
          have h2 : (0 : ℤ) <
              ⌈(clock + lookaheadWindow - st.nextNoteTime) / secPerStep bpm⌉ := by
            rw [Int.ceil_pos]
            exact div_pos (by linarith) hΔ
          omega
        obtain ⟨ih1, ih2⟩ := ih (advanceNote bpm S N st) hμ
        rw [scheduler, dif_pos hc]
        dsimp only
        set n := (scheduler bpm hb S N clock (advanceNote bpm S N st)).1.length with hn
        constructor
        · rw [List.length_cons, ← hn, List.range_succ_eq_map, List.map_cons,
              List.map_map, ih1]
          refine congrArg₂ List.cons ?_ ?_
          · simp
          · refine List.map_congr_left ?_
            intro k _
            simp [Function.iterate_succ_apply]
        · rw [List.length_cons, ← hn, ih2, ← Function.iterate_succ_apply]
      · rw [scheduler, dif_neg hc]
        exact ⟨rfl, rfl⟩

/-- Any sequence of scheduler ticks dispatches exactly the consecutive
iterates of `advanceNote` from the start state. -/
theorem schedulerRun_dispatches_iterates (bpm : ℚ) (hb : 0 < bpm) (S N : ℕ)
    (ticks : List ℚ) (st : SchedState) :
    (schedulerRun bpm hb S N ticks st).1 =
      (List.range (schedulerRun bpm hb S N ticks st).1.length).map
        (fun k => (((advanceNote bpm S N)^[k] st).step,
                   ((advanceNote bpm S N)^[k] st).block)) ∧
    (schedulerRun bpm hb S N ticks st).2 =
      (advanceNote bpm S N)^[(schedulerRun bpm hb S N ticks st).1.length] st := by
  induction ticks generalizing st with
  | nil => exact ⟨rfl, rfl⟩
  | cons c cs ih =>
      obtain ⟨h1, h2⟩ := scheduler_dispatches_iterates bpm hb S N c st
      obtain ⟨ih1, ih2⟩ := ih (scheduler bpm hb S N c st).2
      simp only [schedulerRun]
      set n1 := (scheduler bpm hb S N c st).1.length with hn1
      set n2 := (schedulerRun bpm hb S N cs (scheduler bpm hb S N c st).2).1.length with hn2
      have hiter : ∀ k, (advanceNote bpm S N)^[k] ((scheduler bpm hb S N c st).2)
          = (advanceNote bpm S N)^[k + n1] st := by
        intro k
        rw [h2, ← Function.iterate_add_apply]
      constructor
      · dsimp only
        rw [List.length_append, ← hn1, ← hn2, h1, ih1,
            List.range_add, List.map_append, List.map_map]
        congr 1
        refine List.map_congr_left ?_
        intro k _
        simp only [Function.comp_apply, hiter k]
        rw [Nat.add_comm n1 k]
      · dsimp only
        rw [List.length_append, ← hn1, ← hn2, ih2, hiter n2, Nat.add_comm n2 n1]

/-- C1: for every sequence of scheduler tick times (clock readings) and
any start state, the `(step, block)` pairs dispatched by the repeated
look-ahead loops are, in order, exactly the consecutive one-step
advances of the cursor from the start state — the step wrapping to 0 at
`totalSteps` with the block advancing, the block wrapping to 0 at the
block-chain length — with the `k`-th dispatched step scheduled at
`start + k * secPerStep` where `secPerStep = 60/bpm/4`; no step is
skipped or dispatched out of order, regardless of the gaps between
ticks. -/
theorem lookahead_completeness (bpm : ℚ) (hb : 0 < bpm) (S N : ℕ)
    (ticks : List ℚ) (st : SchedState) :
    (schedulerRun bpm hb S N ticks st).1 =
      (List.range (schedulerRun bpm hb S N ticks st).1.length).map
        (fun k => (((advanceNote bpm S N)^[k] st).step,
                   ((advanceNote bpm S N)^[k] st).block)) ∧
    (∀ k : ℕ, ((advanceNote bpm S N)^[k] st).nextNoteTime =
        st.nextNoteTime + k * secPerStep bpm) ∧
    (∀ k : ℕ, ((advanceNote bpm S N)^[k] st).step =
        ((advanceCursor S N)^[k] (st.step, st.block)).1 ∧
      ((advanceNote bpm S N)^[k] st).block =
        ((advanceCursor S N)^[k] (st.step, st.block)).2) := by
  refine ⟨(schedulerRun_dispatches_iterates bpm hb S N ticks st).1, ?_, ?_⟩
  · intro k
    induction k with
    | zero => simp
    | succ k ihk =>
        rw [Function.iterate_succ_apply']
        show ((advanceNote bpm S N)^[k] st).nextNoteTime + secPerStep bpm = _
        rw [ihk]
        push_cast
        ring
  · intro k
    induction k with
    | zero => exact ⟨rfl, rfl⟩
    | succ k ihk =>
        rw [Function.iterate_succ_apply', Function.iterate_succ_apply']
        obtain ⟨hs, hbk⟩ := ihk
        constructor
        · show (advanceCursor S N (((advanceNote bpm S N)^[k] st).step,
              ((advanceNote bpm S N)^[k] st).block)).1 = _
          rw [hs, hbk]
        · show (advanceCursor S N (((advanceNote bpm S N)^[k] st).step,
              ((advanceNote bpm S N)^[k] st).block)).2 = _
          rw [hs, hbk]

theorem lookahead_completeness_witness :
    0 < (120 : ℚ) ∧
    ((schedulerRun 120 (by norm_num) 16 2 [0, 1] ⟨1/10, 0, 0⟩).1 =
      (List.range (schedulerRun 120 (by norm_num) 16 2 [0, 1] ⟨1/10, 0, 0⟩).1.length).map
        (fun k => (((advanceNote 120 16 2)^[k] ⟨1/10, 0, 0⟩).step,
                   ((advanceNote 120 16 2)^[k] ⟨1/10, 0, 0⟩).block))) :=
  ⟨by norm_num, (lookahead_completeness 120 (by norm_num) 16 2 [0, 1] ⟨1/10, 0, 0⟩).1⟩

/-! ## C2: offline/live dispatch parity -/

theorem relativeEvents_append (a b : List DispatchEvent) (base : ℚ) :
    relativeEvents (a ++ b) base = relativeEvents a base ++ relativeEvents b base :=
  List.map_append _ _ _

/-- The projection of a live `scheduleNote` dispatch is the canonical
step content at the corresponding relative time. -/
theorem live_step_keys (m : TimeMatrix) (ids : List String) (s b : ℕ)
    (τ base : ℚ) (blk : PatBlock) (hb : m.blocks.get? b = some blk) :
    relativeEvents (scheduleNoteEvents m ids s b τ) base =
      stepKeys blk ids s (τ - base) := by
  unfold scheduleNoteEvents TimeMatrix.getStepData
  rw [hb]
  unfold relativeEvents stepKeys
  rw [List.map_append, List.map_map, List.map_filterMap]
  congr 1
  refine List.filterMap_congr ?_
  intro kv _
  rcases hkv : kv.2.get? s with _ | n
  · simp
  · cases n with
    | none => simp
    | some nv =>
        by_cases hin : ids.contains kv.1
        · simp [hin]
        · simp [hin]

/-- The projection of one offline render-loop step is the same canonical
step content. -/
theorem offline_step_keys (blk : PatBlock) (ids : List String)
    (gate : ℚ) (s : ℕ) (τ base : ℚ) :
    relativeEvents (offlineStepEvents blk ids gate s τ) base =
      stepKeys blk ids s (τ - base) := by
  unfold offlineStepEvents
  unfold relativeEvents stepKeys
  rw [List.map_append, List.map_filterMap]
  congr 1
  · rcases hd : blk.drums.get? s with _ | d
    · simp
    · cases d with
      | nil => simp
      | cons x xs => simp
  · refine List.filterMap_congr ?_
    intro kv _
    rcases hkv : kv.2.get? s with _ | n
    · simp
    · cases n with
      | none => simp
      | some nv =>
          by_cases hin : ids.contains kv.1
          · simp [hin]
          · simp [hin]

/-- Closed form of the offline inner loop: events of steps
`s, s+1, …, s+j-1` at times `t, t+Δ, …`, final time cursor `t + jΔ`. -/
theorem offlineSteps_spec (blk : PatBlock) (ids : List String) (Δ : ℚ) :
    ∀ (j s : ℕ) (t : ℚ),
      offlineSteps blk ids Δ j s t =
        ((List.range j).flatMap
          (fun x => offlineStepEvents blk ids (Δ * 0.9) (s + x) (t + x * Δ)),
         t + j * Δ) := by
  intro j
  induction j with
  | zero => intro s t; simp [offlineSteps]
  | succ j ih =>
      intro s t
      show (offlineStepEvents blk ids (Δ * 0.9) s t ++ (offlineSteps blk ids Δ j (s + 1) (t + Δ)).1,
            (offlineSteps blk ids Δ j (s + 1) (t + Δ)).2) = _
      rw [ih (s + 1) (t + Δ)]
      dsimp only
      refine Prod.ext ?_ ?_
      · rw [List.range_succ_eq_map, List.flatMap_cons, List.flatMap_map]
        refine congrArg₂ (· ++ ·) ?_ ?_
        · norm_num
        · refine List.flatMap_congr ?_
          intro a _
          have h1 : s + 1 + a = s + (a + 1) := by omega
          rw [h1]
          congr 1
          push_cast
          ring
      · push_cast
        ring

/-- Closed form of the offline block loop: the canonical pass, and the
final time cursor advanced by `blocks × steps × Δ`. -/
theorem offlineBlocks_spec (ids : List String) (Δ : ℚ) (S : ℕ) :
    ∀ (l : List PatBlock) (t base : ℚ),
      relativeEvents (offlineBlocks ids Δ S l t).1 base =
        canonPass ids Δ S l (t - base) ∧
      (offlineBlocks ids Δ S l t).2 = t + (l.length * S : ℕ) * Δ := by
  intro l
  induction l with
  | nil => intro t base; simp [offlineBlocks, canonPass, relativeEvents]
  | cons blk rest ih =>
      intro t base
      show relativeEvents ((offlineSteps blk ids Δ S 0 t).1 ++
          (offlineBlocks ids Δ S rest (offlineSteps blk ids Δ S 0 t).2).1) base = _ ∧
        (offlineBlocks ids Δ S rest (offlineSteps blk ids Δ S 0 t).2).2 = _
      rw [offlineSteps_spec blk ids Δ S 0 t]
      dsimp only
      obtain ⟨ih1, ih2⟩ := ih (t + S * Δ) base
      constructor
      · rw [relativeEvents_append]
        unfold canonPass
        congr 1
        · unfold relativeEvents
          rw [List.map_flatMap]
          refine List.flatMap_congr ?_
          intro x _
          have := offline_step_keys blk ids (Δ * 0.9) (0 + x) (t + x * Δ) base
          unfold relativeEvents at this
          rw [this]
          have h1 : (0 : ℕ) + x = x := by omega
          have h2 : t + x * Δ - base = t - base + x * Δ := by ring
          rw [h1, h2]
        · rw [ih1]
          congr 1
          ring
      · rw [ih2, List.length_cons]
        push_cast
        ring

/-- Decomposition of the live dispatch: `j+1` steps finish the current
block (from step `i` with `i + (j+1) = totalSteps`), then the cursor
wraps to step 0 of the next block (or block 0 at the chain end). -/
theorem liveDispatch_finish_block (m : TimeMatrix) (ids : List String) (bpm : ℚ) (b : ℕ) :
    ∀ (j i : ℕ) (t : ℚ) (k : ℕ), i + (j + 1) = m.totalSteps →
      liveDispatch m ids bpm (k + (j + 1)) ⟨t, i, b⟩ =
        (List.range (j + 1)).flatMap
          (fun x => scheduleNoteEvents m ids (i + x) b (t + x * secPerStep bpm)) ++
        liveDispatch m ids bpm k
          ⟨t + (j + 1 : ℕ) * secPerStep bpm, 0,
           if m.blocks.length ≤ b + 1 then 0 else b + 1⟩ := by
  intro j
  induction j with
  | zero =>
      intro i t k hi
      show scheduleNoteEvents m ids i b t ++
          liveDispatch m ids bpm k (advanceNote bpm m.totalSteps m.blocks.length ⟨t, i, b⟩) = _
      have hcur : advanceNote bpm m.totalSteps m.blocks.length ⟨t, i, b⟩ =
          ⟨t + secPerStep bpm, 0, if m.blocks.length ≤ b + 1 then 0 else b + 1⟩ := by
        unfold advanceNote advanceCursor
        have : m.totalSteps ≤ i + 1 := by omega
        simp [this]
      rw [hcur]
      refine congrArg₂ (· ++ ·) ?_ ?_
      · rw [show List.range 1 = [0] from rfl]
        simp
      · congr 2
        push_cast
        ring
  | succ j ih =>
      intro i t k hi
      show scheduleNoteEvents m ids i b t ++
          liveDispatch m ids bpm (k + (j + 1))
            (advanceNote bpm m.totalSteps m.blocks.length ⟨t, i, b⟩) = _
      have hcur : advanceNote bpm m.totalSteps m.blocks.length ⟨t, i, b⟩ =
          ⟨t + secPerStep bpm, i + 1, b⟩ := by
        unfold advanceNote advanceCursor
        have : ¬ m.totalSteps ≤ i + 1 := by omega
        simp [this]
      rw [hcur, ih (i + 1) (t + secPerStep bpm) k (by omega)]
      rw [← List.append_assoc]
      refine congrArg₂ (· ++ ·) ?_ ?_
      · rw [show List.range (j + 1 + 1) = 0 :: (List.range (j + 1)).map Nat.succ
              from List.range_succ_eq_map _]
        rw [List.flatMap_cons, List.flatMap_map]
        refine congrArg₂ (· ++ ·) ?_ ?_
        · norm_num
        · refine List.flatMap_congr ?_
          intro a _
          have h1 : i + 1 + a = i + (a + 1) := by omega
          rw [h1]
          congr 1
          push_cast
          ring
      · congr 2
        push_cast
        ring

/-- The live Scheduler Core's dispatch over the remaining block suffix
projects to the canonical pass. -/
theorem liveDispatch_canon (m : TimeMatrix) (ids : List String) (bpm : ℚ)
    (hS : 0 < m.totalSteps) :
    ∀ (l : List PatBlock) (b : ℕ) (t base : ℚ),
      m.blocks.drop b = l → b + l.length = m.blocks.length →
      relativeEvents
        (liveDispatch m ids bpm (l.length * m.totalSteps) ⟨t, 0, b⟩) base =
      canonPass ids (secPerStep bpm) m.totalSteps l (t - base) := by
  intro l
  induction l with
  | nil => intro b t base _ _; simp [liveDispatch, relativeEvents, canonPass]
  | cons blk rest ih =>
      intro b t base hdrop hlen
      have hb : m.blocks.get? b = some blk := by
        have h0 : (m.blocks.drop b).get? 0 = some blk := by rw [hdrop]; rfl
        rwa [List.get?_drop, Nat.add_zero] at h0
      obtain ⟨S1, hS1⟩ : ∃ S1, m.totalSteps = S1 + 1 :=
        ⟨m.totalSteps - 1, by omega⟩
      have hsteps : (blk :: rest).length * m.totalSteps
          = rest.length * m.totalSteps + (S1 + 1) := by
        rw [List.length_cons, Nat.succ_mul]
        set K := rest.length * m.totalSteps
        omega
      rw [hsteps, liveDispatch_finish_block m ids bpm b S1 0 t
            (rest.length * m.totalSteps) (by omega)]
      rw [relativeEvents_append]
      unfold canonPass
      congr 1
      · unfold relativeEvents
        rw [List.map_flatMap, ← hS1]
        refine List.flatMap_congr ?_
        intro x _
        have := live_step_keys m ids (0 + x) b (t + x * secPerStep bpm) base blk hb
        unfold relativeEvents at this
        rw [this]
        have h1 : (0 : ℕ) + x = x := by omega
        have h2 : t + x * secPerStep bpm - base = t - base + x * secPerStep bpm := by ring
        rw [h1, h2]
      · cases rest with
        | nil => simp [liveDispatch, relativeEvents, canonPass]
        | cons blk2 rest2 =>
            have hblt : b + 1 < m.blocks.length := by
              simp only [List.length_cons] at hlen
              omega
            have hif : (if m.blocks.length ≤ b + 1 then 0 else b + 1) = b + 1 := by
              rw [if_neg (by omega)]
            rw [hif]
            have hdrop' : m.blocks.drop (b + 1) = blk2 :: rest2 := by
              have : m.blocks.drop (b + 1) = (m.blocks.drop b).drop 1 := by
                rw [List.drop_drop, Nat.add_comm]
              rw [this, hdrop]
              rfl
            have := ih (b + 1) (t + (S1 + 1 : ℕ) * secPerStep bpm) base hdrop'
              (by simp only [List.length_cons] at hlen ⊢; omega)
            rw [this]
            congr 1
            rw [hS1]
            push_cast
            ring

/-- C2: for every pattern store and synth roster, one full pass of the
offline render loop produces exactly the same sequence of
`(voice-id, note-or-drum-id, relative-time-offset)` dispatch events as
the live Scheduler Core's dispatch logic run over the same pattern for
the same number of steps (`blocks × totalSteps`, cursor starting at
step 0 of block 0): step `k` of block `b` dispatches the same drum ids
and the same per-track notes at relative offset
`(b·totalSteps + k) · secPerStep` in both paths (live offsets measured
from the transport start time, offline from the `0.01` render origin). -/
theorem offline_live_dispatch_parity (m : TimeMatrix) (ids : List String)
    (bpm : ℚ) (t0 : ℚ) (hS : 0 < m.totalSteps) :
    relativeEvents
      (liveDispatch m ids bpm (m.blocks.length * m.totalSteps) ⟨t0, 0, 0⟩) t0 =
    relativeEvents (renderAudioEvents m ids bpm 1) 0.01 := by
  have hlive := liveDispatch_canon m ids bpm hS m.blocks 0 t0 t0 rfl (Nat.zero_add _)
  have hoff := offlineBlocks_spec ids (secPerStep bpm) m.totalSteps m.blocks 0.01 0.01
  have hren : renderAudioEvents m ids bpm 1 =
      (offlineBlocks ids (secPerStep bpm) m.totalSteps m.blocks 0.01).1 ++ [] := rfl
  rw [hlive, hren, List.append_nil, hoff.1, sub_self, sub_self]

theorem offline_live_dispatch_parity_witness :
    0 < (TimeMatrix.mk 16
          [⟨[("bass-1", [some ⟨"A", 2, false, true⟩])], [["kick"], [], ["snare"]]⟩]
          none).totalSteps ∧
    relativeEvents
      (liveDispatch
        (TimeMatrix.mk 16
          [⟨[("bass-1", [some ⟨"A", 2, false, true⟩])], [["kick"], [], ["snare"]]⟩]
          none)
        ["bass-1"] 174
        ((TimeMatrix.mk 16
          [⟨[("bass-1", [some ⟨"A", 2, false, true⟩])], [["kick"], [], ["snare"]]⟩]
          none).blocks.length *
         (TimeMatrix.mk 16
          [⟨[("bass-1", [some ⟨"A", 2, false, true⟩])], [["kick"], [], ["snare"]]⟩]
          none).totalSteps) ⟨1/10, 0, 0⟩) (1/10) =
    relativeEvents
      (renderAudioEvents
        (TimeMatrix.mk 16
          [⟨[("bass-1", [some ⟨"A", 2, false, true⟩])], [["kick"], [], ["snare"]]⟩]
          none)
        ["bass-1"] 174 1) 0.01 :=
  ⟨by norm_num,
   offline_live_dispatch_parity
     (TimeMatrix.mk 16
       [⟨[("bass-1", [some ⟨"A", 2, false, true⟩])], [["kick"], [], ["snare"]]⟩]
       none)
     ["bass-1"] 174 (1/10) (by norm_num)⟩

/-! ## C6: clipboard deep-copy isolation -/

namespace HeapModel

theorem HeapExt.refl (h : Heap) : HeapExt h h :=
  ⟨le_rfl, fun _ _ => ⟨rfl, rfl, rfl⟩⟩

theorem HeapExt.trans {h3 h2 h1 : Heap} (hb : HeapExt h3 h2) (ha : HeapExt h2 h1) :
    HeapExt h3 h1 := by
  refine ⟨le_trans ha.1 hb.1, ?_⟩
  intro r hr
  obtain ⟨a1, a2, a3⟩ := ha.2 r hr
  obtain ⟨b1, b2, b3⟩ := hb.2 r (lt_of_lt_of_le hr ha.1)
  exact ⟨a1 ▸ b1, a2 ▸ b2, a3 ▸ b3⟩

theorem allocNote_ext (h : Heap) (n : NoteEvent) : HeapExt (allocNote h n).1 h := by
  refine ⟨Nat.le_succ _, ?_⟩
  intro r hr
  refine ⟨?_, rfl, rfl⟩
  show (if r = h.next then some n else h.noteObj r) = h.noteObj r
  rw [if_neg (by omega)]

theorem allocTrack_ext (h : Heap) (slots : List (Option ℕ)) :
    HeapExt (allocTrack h slots).1 h := by
  refine ⟨Nat.le_succ _, ?_⟩
  intro r hr
  refine ⟨rfl, ?_, rfl⟩
  show (if r = h.next then some slots else h.trackArr r) = h.trackArr r
  rw [if_neg (by omega)]

theorem allocDrum_ext (h : Heap) (d : List String) : HeapExt (allocDrum h d).1 h := by
  refine ⟨Nat.le_succ _, ?_⟩
  intro r hr
  refine ⟨rfl, rfl, ?_⟩
  show (if r = h.next then some d else h.drumArr r) = h.drumArr r
  rw [if_neg (by omega)]

theorem readTrack_ext {h' h : Heap} (hE : HeapExt h' h) {r : ℕ} (hr : r < h.next) :
    readTrack h' r = readTrack h r := by
  unfold readTrack
  rw [(hE.2 r hr).2.1]

theorem readDrum_ext {h' h : Heap} (hE : HeapExt h' h) {r : ℕ} (hr : r < h.next) :
    readDrum h' r = readDrum h r := by
  unfold readDrum
  rw [(hE.2 r hr).2.2]

theorem slotValue_ext {h' h : Heap} (hE : HeapExt h' h) (o : Option ℕ)
    (ho : ∀ r, o = some r → r < h.next) : slotValue h' o = slotValue h o := by
  cases o with
  | none => rfl
  | some r =>
      show h'.noteObj r = h.noteObj r
      exact (hE.2 r (ho r rfl)).1

theorem trackValue_ext {h' h : Heap} (hE : HeapExt h' h) {tref : ℕ}
    (htref : tref < h.next)
    (hslots : ∀ r ∈ (readTrack h tref).filterMap id, r < h.next) :
    trackValue h' tref = trackValue h tref := by
  unfold trackValue
  rw [readTrack_ext hE htref]
  refine List.map_congr_left ?_
  intro o ho
  refine slotValue_ext hE o ?_
  intro r hro
  refine hslots r ?_
  exact List.mem_filterMap.mpr ⟨o, ho, by rw [hro]; rfl⟩

theorem mem_blockRefs_of_track {h : Heap} {b : HBlock} {kv : String × ℕ}
    (hkv : kv ∈ b.tracks) : kv.2 ∈ blockRefs h b := by
  unfold blockRefs
  refine List.mem_append_left _ (List.mem_append_left _ ?_)
  exact List.mem_map_of_mem _ hkv

theorem mem_blockRefs_of_slot {h : Heap} {b : HBlock} {kv : String × ℕ}
    (hkv : kv ∈ b.tracks) {r : ℕ}
    (hr : r ∈ (readTrack h kv.2).filterMap id) : r ∈ blockRefs h b := by
  unfold blockRefs
  refine List.mem_append_left _ (List.mem_append_right _ ?_)
  exact List.mem_flatMap.mpr ⟨kv, hkv, hr⟩

theorem mem_blockRefs_of_drum {h : Heap} {b : HBlock} {r : ℕ}
    (hr : r ∈ b.drums) : r ∈ blockRefs h b := by
  unfold blockRefs
  exact List.mem_append_right _ hr

theorem blockRefs_ext {h' h : Heap} (hE : HeapExt h' h) (b : HBlock)
    (hb : ∀ r ∈ blockRefs h b, r < h.next) :
    blockRefs h' b = blockRefs h b := by
  unfold blockRefs
  congr 1
  congr 1
  refine List.flatMap_congr ?_
  intro kv hkv
  rw [readTrack_ext hE (hb _ (mem_blockRefs_of_track hkv))]

theorem blockValue_ext {h' h : Heap} (hE : HeapExt h' h) (b : HBlock)
    (hb : ∀ r ∈ blockRefs h b, r < h.next) :
    blockValue h' b = blockValue h b := by
  unfold blockValue
  refine Prod.ext ?_ ?_
  · refine List.map_congr_left ?_
    intro kv hkv
    show (kv.1, trackValue h' kv.2) = (kv.1, trackValue h kv.2)
    rw [trackValue_ext hE (hb _ (mem_blockRefs_of_track hkv))
          (fun r hr => hb r (mem_blockRefs_of_slot hkv hr))]
  · refine List.map_congr_left ?_
    intro dref hd
    exact readDrum_ext hE (hb _ (mem_blockRefs_of_drum hd))

/-- `copySlots` extends the heap, produces only fresh note objects, and
preserves the dereferenced values (given the source slots are
allocated). -/
theorem copySlots_spec (slots : List (Option ℕ)) : ∀ (h : Heap),
    (∀ r ∈ slots.filterMap id, r < h.next) →
    HeapExt (copySlots h slots).1 h ∧
    (∀ r ∈ (copySlots h slots).2.filterMap id,
      h.next ≤ r ∧ r < (copySlots h slots).1.next) ∧
    (copySlots h slots).2.map (slotValue (copySlots h slots).1) =
      slots.map (slotValue h) := by
  induction slots with
  | nil => intro h _; exact ⟨HeapExt.refl h, by simp [copySlots], by simp [copySlots]⟩
  | cons o rest ih =>
      intro h hb
      have hbrest : ∀ r ∈ rest.filterMap id, r < h.next := by
        intro r hr
        refine hb r ?_
        rcases List.mem_filterMap.mp hr with ⟨o', ho', hid⟩
        exact List.mem_filterMap.mpr ⟨o', List.mem_cons_of_mem _ ho', hid⟩
      -- the head copy
      rcases ho : o with _ | r0
      · -- o = none
        have hshow : copySlots h (none :: rest) =
            ((copySlots h rest).1, none :: (copySlots h rest).2) := rfl
        obtain ⟨e1, e2, e3⟩ := ih h hbrest
        rw [hshow]
        refine ⟨e1, ?_, ?_⟩
        · intro r hr
          refine e2 r ?_
          simpa using hr
        · simp only [List.map_cons, e3]
          rfl
      · rcases hn : h.noteObj r0 with _ | n0
        · have hshow : copySlots h (some r0 :: rest) =
              ((copySlots h rest).1, none :: (copySlots h rest).2) := by
            show (let p : Heap × Option ℕ :=
                match h.noteObj r0 with
                | some n => ((allocNote h n).1, some (allocNote h n).2)
                | none => (h, none)
              let q := copySlots p.1 rest
              (q.1, p.2 :: q.2)) = _
            rw [hn]
          obtain ⟨e1, e2, e3⟩ := ih h hbrest
          rw [hshow]
          refine ⟨e1, ?_, ?_⟩
          · intro r hr
            refine e2 r ?_
            simpa using hr
          · simp only [List.map_cons, e3]
            have : slotValue (copySlots h rest).1 none = slotValue h (some r0) := by
              show (none : Option NoteEvent) = h.noteObj r0
              rw [hn]
            rw [this]
        · have hshow : copySlots h (some r0 :: rest) =
              ((copySlots (allocNote h n0).1 rest).1,
               some (allocNote h n0).2 :: (copySlots (allocNote h n0).1 rest).2) := by
            show (let p : Heap × Option ℕ :=
                match h.noteObj r0 with
                | some n => ((allocNote h n).1, some (allocNote h n).2)
                | none => (h, none)
              let q := copySlots p.1 rest
              (q.1, p.2 :: q.2)) = _
            rw [hn]
          have hExtA : HeapExt (allocNote h n0).1 h := allocNote_ext h n0
          have hbrest' : ∀ r ∈ rest.filterMap id, r < (allocNote h n0).1.next := by
            intro r hr
            exact lt_of_lt_of_le (hbrest r hr) hExtA.1
          obtain ⟨e1, e2, e3⟩ := ih (allocNote h n0).1 hbrest'
          rw [hshow]
          have hnext : (allocNote h n0).1.next = h.next + 1 := rfl
          refine ⟨HeapExt.trans e1 hExtA, ?_, ?_⟩
          · intro r hr
            simp only [List.filterMap_cons] at hr
            rcases List.mem_cons.mp hr with hhd | htl
            · subst hhd
              show h.next ≤ h.next ∧ h.next < (copySlots (allocNote h n0).1 rest).1.next
              have := e1.1
              omega
            · have := e2 r htl
              refine ⟨by omega, ?_⟩
              show r < (copySlots (allocNote h n0).1 rest).1.next
              omega
          · simp only [List.map_cons, e3]
            refine congrArg₂ List.cons ?_ ?_
            · show slotValue (copySlots (allocNote h n0).1 rest).1 (some h.next)
                = slotValue h (some r0)
              show (copySlots (allocNote h n0).1 rest).1.noteObj h.next = h.noteObj r0
              have hforward : (copySlots (allocNote h n0).1 rest).1.noteObj h.next
                  = (allocNote h n0).1.noteObj h.next := by
                refine (e1.2 h.next ?_).1
                rw [hnext]
                omega
              rw [hforward, hn]
              show (if h.next = h.next then some n0 else h.noteObj h.next) = some n0
              rw [if_pos rfl]
            · refine List.map_congr_left ?_
              intro o' ho'
              refine slotValue_ext hExtA o' ?_
              intro r hro
              subst hro
              exact hbrest _ (List.mem_filterMap.mpr ⟨some r, ho', rfl⟩)

/-- `copyTrack` extends the heap, allocates a fresh slot array holding
only fresh note objects, and preserves the track's dereferenced
contents. -/
theorem copyTrack_spec (h : Heap) (tref : ℕ)
    (hb : ∀ r ∈ (readTrack h tref).filterMap id, r < h.next) :
    HeapExt (copyTrack h tref).1 h ∧
    (h.next ≤ (copyTrack h tref).2 ∧ (copyTrack h tref).2 < (copyTrack h tref).1.next) ∧
    (∀ r ∈ (readTrack (copyTrack h tref).1 (copyTrack h tref).2).filterMap id,
      h.next ≤ r ∧ r < (copyTrack h tref).1.next) ∧
    trackValue (copyTrack h tref).1 (copyTrack h tref).2 = trackValue h tref := by
  obtain ⟨e1, e2, e3⟩ := copySlots_spec (readTrack h tref) h hb
  have hres : copyTrack h tref =
      ((allocTrack (copySlots h (readTrack h tref)).1
          (copySlots h (readTrack h tref)).2).1,
       (copySlots h (readTrack h tref)).1.next) := rfl
  set s := copySlots h (readTrack h tref) with hs
  have hread : readTrack (allocTrack s.1 s.2).1 s.1.next = s.2 := by
    show ((if s.1.next = s.1.next then some s.2 else s.1.trackArr s.1.next)).getD [] = s.2
    rw [if_pos rfl]
    rfl
  have hAext : HeapExt (allocTrack s.1 s.2).1 s.1 := allocTrack_ext s.1 s.2
  have hnext : (allocTrack s.1 s.2).1.next = s.1.next + 1 := rfl
  rw [hres]
  dsimp only
  refine ⟨HeapExt.trans hAext e1, ⟨e1.1, by omega⟩, ?_, ?_⟩
  · intro r hr
    rw [hread] at hr
    have := e2 r hr
    omega
  · unfold trackValue
    rw [hread]
    have hnoteeq : ∀ o, slotValue (allocTrack s.1 s.2).1 o = slotValue s.1 o := by
      intro o
      rfl
    rw [List.map_congr_left (fun o _ => hnoteeq o)]
    exact e3

/-- `copyTracks` on an association list: heap extension, preserved keys,
fresh references only, preserved per-track contents. -/
theorem copyTracks_spec (src : List (String × ℕ)) : ∀ (h : Heap),
    (∀ kv ∈ src, kv.2 < h.next ∧
      ∀ r ∈ (readTrack h kv.2).filterMap id, r < h.next) →
    HeapExt (copyTracks h src).1 h ∧
    ((copyTracks h src).2.map (·.1) = src.map (·.1)) ∧
    (∀ kv ∈ (copyTracks h src).2,
      (h.next ≤ kv.2 ∧ kv.2 < (copyTracks h src).1.next) ∧
      ∀ r ∈ (readTrack (copyTracks h src).1 kv.2).filterMap id,
        h.next ≤ r ∧ r < (copyTracks h src).1.next) ∧
    (copyTracks h src).2.map (fun kv => (kv.1, trackValue (copyTracks h src).1 kv.2)) =
      src.map (fun kv => (kv.1, trackValue h kv.2)) := by
  induction src with
  | nil =>
      intro h _
      exact ⟨HeapExt.refl h, rfl, by simp [copyTracks], rfl⟩
  | cons kv rest ih =>
      intro h hb
      obtain ⟨hkv2, hkvslots⟩ := hb kv (List.mem_cons_self kv rest)
      have hbrest : ∀ kv' ∈ rest, kv'.2 < h.next ∧
          ∀ r ∈ (readTrack h kv'.2).filterMap id, r < h.next :=
        fun kv' h' => hb kv' (List.mem_cons_of_mem _ h')
      obtain ⟨c1, c2, c3, c4⟩ := copyTrack_spec h kv.2 hkvslots
      set c := copyTrack h kv.2 with hc
      have hbrest' : ∀ kv' ∈ rest, kv'.2 < c.1.next ∧
          ∀ r ∈ (readTrack c.1 kv'.2).filterMap id, r < c.1.next := by
        intro kv' h'
        obtain ⟨ha, hs⟩ := hbrest kv' h'
        refine ⟨lt_of_lt_of_le ha c1.1, ?_⟩
        intro r hr
        rw [readTrack_ext c1 ha] at hr
        exact lt_of_lt_of_le (hs r hr) c1.1
      obtain ⟨r1, r2, r3, r4⟩ := ih c.1 hbrest'
      set rr := copyTracks c.1 rest with hrr
      have hshow : copyTracks h (kv :: rest) = (rr.1, (kv.1, c.2) :: rr.2) := rfl
      rw [hshow]
      dsimp only
      have hcnext : c.2 < c.1.next := c2.2
      refine ⟨HeapExt.trans r1 c1, ?_, ?_, ?_⟩
      · simp only [List.map_cons, r2]
      · intro kv' hkv'
        rcases List.mem_cons.mp hkv' with hhd | htl
        · subst hhd
          have hreadc : readTrack rr.1 c.2 = readTrack c.1 c.2 :=
            readTrack_ext r1 hcnext
          refine ⟨⟨c2.1, lt_of_lt_of_le hcnext r1.1⟩, ?_⟩
          intro r hr
          rw [hreadc] at hr
          have := c3 r hr
          have := r1.1
          omega
        · obtain ⟨⟨ha, hb'⟩, hs⟩ := r3 kv' htl
          refine ⟨⟨le_trans c1.1 ha, hb'⟩, ?_⟩
          intro r hr
          obtain ⟨ha', hb''⟩ := hs r hr
          exact ⟨le_trans c1.1 ha', hb''⟩
      · simp only [List.map_cons]
        refine congrArg₂ List.cons ?_ ?_
        · show (kv.1, trackValue rr.1 c.2) = (kv.1, trackValue h kv.2)
          have : trackValue rr.1 c.2 = trackValue c.1 c.2 := by
            refine trackValue_ext r1 hcnext ?_
            intro r hr
            exact (c3 r hr).2
          rw [this, c4]
        · rw [r4]
          refine List.map_congr_left ?_
          intro kv' hkv'
          obtain ⟨ha, hs⟩ := hbrest kv' hkv'
          show (kv'.1, trackValue c.1 kv'.2) = (kv'.1, trackValue h kv'.2)
          rw [trackValue_ext c1 ha hs]

/-- `copyDrums`: heap extension, fresh drum arrays, preserved
contents. -/
theorem copyDrums_spec (src : List ℕ) : ∀ (h : Heap),
    (∀ r ∈ src, r < h.next) →
    HeapExt (copyDrums h src).1 h ∧
    (∀ r ∈ (copyDrums h src).2, h.next ≤ r ∧ r < (copyDrums h src).1.next) ∧
    (copyDrums h src).2.map (readDrum (copyDrums h src).1) =
      src.map (readDrum h) := by
  induction src with
  | nil => intro h _; exact ⟨HeapExt.refl h, by simp [copyDrums], rfl⟩
  | cons dref rest ih =>
      intro h hb
      have hd : dref < h.next := hb dref (List.mem_cons_self _ _)
      have hbrest : ∀ r ∈ rest, r < h.next := fun r h' => hb r (List.mem_cons_of_mem _ h')
      set c := allocDrum h (readDrum h dref) with hcdef
      have hcext : HeapExt c.1 h := allocDrum_ext h (readDrum h dref)
      have hcnext : c.1.next = h.next + 1 := rfl
      have hbrest' : ∀ r ∈ rest, r < c.1.next := by
        intro r hr
        have := hbrest r hr
        omega
      obtain ⟨r1, r2, r3⟩ := ih c.1 hbrest'
      set rr := copyDrums c.1 rest with hrrdef
      have hshow : copyDrums h (dref :: rest) = (rr.1, c.2 :: rr.2) := rfl
      rw [hshow]
      dsimp only
      have hc2 : c.2 = h.next := rfl
      refine ⟨HeapExt.trans r1 hcext, ?_, ?_⟩
      · intro r hr
        rcases List.mem_cons.mp hr with hhd | htl
        · subst hhd
          rw [hc2]
          have := r1.1
          constructor
          · exact le_rfl
          · omega
        · obtain ⟨ha, hb'⟩ := r2 r htl
          refine ⟨?_, hb'⟩
          omega
      · simp only [List.map_cons]
        refine congrArg₂ List.cons ?_ ?_
        · have hcread : readDrum c.1 c.2 = readDrum h dref := by
            rw [hc2]
            show ((if h.next = h.next then some (readDrum h dref)
                else h.drumArr h.next)).getD [] = _
            rw [if_pos rfl]
            rfl
          have : readDrum rr.1 c.2 = readDrum c.1 c.2 := by
            refine readDrum_ext r1 ?_
            rw [hc2, hcnext]
            omega
          rw [this, hcread]
        · rw [r3]
          refine List.map_congr_left ?_
          intro r hr
          exact readDrum_ext hcext (hbrest r hr)

/-- `copyBlock` (the shared deep copy of `copyToClipboard` and
`pasteFromClipboard`): heap extension, the copy's observable contents
equal the source's, and the copy's references are all fresh. -/
theorem copyBlock_spec (h : Heap) (b : HBlock)
    (hwf : ∀ r ∈ blockRefs h b, r < h.next) :
    HeapExt (copyBlock h b).1 h ∧
    blockValue (copyBlock h b).1 (copyBlock h b).2 = blockValue h b ∧
    (∀ r ∈ blockRefs (copyBlock h b).1 (copyBlock h b).2,
      h.next ≤ r ∧ r < (copyBlock h b).1.next) := by
  have htr : ∀ kv ∈ b.tracks, kv.2 < h.next ∧
      ∀ r ∈ (readTrack h kv.2).filterMap id, r < h.next := by
    intro kv hkv
    exact ⟨hwf _ (mem_blockRefs_of_track hkv),
      fun r hr => hwf r (mem_blockRefs_of_slot hkv hr)⟩
  obtain ⟨t1, t2, t3, t4⟩ := copyTracks_spec b.tracks h htr
  set t := copyTracks h b.tracks with htdef
  have hdr : ∀ r ∈ b.drums, r < t.1.next := by
    intro r hr
    exact lt_of_lt_of_le (hwf r (mem_blockRefs_of_drum hr)) t1.1
  obtain ⟨d1, d2, d3⟩ := copyDrums_spec b.drums t.1 hdr
  set d := copyDrums t.1 b.drums with hddef
  have hshow : copyBlock h b = (d.1, ⟨t.2, d.2⟩) := rfl
  rw [hshow]
  dsimp only
  refine ⟨HeapExt.trans d1 t1, ?_, ?_⟩
  · unfold blockValue
    refine Prod.ext ?_ ?_
    · show t.2.map (fun kv => (kv.1, trackValue d.1 kv.2)) =
        b.tracks.map (fun kv => (kv.1, trackValue h kv.2))
      rw [← t4]
      refine List.map_congr_left ?_
      intro kv hkv
      obtain ⟨⟨_, hb'⟩, hs⟩ := t3 kv hkv
      show (kv.1, trackValue d.1 kv.2) = (kv.1, trackValue t.1 kv.2)
      rw [trackValue_ext d1 hb' (fun r hr => (hs r hr).2)]
    · show d.2.map (readDrum d.1) = b.drums.map (readDrum h)
      rw [d3]
      refine List.map_congr_left ?_
      intro dref hdref
      exact readDrum_ext t1 (hwf dref (mem_blockRefs_of_drum hdref))
  · intro r hr
    unfold blockRefs at hr
    rcases List.mem_append.mp hr with hr1 | hdrm
    · rcases List.mem_append.mp hr1 with htrk | hslot
      · obtain ⟨kv, hkv, hkv2⟩ := List.mem_map.mp htrk
        obtain ⟨⟨ha, hb'⟩, _⟩ := t3 kv hkv
        subst hkv2
        exact ⟨ha, lt_of_lt_of_le hb' d1.1⟩
      · obtain ⟨kv, hkv, hrkv⟩ := List.mem_flatMap.mp hslot
        obtain ⟨⟨ha, hb'⟩, hs⟩ := t3 kv hkv
        rw [readTrack_ext d1 hb'] at hrkv
        obtain ⟨ha', hb''⟩ := hs r hrkv
        exact ⟨ha', lt_of_lt_of_le hb'' d1.1⟩
    · obtain ⟨ha, hb'⟩ := d2 r hdrm
      exact ⟨le_trans t1.1 ha, hb'⟩

theorem readTrack_writeTrack (h : Heap) (tref : ℕ) (slots : List (Option ℕ))
    (x : ℕ) :
    readTrack (writeTrack h tref slots) x =
      if x = tref then slots else readTrack h x := by
  unfold readTrack writeTrack
  by_cases hx : x = tref
  · rw [if_pos hx]
    show (if x = tref then some slots else h.trackArr x).getD [] = slots
    rw [if_pos hx]
    rfl
  · rw [if_neg hx]
    show (if x = tref then some slots else h.trackArr x).getD [] = _
    rw [if_neg hx]

theorem filterMap_set_sub {α : Type} (l : List (Option α)) (s : ℕ) (v : Option α) :
    ∀ x ∈ (l.set s v).filterMap id, x ∈ l.filterMap id ∨ v = some x := by
  intro x hx
  rcases List.mem_filterMap.mp hx with ⟨o, ho, hid⟩
  rcases List.mem_or_eq_of_mem_set ho with hmem | heq
  · exact Or.inl (List.mem_filterMap.mpr ⟨o, hmem, hid⟩)
  · right
    rw [← heq]
    exact hid

theorem mem_blockRefs_writeTrack {h : Heap} {tref : ℕ}
    {slots : List (Option ℕ)} {b' : HBlock} {r : ℕ}
    (hr : r ∈ blockRefs (writeTrack h tref slots) b') :
    r ∈ blockRefs h b' ∨ r ∈ slots.filterMap id := by
  unfold blockRefs at hr
  rcases List.mem_append.mp hr with h1 | hd
  · rcases List.mem_append.mp h1 with ht | hs
    · obtain ⟨kv, hkv, hkv2⟩ := List.mem_map.mp ht
      exact Or.inl (hkv2 ▸ mem_blockRefs_of_track hkv)
    · obtain ⟨kv, hkv, hrkv⟩ := List.mem_flatMap.mp hs
      rw [readTrack_writeTrack] at hrkv
      by_cases hkt : kv.2 = tref
      · rw [if_pos hkt] at hrkv
        exact Or.inr hrkv
      · rw [if_neg hkt] at hrkv
        exact Or.inl (mem_blockRefs_of_slot hkv hrkv)
  · exact Or.inl (mem_blockRefs_of_drum hd)

theorem mem_blockRefs_of_tref_slot {h : Heap} {b : HBlock} {tref : ℕ}
    (htref : tref ∈ b.tracks.map (·.2)) {r : ℕ}
    (hr : r ∈ (readTrack h tref).filterMap id) : r ∈ blockRefs h b := by
  obtain ⟨kv, hkv, hkv2⟩ := List.mem_map.mp htref
  exact mem_blockRefs_of_slot hkv (hkv2 ▸ hr)

theorem mem_blockRefs_of_tref {h : Heap} {b : HBlock} {tref : ℕ}
    (htref : tref ∈ b.tracks.map (·.2)) : tref ∈ blockRefs h b := by
  obtain ⟨kv, hkv, hkv2⟩ := List.mem_map.mp htref
  exact hkv2 ▸ mem_blockRefs_of_track hkv

theorem trackRefOf_mem {m : HMatrix} {bIdx : ℕ} {tid : String} {tref : ℕ}
    (h : trackRefOf m bIdx tid = some tref) :
    ∃ bblk ∈ m.blocks, tref ∈ bblk.tracks.map (·.2) := by
  unfold trackRefOf at h
  rcases hg : m.blocks.get? bIdx with _ | bblk
  · rw [hg] at h
    exact absurd h (by simp)
  · rw [hg] at h
    have h' : ((bblk.tracks.find? (fun kv => kv.1 = tid)).map (·.2)) = some tref := h
    refine ⟨bblk, List.get?_mem hg, ?_⟩
    rcases hf : bblk.tracks.find? (fun kv => kv.1 = tid) with _ | kv
    · rw [hf] at h'
      exact absurd h' (by simp)
    · rw [hf] at h'
      have hkv : kv ∈ bblk.tracks := List.mem_of_find?_eq_some hf
      have hkv2 : kv.2 = tref := by simpa using h'
      exact hkv2 ▸ List.mem_map_of_mem _ hkv

theorem writeTrack_next (h : Heap) (tref : ℕ) (slots : List (Option ℕ)) :
    (writeTrack h tref slots).next = h.next := rfl

/-- Every single editing mutation preserves the clipboard invariant:
writes hit only references reachable from the store's blocks, which are
disjoint from the clipboard's, and fresh allocations stay above the
clipboard's references. -/
theorem applyMutation_inv (h₁ : Heap) (cb : HBlock) (m : HMatrix) (h : Heap)
    (mu : Mutation) (hcb : ∀ r ∈ blockRefs h₁ cb, r < h₁.next)
    (hinv : MutInv h₁ cb m h) : MutInv h₁ cb m (applyMutation h m mu) := by
  obtain ⟨inv1, inv2, inv3⟩ := hinv
  have hcb' : ∀ r ∈ blockRefs h₁ cb, r < h.next :=
    fun r hr => lt_of_lt_of_le (hcb r hr) inv1
  cases mu with
  | setSlot bIdx tid s v =>
      show MutInv h₁ cb m
        (match trackRefOf m bIdx tid with
         | none => h
         | some tref =>
             match v with
             | none => writeTrack h tref ((readTrack h tref).set s none)
             | some n =>
                 writeTrack (allocNote h n).1 tref
                   ((readTrack (allocNote h n).1 tref).set s (some (allocNote h n).2)))
      rcases ht : trackRefOf m bIdx tid with _ | tref
      · exact ⟨inv1, inv2, inv3⟩
      · obtain ⟨bblk, hbblk, htref⟩ := trackRefOf_mem ht
        have htprop := inv3 bblk hbblk tref (mem_blockRefs_of_tref htref)
        cases v with
        | none =>
            refine ⟨inv1, ?_, ?_⟩
            · intro r hr
              obtain ⟨p1, p2, p3⟩ := inv2 r hr
              refine ⟨p1, ?_, p3⟩
              have hne : r ≠ tref := fun heq => htprop.1 (heq ▸ hr)
              show (if r = tref then some _ else h.trackArr r) = h₁.trackArr r
              rw [if_neg hne, p2]
            · intro b' hb' r hr
              rcases mem_blockRefs_writeTrack hr with hold | hnew
              · exact inv3 b' hb' r hold
              · rcases filterMap_set_sub _ s none r hnew with hold' | habs
                · exact inv3 bblk hbblk r (mem_blockRefs_of_tref_slot htref hold')
                · exact absurd habs (by simp)
        | some n =>
            have hreadeq : readTrack (allocNote h n).1 tref = readTrack h tref := rfl
            have hnext : (allocNote h n).1.next = h.next + 1 := rfl
            refine ⟨by rw [writeTrack_next, hnext]; omega, ?_, ?_⟩
            · intro r hr
              obtain ⟨p1, p2, p3⟩ := inv2 r hr
              have hrlt : r < h.next := hcb' r hr
              refine ⟨?_, ?_, p3⟩
              · show (if r = h.next then some n else h.noteObj r) = h₁.noteObj r
                rw [if_neg (by omega), p1]
              · have hne : r ≠ tref := fun heq => htprop.1 (heq ▸ hr)
                show (if r = tref then some _ else h.trackArr r) = h₁.trackArr r
                rw [if_neg hne, p2]
            · intro b' hb' r hr
              rcases mem_blockRefs_writeTrack hr with hold | hnew
              · have hold' : r ∈ blockRefs h b' := hold
                obtain ⟨q1, q2⟩ := inv3 b' hb' r hold'
                refine ⟨q1, ?_⟩
                rw [writeTrack_next, hnext]
                omega
              · rw [hreadeq] at hnew
                rcases filterMap_set_sub _ s (some (allocNote h n).2) r hnew with hold' | hfr
                · obtain ⟨q1, q2⟩ := inv3 bblk hbblk r
                    (mem_blockRefs_of_tref_slot htref hold')
                  refine ⟨q1, ?_⟩
                  rw [writeTrack_next, hnext]
                  omega
                · have hrn : r = h.next := by
                    have : (allocNote h n).2 = h.next := rfl
                    rw [this] at hfr
                    exact (Option.some_injective _ hfr).symm
                  subst hrn
                  refine ⟨fun hmem => ?_, ?_⟩
                  · exact absurd (hcb' _ hmem) (by omega)
                  · rw [writeTrack_next, hnext]
                    omega
  | editNote bIdx tid s f =>
      show MutInv h₁ cb m
        (match trackRefOf m bIdx tid with
         | none => h
         | some tref =>
             match (readTrack h tref).get? s with
             | some (some rn) =>
                 (match h.noteObj rn with
                  | some n => writeNote h rn (f n)
                  | none => h)
             | _ => h)
      rcases ht : trackRefOf m bIdx tid with _ | tref
      · exact ⟨inv1, inv2, inv3⟩
      · obtain ⟨bblk, hbblk, htref⟩ := trackRefOf_mem ht
        show MutInv h₁ cb m
          (match (readTrack h tref).get? s with
           | some (some rn) =>
               (match h.noteObj rn with
                | some n => writeNote h rn (f n)
                | none => h)
           | _ => h)
        rcases hg : (readTrack h tref).get? s with _ | o
        · exact ⟨inv1, inv2, inv3⟩
        · cases o with
          | none => exact ⟨inv1, inv2, inv3⟩
          | some rn =>
              show MutInv h₁ cb m
                (match h.noteObj rn with
                 | some n => writeNote h rn (f n)
                 | none => h)
              rcases hn : h.noteObj rn with _ | n0
              · exact ⟨inv1, inv2, inv3⟩
              · have hrnmem : rn ∈ (readTrack h tref).filterMap id := by
                  refine List.mem_filterMap.mpr ⟨some rn, ?_, rfl⟩
                  exact List.get?_mem hg
                have hrnprop := inv3 bblk hbblk rn
                  (mem_blockRefs_of_tref_slot htref hrnmem)
                refine ⟨inv1, ?_, ?_⟩
                · intro r hr
                  obtain ⟨p1, p2, p3⟩ := inv2 r hr
                  refine ⟨?_, p2, p3⟩
                  have hne : r ≠ rn := fun heq => hrnprop.1 (heq ▸ hr)
                  show (if r = rn then some (f n0) else h.noteObj r) = h₁.noteObj r
                  rw [if_neg hne, p1]
                · intro b' hb' r hr
                  exact inv3 b' hb' r hr
  | editDrums bIdx s f =>
      show MutInv h₁ cb m
        (match (m.blocks.get? bIdx).bind (fun b => b.drums.get? s) with
         | none => h
         | some dref => writeDrum h dref (f (readDrum h dref)))
      rcases hd : (m.blocks.get? bIdx).bind (fun b => b.drums.get? s) with _ | dref
      · exact ⟨inv1, inv2, inv3⟩
      · obtain ⟨bblk, hbm, hdref⟩ : ∃ bblk, m.blocks.get? bIdx = some bblk ∧
            dref ∈ bblk.drums := by
          rcases hg : m.blocks.get? bIdx with _ | bblk
          · rw [hg] at hd
            exact absurd hd (by simp)
          · rw [hg] at hd
            refine ⟨bblk, rfl, ?_⟩
            have : bblk.drums.get? s = some dref := by simpa using hd
            exact List.get?_mem this
        have hdprop := inv3 bblk (List.get?_mem hbm) dref (mem_blockRefs_of_drum hdref)
        refine ⟨inv1, ?_, ?_⟩
        · intro r hr
          obtain ⟨p1, p2, p3⟩ := inv2 r hr
          refine ⟨p1, p2, ?_⟩
          have hne : r ≠ dref := fun heq => hdprop.1 (heq ▸ hr)
          show (if r = dref then some _ else h.drumArr r) = h₁.drumArr r
          rw [if_neg hne, p3]
        · intro b' hb' r hr
          exact inv3 b' hb' r hr

/-- The whole editing session preserves the invariant. -/
theorem applyMutations_inv (h₁ : Heap) (cb : HBlock) (m : HMatrix)
    (muts : List Mutation) (hcb : ∀ r ∈ blockRefs h₁ cb, r < h₁.next) :
    ∀ (h : Heap), MutInv h₁ cb m h → MutInv h₁ cb m (applyMutations h m muts) := by
  induction muts with
  | nil => intro h hinv; exact hinv
  | cons mu rest ih =>
      intro h hinv
      exact ih (applyMutation h m mu) (applyMutation_inv h₁ cb m h mu hcb hinv)

/-- Under the invariant the clipboard still dereferences to its
copy-time contents, and its reference set is unchanged. -/
theorem MutInv_clip_value (h₁ : Heap) (cb : HBlock) (m : HMatrix) (h : Heap)
    (hinv : MutInv h₁ cb m h) :
    blockValue h cb = blockValue h₁ cb ∧ blockRefs h cb = blockRefs h₁ cb := by
  obtain ⟨inv1, inv2, inv3⟩ := hinv
  have hreads : ∀ kv ∈ cb.tracks, readTrack h kv.2 = readTrack h₁ kv.2 := by
    intro kv hkv
    unfold readTrack
    rw [(inv2 kv.2 (mem_blockRefs_of_track hkv)).2.1]
  have hrefs : blockRefs h cb = blockRefs h₁ cb := by
    unfold blockRefs
    congr 1
    congr 1
    refine List.flatMap_congr ?_
    intro kv hkv
    rw [hreads kv hkv]
  refine ⟨?_, hrefs⟩
  unfold blockValue
  refine Prod.ext ?_ ?_
  · refine List.map_congr_left ?_
    intro kv hkv
    show (kv.1, trackValue h kv.2) = (kv.1, trackValue h₁ kv.2)
    unfold trackValue
    rw [hreads kv hkv]
    refine congrArg _ (List.map_congr_left ?_)
    intro o ho
    cases o with
    | none => rfl
    | some rn =>
        show h.noteObj rn = h₁.noteObj rn
        refine (inv2 rn ?_).1
        exact mem_blockRefs_of_slot hkv
          (List.mem_filterMap.mpr ⟨some rn, ho, rfl⟩)
  · refine List.map_congr_left ?_
    intro dref hd
    show readDrum h dref = readDrum h₁ dref
    unfold readDrum
    rw [(inv2 dref (mem_blockRefs_of_drum hd)).2.2]

theorem jsSpliceInsert_get {α : Type} (l : List α) (k : ℕ) (x : α) :
    (TimeMatrix.jsSpliceInsert l k x).get? (min k l.length) = some x := by
  unfold TimeMatrix.jsSpliceInsert
  have hlen : (l.take k).length = min k l.length := List.length_take _ _
  rw [List.get?_append_right (by omega)]
  rw [hlen]
  simp

/-- C6: for every well-formed store state and valid block index `i`,
after `copyToClipboard(i)` and then *any* sequence of note-slot, note
and drum-set mutations of the store's blocks, `pasteFromClipboard(j)`
inserts after `j` a block whose tracks and drum sets equal block `i`'s
contents as they were at copy time — not the post-mutation contents —
and no mutable reference is shared between the clipboard, the source
block, and the pasted block. -/
theorem clipboard_deep_copy_isolation
    (h₀ : Heap) (m₀ : HMatrix) (i j : ℕ) (muts : List Mutation) (b₀ : HBlock)
    (hwf : WFMat h₀ m₀) (hi : m₀.blocks.get? i = some b₀) :
    ∃ (h₁ : Heap) (m₁ : HMatrix) (cb : HBlock) (h₃ : Heap) (m₃ : HMatrix)
      (pb : HBlock),
      copyToClipboard h₀ m₀ i = ((h₁, m₁), true) ∧
      m₁.blocks = m₀.blocks ∧
      m₁.clipboard = some cb ∧
      pasteFromClipboard (applyMutations h₁ m₁ muts) m₁ j = ((h₃, m₃), true) ∧
      m₃.blocks.get? (min (j + 1) m₁.blocks.length) = some pb ∧
      blockValue h₃ pb = blockValue h₀ b₀ ∧
      (∀ r ∈ blockRefs h₃ pb, r ∉ blockRefs h₃ cb ∧ r ∉ blockRefs h₃ b₀) ∧
      (∀ r ∈ blockRefs h₃ cb, r ∉ blockRefs h₃ b₀) := by
  have hb₀mem : b₀ ∈ m₀.blocks := List.get?_mem hi
  have hwfb : ∀ r ∈ blockRefs h₀ b₀, r < h₀.next := hwf b₀ hb₀mem
  obtain ⟨c1, c2, c3⟩ := copyBlock_spec h₀ b₀ hwfb
  have hcopy : copyToClipboard h₀ m₀ i =
      (((copyBlock h₀ b₀).1, { m₀ with clipboard := some (copyBlock h₀ b₀).2 }), true) := by
    unfold copyToClipboard
    rw [hi]
  set h₁ := (copyBlock h₀ b₀).1 with hh₁
  set cb := (copyBlock h₀ b₀).2 with hcb
  set m₁ : HMatrix := { m₀ with clipboard := some cb } with hm₁
  have hcbB : ∀ r ∈ blockRefs h₁ cb, r < h₁.next := fun r hr => (c3 r hr).2
  have hcbLow : ∀ r ∈ blockRefs h₁ cb, h₀.next ≤ r := fun r hr => (c3 r hr).1
  have hinv₁ : MutInv h₁ cb m₁ h₁ := by
    refine ⟨le_rfl, fun r _ => ⟨rfl, rfl, rfl⟩, ?_⟩
    intro b hb r hr
    have hbbound : ∀ r' ∈ blockRefs h₀ b, r' < h₀.next := hwf b hb
    have heq : blockRefs h₁ b = blockRefs h₀ b := blockRefs_ext c1 b hbbound
    rw [heq] at hr
    have hlt := hbbound r hr
    refine ⟨fun hmem => ?_, lt_of_lt_of_le hlt c1.1⟩
    have := hcbLow r hmem
    omega
  have hinv₂ : MutInv h₁ cb m₁ (applyMutations h₁ m₁ muts) :=
    applyMutations_inv h₁ cb m₁ muts hcbB h₁ hinv₁
  set h₂ := applyMutations h₁ m₁ muts with hh₂
  obtain ⟨hclipval, hcliprefs⟩ := MutInv_clip_value h₁ cb m₁ h₂ hinv₂
  have hcbB₂ : ∀ r ∈ blockRefs h₂ cb, r < h₂.next := by
    intro r hr
    rw [hcliprefs] at hr
    exact lt_of_lt_of_le (hcbB r hr) hinv₂.1
  obtain ⟨p1, p2, p3⟩ := copyBlock_spec h₂ cb hcbB₂
  set h₃ := (copyBlock h₂ cb).1 with hh₃
  set pb := (copyBlock h₂ cb).2 with hpb
  have hpaste : pasteFromClipboard h₂ m₁ j =
      ((h₃, { m₁ with blocks := TimeMatrix.jsSpliceInsert m₁.blocks (j + 1) pb }),
       true) := rfl
  have hsrc : ∀ r ∈ blockRefs h₂ b₀, r < h₂.next := by
    intro r hr
    exact (hinv₂.2.2 b₀ hb₀mem r hr).2
  have h32cb : blockRefs h₃ cb = blockRefs h₂ cb := blockRefs_ext p1 cb hcbB₂
  have h32src : blockRefs h₃ b₀ = blockRefs h₂ b₀ := blockRefs_ext p1 b₀ hsrc
  refine ⟨h₁, m₁, cb, h₃,
    { m₁ with blocks := TimeMatrix.jsSpliceInsert m₁.blocks (j + 1) pb }, pb,
    hcopy, rfl, rfl, hpaste, ?_, ?_, ?_, ?_⟩
  · show (TimeMatrix.jsSpliceInsert m₁.blocks (j + 1) pb).get?
        (min (j + 1) m₁.blocks.length) = some pb
    exact jsSpliceInsert_get _ _ _
  · exact p2.trans (hclipval.trans c2)
  · intro r hr
    have hge := (p3 r hr).1
    constructor
    · intro hmem
      rw [h32cb, hcliprefs] at hmem
      have := hcbB r hmem
      have := hinv₂.1
      omega
    · intro hmem
      rw [h32src] at hmem
      have := hsrc r hmem
      omega
  · intro r hr hmem
    rw [h32src] at hmem
    rw [h32cb, hcliprefs] at hr
    exact (hinv₂.2.2 b₀ hb₀mem r hmem).1 hr

theorem clipboard_deep_copy_isolation_witness :
    WFMat
      ⟨fun r => if r = 2 then some ⟨"C", 2, false, false⟩ else none,
       fun r => if r = 0 then some [some 2] else none,
       fun r => if r = 1 then some ["kick"] else none, 3⟩
      ⟨[⟨[("bass-1", 0)], [1]⟩], none⟩ ∧
    (⟨[⟨[("bass-1", 0)], [1]⟩], none⟩ : HMatrix).blocks.get? 0 =
      some ⟨[("bass-1", 0)], [1]⟩ ∧
    ∃ (h₁ : Heap) (m₁ : HMatrix) (cb : HBlock) (h₃ : Heap) (m₃ : HMatrix)
      (pb : HBlock),
      copyToClipboard
        ⟨fun r => if r = 2 then some ⟨"C", 2, false, false⟩ else none,
         fun r => if r = 0 then some [some 2] else none,
         fun r => if r = 1 then some ["kick"] else none, 3⟩
        ⟨[⟨[("bass-1", 0)], [1]⟩], none⟩ 0 = ((h₁, m₁), true) ∧
      m₁.blocks = (⟨[⟨[("bass-1", 0)], [1]⟩], none⟩ : HMatrix).blocks ∧
      m₁.clipboard = some cb ∧
      pasteFromClipboard
        (applyMutations h₁ m₁
          [Mutation.setSlot 0 "bass-1" 0 (some ⟨"D", 3, true, false⟩)])
        m₁ 0 = ((h₃, m₃), true) ∧
      m₃.blocks.get? (min (0 + 1) m₁.blocks.length) = some pb ∧
      blockValue h₃ pb =
        blockValue
          ⟨fun r => if r = 2 then some ⟨"C", 2, false, false⟩ else none,
           fun r => if r = 0 then some [some 2] else none,
           fun r => if r = 1 then some ["kick"] else none, 3⟩
          ⟨[("bass-1", 0)], [1]⟩ ∧
      (∀ r ∈ blockRefs h₃ pb, r ∉ blockRefs h₃ cb ∧ r ∉ blockRefs h₃ ⟨[("bass-1", 0)], [1]⟩) ∧
      (∀ r ∈ blockRefs h₃ cb, r ∉ blockRefs h₃ ⟨[("bass-1", 0)], [1]⟩) :=
  ⟨by unfold WFMat; decide, rfl,
   clipboard_deep_copy_isolation
     ⟨fun r => if r = 2 then some ⟨"C", 2, false, false⟩ else none,
      fun r => if r = 0 then some [some 2] else none,
      fun r => if r = 1 then some ["kick"] else none, 3⟩
     ⟨[⟨[("bass-1", 0)], [1]⟩], none⟩ 0 0
     [Mutation.setSlot 0 "bass-1" 0 (some ⟨"D", 3, true, false⟩)]
     ⟨[("bass-1", 0)], [1]⟩ (by unfold WFMat; decide) rfl⟩

end HeapModel

/-! ## C4: CSV round-trip -/

namespace CSV

theorem digitChar_isDigit (d : ℕ) (hd : d < 10) :
    (digitChar d).isDigit = true ∧ charVal (digitChar d) = d := by
  interval_cases d <;> exact ⟨rfl, rfl⟩

theorem natToStrCore_fuel (n : ℕ) : ∀ (f₁ f₂ : ℕ) (acc : List Char),
    n < f₁ → n < f₂ → natToStrCore f₁ n acc = natToStrCore f₂ n acc := by
  induction n using Nat.strong_induction_on with
  | _ n ih =>
      intro f₁ f₂ acc h₁ h₂
      obtain ⟨g₁, rfl⟩ : ∃ g, f₁ = g + 1 := ⟨f₁ - 1, by omega⟩
      obtain ⟨g₂, rfl⟩ : ∃ g, f₂ = g + 1 := ⟨f₂ - 1, by omega⟩
      show (if n < 10 then _ else _) = (if n < 10 then _ else _)
      by_cases hn : n < 10
      · rw [if_pos hn, if_pos hn]
      · rw [if_neg hn, if_neg hn]
        exact ih (n / 10) (by omega) g₁ g₂ _ (by omega) (by omega)

theorem natToStrCore_acc (f : ℕ) : ∀ (n : ℕ) (acc : List Char), n < f →
    natToStrCore f n acc = natToStrCore f n [] ++ acc := by
  induction f with
  | zero => intro n acc h; omega
  | succ f ih =>
      intro n acc h
      show (if n < 10 then _ else _) = (if n < 10 then _ else _) ++ acc
      by_cases hn : n < 10
      · rw [if_pos hn, if_pos hn]
        rfl
      · rw [if_neg hn, if_neg hn]
        have hdiv : n / 10 < f := by omega
        rw [ih (n / 10) (digitChar (n % 10) :: acc) hdiv,
            ih (n / 10) [digitChar (n % 10)] hdiv, List.append_assoc]
        rfl

theorem natToStr_small (n : ℕ) (h : n < 10) : natToStr n = [digitChar n] := by
  show (if n < 10 then _ else _) = _
  rw [if_pos h]

theorem natToStr_step (n : ℕ) (h : 10 ≤ n) :
    natToStr n = natToStr (n / 10) ++ [digitChar (n % 10)] := by
  show (if n < 10 then _ else _) = _
  rw [if_neg (by omega)]
  rw [natToStrCore_fuel (n / 10) n (n / 10 + 1) _ (by omega) (by omega)]
  exact natToStrCore_acc _ _ _ (by omega)

theorem natToStr_digits (n : ℕ) : ∀ c ∈ natToStr n, c.isDigit = true := by
  induction n using Nat.strong_induction_on with
  | _ n ih =>
      intro c hc
      by_cases hn : n < 10
      · rw [natToStr_small n hn] at hc
        rcases List.mem_singleton.mp hc with rfl
        exact (digitChar_isDigit n hn).1
      · rw [natToStr_step n (by omega)] at hc
        rcases List.mem_append.mp hc with h1 | h2
        · exact ih (n / 10) (by omega) c h1
        · rcases List.mem_singleton.mp h2 with rfl
          exact (digitChar_isDigit (n % 10) (by omega)).1

theorem natToStr_ne_nil (n : ℕ) : natToStr n ≠ [] := by
  by_cases hn : n < 10
  · rw [natToStr_small n hn]
    exact List.cons_ne_nil _ _
  · rw [natToStr_step n (by omega)]
    simp

theorem parseDigitsVal_append (xs : List Char) :
    ∀ (c : Char) (a : ℕ),
      parseDigitsVal (xs ++ [c]) a = (parseDigitsVal xs a) * 10 + charVal c := by
  induction xs with
  | nil => intro c a; rfl
  | cons x xs ih => intro c a; exact ih c (a * 10 + charVal x)

theorem parseDigitsVal_natToStr (n : ℕ) : parseDigitsVal (natToStr n) 0 = n := by
  induction n using Nat.strong_induction_on with
  | _ n ih =>
      by_cases hn : n < 10
      · rw [natToStr_small n hn]
        show 0 * 10 + charVal (digitChar n) = n
        rw [(digitChar_isDigit n hn).2]
        omega
      · rw [natToStr_step n (by omega), parseDigitsVal_append,
            ih (n / 10) (by omega), (digitChar_isDigit (n % 10) (by omega)).2]
        omega

theorem isDigit_ne_signs {c : Char} (h : c.isDigit = true) :
    c ≠ '-' ∧ c ≠ '+' := by
  constructor <;> rintro rfl <;> exact absurd h (by decide)

theorem jsParseInt_natToStr (n : ℕ) : jsParseInt (natToStr n) = some ((n : ℕ) : ℤ) := by
  obtain ⟨c, rest, hcr⟩ : ∃ c rest, natToStr n = c :: rest := by
    rcases hs : natToStr n with _ | ⟨c, rest⟩
    · exact absurd hs (natToStr_ne_nil n)
    · exact ⟨c, rest, rfl⟩
  have hcd : c.isDigit = true := natToStr_digits n c (by rw [hcr]; exact List.mem_cons_self _ _)
  obtain ⟨hc1, hc2⟩ := isDigit_ne_signs hcd
  unfold jsParseInt
  rw [hcr]
  rw [if_neg (by simpa using hc1), if_neg (by simpa using hc2)]
  have htake : (c :: rest).takeWhile Char.isDigit = c :: rest := by
    refine List.takeWhile_eq_self_iff.mpr ?_
    intro x hx
    exact natToStr_digits n x (by rw [hcr]; exact hx)
  rw [htake, if_neg (List.cons_ne_nil _ _), ← hcr, parseDigitsVal_natToStr]

theorem intToStr_nonneg (i : ℤ) (h : 0 ≤ i) : intToStr i = natToStr i.toNat := by
  unfold intToStr
  rw [if_neg (by omega)]

/-! ### split / join -/

theorem splitSep_ne_nil (sep : Char) (s : List Char) : splitSep sep s ≠ [] := by
  cases s with
  | nil => exact List.cons_ne_nil _ _
  | cons c rest =>
      show (match splitSep sep rest with
            | [] => [[c]]
            | p :: ps => if c = sep then [] :: p :: ps else (c :: p) :: ps) ≠ []
      rcases splitSep sep rest with _ | ⟨p, ps⟩
      · exact List.cons_ne_nil _ _
      · dsimp only
        by_cases hc : c = sep
        · rw [if_pos hc]
          exact List.cons_ne_nil _ _
        · rw [if_neg hc]
          exact List.cons_ne_nil _ _

theorem splitSep_nosep (sep : Char) : ∀ (s : List Char),
    (∀ c ∈ s, c ≠ sep) → splitSep sep s = [s] := by
  intro s
  induction s with
  | nil => intro _; rfl
  | cons c rest ih =>
      intro h
      have hrest := ih (fun x hx => h x (List.mem_cons_of_mem _ hx))
      show (match splitSep sep rest with
            | [] => [[c]]
            | p :: ps => if c = sep then [] :: p :: ps else (c :: p) :: ps) = [c :: rest]
      rw [hrest]
      dsimp only
      rw [if_neg (h c (List.mem_cons_self _ _))]

theorem splitSep_append (sep : Char) : ∀ (xs ys : List Char),
    (∀ c ∈ xs, c ≠ sep) →
    splitSep sep (xs ++ sep :: ys) = xs :: splitSep sep ys := by
  intro xs
  induction xs with
  | nil =>
      intro ys _
      show (match splitSep sep ys with
            | [] => [[sep]]
            | p :: ps => if sep = sep then [] :: p :: ps else (sep :: p) :: ps) = [] :: splitSep sep ys
      rcases hs : splitSep sep ys with _ | ⟨p, ps⟩
      · exact absurd hs (splitSep_ne_nil sep ys)
      · dsimp only
        rw [if_pos rfl]
  | cons x xs ih =>
      intro ys h
      have hrec := ih ys (fun c hc => h c (List.mem_cons_of_mem _ hc))
      show (match splitSep sep (xs ++ sep :: ys) with
            | [] => [[x]]
            | p :: ps => if x = sep then [] :: p :: ps else (x :: p) :: ps) =
          (x :: xs) :: splitSep sep ys
      rw [hrec]
      dsimp only
      rw [if_neg (h x (List.mem_cons_self _ _))]

theorem joinSep_cons (sep : Char) (p : List Char) (ps : List (List Char))
    (h : ps ≠ []) : joinSep sep (p :: ps) = p ++ sep :: joinSep sep ps := by
  cases ps with
  | nil => exact absurd rfl h
  | cons q qs => rfl

theorem splitSep_joinSep (sep : Char) : ∀ (ps : List (List Char)), ps ≠ [] →
    (∀ p ∈ ps, ∀ c ∈ p, c ≠ sep) → splitSep sep (joinSep sep ps) = ps := by
  intro ps
  induction ps with
  | nil => intro h _; exact absurd rfl h
  | cons p qs ih =>
      intro _ hall
      cases qs with
      | nil =>
          show splitSep sep p = [p]
          exact splitSep_nosep sep p (hall p (List.mem_cons_self _ _))
      | cons q qs' =>
          rw [joinSep_cons sep p _ (List.cons_ne_nil _ _)]
          rw [splitSep_append sep p _ (hall p (List.mem_cons_self _ _))]
          rw [ih (List.cons_ne_nil _ _) (fun r hr c hc => hall r (List.mem_cons_of_mem _ hr) c hc)]

theorem joinSep_ne_nil (sep : Char) (p : List Char) (ps : List (List Char))
    (hp : p ≠ []) : joinSep sep (p :: ps) ≠ [] := by
  cases ps with
  | nil => exact hp
  | cons q qs =>
      rw [joinSep_cons sep p _ (List.cons_ne_nil _ _)]
      cases p with
      | nil => exact absurd rfl hp
      | cons c cs => exact List.cons_ne_nil _ _

theorem joinSep_head? (sep : Char) (p : List Char) (ps : List (List Char))
    (hp : p ≠ []) : (joinSep sep (p :: ps)).head? = p.head? := by
  cases ps with
  | nil => rfl
  | cons q qs =>
      rw [joinSep_cons sep p _ (List.cons_ne_nil _ _)]
      cases p with
      | nil => exact absurd rfl hp
      | cons c cs => rfl

theorem joinSep_getLast? (sep : Char) : ∀ (ps : List (List Char)) (q : List Char),
    (∀ p ∈ ps, p ≠ []) → ps.getLast? = some q →
    (joinSep sep ps).getLast? = q.getLast? := by
  intro ps
  induction ps with
  | nil => intro q _ h; exact absurd h (by simp)
  | cons p qs ih =>
      intro q hall hlast
      cases qs with
      | nil =>
          have : p = q := by simpa using hlast
          subst this
          rfl
      | cons r rs =>
          rw [joinSep_cons sep p _ (List.cons_ne_nil _ _)]
          rw [List.getLast?_append_of_ne_nil]
          · have hlast' : (r :: rs).getLast? = some q := by
              rw [← hlast]
              exact (List.getLast?_cons_cons ..).symm ▸ rfl
            have hjoin_ne : joinSep sep (r :: rs) ≠ [] :=
              joinSep_ne_nil sep r rs (hall r (by simp))
            have := ih q (fun x hx => hall x (List.mem_cons_of_mem _ hx)) hlast'
            rw [← this]
            cases hj : joinSep sep (r :: rs) with
            | nil => exact absurd hj hjoin_ne
            | cons a as => rfl
          · exact List.cons_ne_nil _ _

theorem dropWhile_head (p : Char → Bool) (s : List Char)
    (h : ∀ c, s.head? = some c → p c = false) : s.dropWhile p = s := by
  cases s with
  | nil => rfl
  | cons c rest =>
      rw [List.dropWhile_cons, h c rfl]
      simp

theorem jsTrim_eq_self (s : List Char)
    (hh : ∀ c, s.head? = some c → isSpaceCh c = false)
    (hl : ∀ c, s.getLast? = some c → isSpaceCh c = false) : jsTrim s = s := by
  unfold jsTrim
  rw [dropWhile_head _ s hh]
  rw [dropWhile_head _ s.reverse (fun c hc => hl c (by rwa [List.head?_reverse] at hc))]
  exact List.reverse_reverse s

/-! ### character classes of the emitted cells -/

/-- A character class capturing every character a CSV cell may contain
without disturbing the comma/newline/trim structure. -/
def CellChar (c : Char) : Prop :=
  c ≠ ',' ∧ c ≠ '\n' ∧ isSpaceCh c = false

theorem isDigit_cellChar {c : Char} (h : c.isDigit = true) :
    CellChar c ∧ c ≠ '-' ∧ c ≠ ':' := by
  refine ⟨⟨?_, ?_, ?_⟩, ?_, ?_⟩
  · rintro rfl; exact absurd h (by decide)
  · rintro rfl; exact absurd h (by decide)
  · rcases hc : isSpaceCh c with _ | _
    · rfl
    · exfalso
      have : c = ' ' ∨ c = '\n' ∨ c = '\t' ∨ c = '\r' := by
        have := hc
        unfold isSpaceCh at this
        simpa using this
      rcases this with rfl | rfl | rfl | rfl <;> exact absurd h (by decide)
  · rintro rfl; exact absurd h (by decide)
  · rintro rfl; exact absurd h (by decide)

theorem mem_joinSep (sep : Char) : ∀ (ps : List (List Char)) (c : Char),
    c ∈ joinSep sep ps → c = sep ∨ ∃ p ∈ ps, c ∈ p := by
  intro ps
  induction ps with
  | nil => intro c hc; exact absurd hc (by simp [joinSep])
  | cons p qs ih =>
      intro c hc
      cases qs with
      | nil =>
          exact Or.inr ⟨p, List.mem_cons_self _ _, hc⟩
      | cons r rs =>
          rw [joinSep_cons sep p _ (List.cons_ne_nil _ _)] at hc
          rcases List.mem_append.mp hc with hp | hrest
          · exact Or.inr ⟨p, List.mem_cons_self _ _, hp⟩
          · rcases List.mem_cons.mp hrest with rfl | hjoin
            · exact Or.inl rfl
            · rcases ih c hjoin with hsep | ⟨q, hq, hcq⟩
              · exact Or.inl hsep
              · exact Or.inr ⟨q, List.mem_cons_of_mem _ hq, hcq⟩

theorem natToStr_cellChar (n : ℕ) : ∀ c ∈ natToStr n, CellChar c ∧ c ≠ '-' ∧ c ≠ ':' :=
  fun c hc => isDigit_cellChar (natToStr_digits n c hc)

theorem bit_cellChar (b : Bool) :
    ∀ c ∈ (if b then ['1'] else ['0']), CellChar c ∧ c ≠ '-' ∧ c ≠ ':' := by
  intro c hc
  cases b with
  | false =>
      rcases List.mem_singleton.mp (by simpa using hc) with rfl
      exact isDigit_cellChar (by decide)
  | true =>
      rcases List.mem_singleton.mp (by simpa using hc) with rfl
      exact isDigit_cellChar (by decide)

/-- Characters of an exported note cell. -/
theorem encodeNoteCell_chars (v : Option NoteEvent)
    (hoct : ∀ nv, v = some nv → 0 ≤ nv.octave) :
    ∀ c ∈ encodeNoteCell v, CellChar c := by
  intro c hc
  cases v with
  | none =>
      rcases List.mem_singleton.mp (by simpa [encodeNoteCell] using hc) with rfl
      exact (isDigit_cellChar (by decide)).1
  | some nv =>
      have hoct' : 0 ≤ nv.octave := hoct nv rfl
      unfold encodeNoteCell at hc
      dsimp only at hc
      rw [intToStr_nonneg nv.octave hoct'] at hc
      rcases mem_joinSep '-' _ c hc with rfl | ⟨p, hp, hcp⟩
      · exact ⟨by decide, by decide, by decide⟩
      · simp only [List.mem_cons, List.not_mem_nil, or_false] at hp
        rcases hp with rfl | rfl | rfl | rfl
        · exact (natToStr_cellChar _ c hcp).1
        · exact (natToStr_cellChar _ c hcp).1
        · exact (bit_cellChar _ c hcp).1
        · exact (bit_cellChar _ c hcp).1

/-! ### decoding an exported note cell -/

theorem replicate_get? {α : Type} (a : α) : ∀ (n i : ℕ), i < n →
    (List.replicate n a).get? i = some a := by
  intro n
  induction n with
  | zero => intro i hi; omega
  | succ n ih =>
      intro i hi
      cases i with
      | zero => rfl
      | succ i => exact ih i (by omega)

theorem find?_append_of_none {α : Type} (l₁ l₂ : List α) (p : α → Bool)
    (h : l₁.find? p = none) : (l₁ ++ l₂).find? p = l₂.find? p := by
  induction l₁ with
  | nil => rfl
  | cons a as ih =>
      have h' := List.find?_eq_none.mp h
      rw [List.cons_append, List.find?_cons_of_neg _ (by simpa using h' a (List.mem_cons_self _ _))]
      exact ih (List.find?_eq_none.mpr (fun x hx => h' x (List.mem_cons_of_mem _ hx)))

theorem find?_append_of_some {α : Type} (l₁ l₂ : List α) (p : α → Bool) (x : α)
    (h : l₁.find? p = some x) : (l₁ ++ l₂).find? p = some x := by
  induction l₁ with
  | nil => exact absurd h (by simp)
  | cons a as ih =>
      by_cases hp : p a = true
      · rw [List.find?_cons_of_pos _ hp] at h
        rw [List.cons_append, List.find?_cons_of_pos _ hp]
        exact h
      · rw [List.find?_cons_of_neg _ hp] at h
        rw [List.cons_append, List.find?_cons_of_neg _ hp]
        exact ih h

/-- `noteMap[name] || 0` followed by `noteMapRev[·]` restores `name` for
every `noteMap` key. -/
theorem noteMap_lookup (name : String) (h : name ∈ noteMapCSV.map (fun kv => kv.1)) :
    ∃ k : ℕ, (((noteMapCSV.find? (fun kv => kv.1 = name)).map (fun kv => kv.2)).getD 0) = k ∧
      noteMapRevCSV.get? k = some name := by
  simp only [noteMapCSV, List.map_cons, List.map_nil, List.mem_cons,
    List.not_mem_nil, or_false] at h
  rcases h with rfl | rfl | rfl | rfl | rfl | rfl | rfl | rfl | rfl | rfl | rfl | rfl <;>
    exact ⟨_, rfl, by decide⟩

/-- Decoding inverts encoding on a valid note cell. -/
theorem decode_encode_note (nv : NoteEvent) (hv : ValidNote nv) :
    decodeNoteCell (some (encodeNoteCell (some nv))) = some nv := by
  obtain ⟨hname, hoct⟩ := hv
  obtain ⟨k, hk, hrev⟩ := noteMap_lookup nv.note hname
  have henc : encodeNoteCell (some nv) =
      joinSep '-' [natToStr k, natToStr nv.octave.toNat,
                   if nv.slide then ['1'] else ['0'],
                   if nv.accent then ['1'] else ['0']] := by
    unfold encodeNoteCell
    dsimp only
    rw [hk, intToStr_nonneg nv.octave hoct]
  have hdashfree : ∀ p ∈ [natToStr k, natToStr nv.octave.toNat,
      (if nv.slide then ['1'] else ['0']), (if nv.accent then ['1'] else ['0'])],
      ∀ c ∈ p, c ≠ '-' := by
    intro p hp c hc
    simp only [List.mem_cons, List.not_mem_nil, or_false] at hp
    rcases hp with rfl | rfl | rfl | rfl
    · exact (natToStr_cellChar _ c hc).2.1
    · exact (natToStr_cellChar _ c hc).2.1
    · exact (bit_cellChar _ c hc).2.1
    · exact (bit_cellChar _ c hc).2.1
  have hmem : '-' ∈ encodeNoteCell (some nv) := by
    rw [henc, joinSep_cons _ _ _ (by simp)]
    exact List.mem_append_right _ (List.mem_cons_self _ _)
  have hne0 : encodeNoteCell (some nv) ≠ ['0'] := by
    intro he; rw [he] at hmem; simp at hmem
  have hnenil : encodeNoteCell (some nv) ≠ [] := by
    intro he; rw [he] at hmem; exact (List.not_mem_nil _) hmem
  simp only [decodeNoteCell]
  rw [if_neg (by push_neg; exact ⟨hnenil, hne0⟩)]
  rw [henc, splitSep_joinSep '-' _ (by simp) hdashfree]
  try dsimp only
  rw [jsParseInt_natToStr k]
  try dsimp only
  rw [if_pos (Int.ofNat_zero_le k)]
  rw [show ((k : ℤ)).toNat = k from rfl, hrev]
  try dsimp only
  rw [jsParseInt_natToStr nv.octave.toNat]
  have hoctv : ((some ((nv.octave.toNat : ℕ) : ℤ)).getD 0 : ℤ) = nv.octave := by
    simp [Int.toNat_of_nonneg hoct]
  rw [hoctv]
  have hsl : (decide ((if nv.slide then ['1'] else ['0']) = ['1'])) = nv.slide := by
    cases nv.slide <;> decide
  have hac : (decide ((if nv.accent then ['1'] else ['0']) = ['1'])) = nv.accent := by
    cases nv.accent <;> decide
  rw [hsl, hac]

/-- Decoding an empty-slot cell (`"0"`) yields the empty slot. -/
theorem decode_encode_none : decodeNoteCell (some (encodeNoteCell none)) = none := by
  decide

/-! ### indexing the exported rows -/

theorem flatMap_chunk_get? {α β : Type} (S : ℕ) (f : α → List β) :
    ∀ (bs : List α) (bi : ℕ) (b : α), bs.get? bi = some b →
    (∀ a ∈ bs, (f a).length = S) → ∀ si, si < S →
    (bs.flatMap f).get? (bi * S + si) = (f b).get? si := by
  intro bs
  induction bs with
  | nil => intro bi b hb _ si _; simp at hb
  | cons a as ih =>
      intro bi b hb hlen si hsi
      rw [List.flatMap_cons]
      cases bi with
      | zero =>
          have hab : a = b := by simpa using hb
          rw [Nat.zero_mul, Nat.zero_add, ← hab]
          exact List.get?_append (by rw [hlen a (List.mem_cons_self _ _)]; exact hsi)
      | succ bi' =>
          have hge : (f a).length ≤ (bi' + 1) * S + si := by
            rw [hlen a (List.mem_cons_self _ _), Nat.succ_mul]
            omega
          rw [List.get?_append_right hge]
          have harith : (bi' + 1) * S + si - (f a).length = bi' * S + si := by
            rw [hlen a (List.mem_cons_self _ _), Nat.succ_mul]
            omega
          rw [harith]
          exact ih bi' b (by simpa using hb)
            (fun x hx => hlen x (List.mem_cons_of_mem _ hx)) si hsi

theorem noteAt_eq (m : TimeMatrix) (bi : ℕ) (id : String) (si : ℕ) (b : PatBlock)
    (hb : m.blocks.get? bi = some b) :
    noteAt m bi id si =
      (match TimeMatrix.trackOf b id with
       | none => none
       | some tr => (tr.get? si).getD none) := by
  unfold noteAt
  rw [hb]

theorem trackRowCells_get? (m : TimeMatrix) (sc : SynthConfig) (bi si : ℕ) (b : PatBlock)
    (hb : m.blocks.get? bi = some b) (hsi : si < m.totalSteps) :
    (trackRowCells m sc).get? (bi * m.totalSteps + si + 1) =
      some (encodeNoteCell (noteAt m bi sc.id si)) := by
  unfold trackRowCells
  rw [List.get?_cons_succ]
  rw [flatMap_chunk_get? m.totalSteps _ m.blocks bi b hb (fun a _ => by simp) si hsi]
  rw [List.get?_map, List.get?_range hsi]
  rw [noteAt_eq m bi sc.id si b hb]
  rcases htr : TimeMatrix.trackOf b sc.id with _ | tr <;> rfl

theorem drumRowCells_get? (m : TimeMatrix) (bi si : ℕ) (b : PatBlock)
    (hb : m.blocks.get? bi = some b) (hsi : si < m.totalSteps) :
    (drumRowCells m).get? (bi * m.totalSteps + si + 1) =
      some (binCell (drumsAt m bi si)) := by
  unfold drumRowCells
  rw [List.get?_cons_succ]
  rw [flatMap_chunk_get? m.totalSteps _ m.blocks bi b hb (fun a _ => by simp) si hsi]
  rw [List.get?_map, List.get?_range hsi]
  unfold drumsAt
  rw [hb]
  rfl

/-! ### no cell holds a comma or a newline -/

theorem natToStr_cellOK (n : ℕ) : CellOK (natToStr n) :=
  fun c hc => ⟨(natToStr_cellChar n c hc).1.1, (natToStr_cellChar n c hc).1.2.1⟩

theorem joinSep_dash_cellOK (ps : List (List Char)) (h : ∀ p ∈ ps, CellOK p) :
    CellOK (joinSep '-' ps) := by
  intro c hc
  rcases mem_joinSep '-' ps c hc with rfl | ⟨p, hp, hcp⟩
  · exact ⟨by decide, by decide⟩
  · exact h p hp c hcp

theorem configCell_cellOK (sc : SynthConfig) (h : GoodId sc.id) :
    CellOK (configCell sc) := by
  intro c hc
  unfold configCell at hc
  rcases List.mem_append.mp hc with hid | hrest
  · exact ⟨(h.2.1 c hid).1, (h.2.1 c hid).2.1⟩
  · rcases List.mem_cons.mp hrest with rfl | hjoin
    · exact ⟨by decide, by decide⟩
    · refine joinSep_dash_cellOK _ ?_ c hjoin
      intro p hp
      simp only [List.mem_cons, List.not_mem_nil, or_false] at hp
      rcases hp with rfl | rfl | rfl | rfl | rfl | rfl | rfl | rfl | rfl | rfl <;>
        exact natToStr_cellOK _

theorem binCell_cellOK (d : List String) : CellOK (binCell d) := by
  intro c hc
  unfold binCell at hc
  rcases List.mem_map.mp hc with ⟨x, _, hx⟩
  rcases hcont : d.contains x with _ | _ <;> rw [hcont] at hx <;>
    exact hx ▸ ⟨by decide, by decide⟩

theorem headerCells_cellOK (bpm : ℕ) (m : TimeMatrix) (k : ℕ) :
    ∀ cell ∈ headerCells bpm m k, CellOK cell := by
  intro cell hcell
  unfold headerCells at hcell
  rcases List.mem_cons.mp hcell with rfl | hlabel
  · refine joinSep_dash_cellOK _ ?_
    intro p hp
    simp only [List.mem_cons, List.not_mem_nil, or_false] at hp
    rcases hp with rfl | rfl | rfl <;> exact natToStr_cellOK _
  · rcases List.mem_map.mp hlabel with ⟨i, _, hi⟩
    exact hi ▸ natToStr_cellOK _

theorem trackRow_note_value (m : TimeMatrix) (sc : SynthConfig)
    (hoct : ∀ b ∈ m.blocks, ∀ kv ∈ b.tracks, ∀ v ∈ kv.2, ∀ nv, v = some nv → 0 ≤ nv.octave)
    (b : PatBlock) (hb : b ∈ m.blocks) (s : ℕ) (nv : NoteEvent)
    (hv : (match TimeMatrix.trackOf b sc.id with
           | some track => (track.get? s).getD none
           | none => none) = some nv) : 0 ≤ nv.octave := by
  rcases htr : TimeMatrix.trackOf b sc.id with _ | track
  · rw [htr] at hv; exact absurd hv (by simp)
  · rw [htr] at hv
    dsimp only at hv
    rcases hts : track.get? s with _ | v
    · rw [hts] at hv; exact absurd hv (by simp)
    · rw [hts] at hv
      obtain ⟨kv, hfind⟩ : ∃ kv, b.tracks.find? (fun kv => kv.1 = sc.id) = some kv := by
        unfold TimeMatrix.trackOf at htr
        rcases hf : b.tracks.find? (fun kv => kv.1 = sc.id) with _ | kv
        · rw [hf] at htr; exact absurd htr (by simp)
        · exact ⟨kv, hf⟩
      have hkvmem : kv ∈ b.tracks := List.mem_of_find?_eq_some hfind
      have htr2 : kv.2 = track := by
        unfold TimeMatrix.trackOf at htr
        rw [hfind] at htr
        simpa using htr
      have hvmem : v ∈ kv.2 := htr2 ▸ List.get?_mem hts
      exact hoct b hb kv hkvmem v hvmem nv (by simpa using hv)

theorem trackRowCells_cellOK (m : TimeMatrix) (sc : SynthConfig) (hgood : GoodId sc.id)
    (hoct : ∀ b ∈ m.blocks, ∀ kv ∈ b.tracks, ∀ v ∈ kv.2, ∀ nv, v = some nv → 0 ≤ nv.octave) :
    ∀ cell ∈ trackRowCells m sc, CellOK cell := by
  intro cell hcell
  unfold trackRowCells at hcell
  rcases List.mem_cons.mp hcell with rfl | htail
  · exact configCell_cellOK sc hgood
  · rcases List.mem_flatMap.mp htail with ⟨b, hbmem, hcellb⟩
    rcases List.mem_map.mp hcellb with ⟨s, _, hs⟩
    subst hs
    intro c hc
    have := encodeNoteCell_chars _
      (fun nv hnv => trackRow_note_value m sc hoct b hbmem s nv hnv) c hc
    exact ⟨this.1, this.2.1⟩

theorem drumRowCells_cellOK (m : TimeMatrix) : ∀ cell ∈ drumRowCells m, CellOK cell := by
  intro cell hcell
  unfold drumRowCells at hcell
  rcases List.mem_cons.mp hcell with rfl | htail
  · intro c hc
    fin_cases hc <;> exact ⟨by decide, by decide⟩
  · rcases List.mem_flatMap.mp htail with ⟨b, _, hcellb⟩
    rcases List.mem_map.mp hcellb with ⟨s, _, hs⟩
    exact hs ▸ binCell_cellOK _

theorem exportCells_cellOK (bpm : ℕ) (m : TimeMatrix) (synths : List SynthConfig)
    (hgood : ∀ sc ∈ synths, GoodId sc.id)
    (hoct : ∀ b ∈ m.blocks, ∀ kv ∈ b.tracks, ∀ v ∈ kv.2, ∀ nv, v = some nv → 0 ≤ nv.octave) :
    ∀ row ∈ exportCells bpm m synths, ∀ cell ∈ row, CellOK cell := by
  intro row hrow
  unfold exportCells at hrow
  rcases List.mem_cons.mp hrow with rfl | htail
  · exact headerCells_cellOK bpm m synths.length
  · rcases List.mem_append.mp htail with hsynth | hdrum
    · rcases List.mem_map.mp hsynth with ⟨sc, hsc, hr⟩
      exact hr ▸ trackRowCells_cellOK m sc (hgood sc hsc) hoct
    · rcases List.mem_singleton.mp hdrum with rfl
      exact drumRowCells_cellOK m

/-! ### recovering the rows and cells of the exported text -/

theorem row_chars (cells : List (List Char)) (h : ∀ cell ∈ cells, CellOK cell) :
    ∀ c ∈ joinSep ',' cells, c ≠ '\n' := by
  intro c hc
  rcases mem_joinSep ',' cells c hc with rfl | ⟨p, hp, hcp⟩
  · decide
  · exact (h p hp c hcp).2

theorem splitSep_row (cells : List (List Char)) (hne : cells ≠ [])
    (h : ∀ cell ∈ cells, CellOK cell) :
    splitSep ',' (joinSep ',' cells) = cells :=
  splitSep_joinSep ',' cells hne (fun p hp c hc => (h p hp c hc).1)

theorem headerRow_ne_nil (bpm : ℕ) (m : TimeMatrix) (k : ℕ) :
    joinSep ',' (headerCells bpm m k) ≠ [] := by
  unfold headerCells
  refine joinSep_ne_nil ',' _ _ ?_
  refine joinSep_ne_nil '-' _ _ ?_
  exact natToStr_ne_nil bpm

theorem export_head_nospace (bpm : ℕ) (m : TimeMatrix) (synths : List SynthConfig) :
    ∀ c, (exportCSVText bpm m synths).head? = some c → isSpaceCh c = false := by
  intro c hc
  unfold exportCSVText exportCells at hc
  rw [List.map_cons] at hc
  rw [joinSep_head? '\n' _ _ (headerRow_ne_nil bpm m synths.length)] at hc
  unfold headerCells at hc
  rw [joinSep_head? ',' _ _ (joinSep_ne_nil '-' _ _ (natToStr_ne_nil bpm))] at hc
  rw [joinSep_head? '-' _ _ (natToStr_ne_nil bpm)] at hc
  have hdig := natToStr_digits bpm c (List.mem_of_mem_head? hc)
  exact (isDigit_cellChar hdig).1.2.2

theorem binCell_ne_nil (d : List String) : binCell d ≠ [] := by
  unfold binCell drumOrder
  simp

theorem export_last_nospace (bpm : ℕ) (m : TimeMatrix) (synths : List SynthConfig)
    (hS : 0 < m.totalSteps) (hB : 0 < m.blocks.length) :
    ∀ c, (exportCSVText bpm m synths).getLast? = some c → isSpaceCh c = false := by
  intro c hc
  -- the drum row is nonempty: its first data cell exists
  obtain ⟨b0, hb0⟩ : ∃ b0, m.blocks.get? 0 = some b0 := by
    rcases hg : m.blocks.get? 0 with _ | b0
    · rw [List.get?_eq_none] at hg; omega
    · exact ⟨b0, rfl⟩
  have hcell0 : (m.blocks.flatMap (fun block =>
      (List.range m.totalSteps).map (fun s => binCell ((block.drums.get? s).getD [])))).get? 0 =
      some (binCell ((b0.drums.get? 0).getD [])) := by
    have := flatMap_chunk_get? m.totalSteps
      (fun block => (List.range m.totalSteps).map (fun s => binCell ((block.drums.get? s).getD [])))
      m.blocks 0 b0 hb0 (fun a _ => by simp) 0 hS
    rw [Nat.zero_mul, Nat.zero_add] at this
    rw [this, List.get?_map, List.get?_range hS]
    rfl
  set dcells := m.blocks.flatMap (fun block =>
      (List.range m.totalSteps).map (fun s => binCell ((block.drums.get? s).getD []))) with hdc
  have hdcne : dcells ≠ [] := by
    intro he; rw [he] at hcell0; simp at hcell0
  -- every drum cell is a binCell, hence nonempty with '0'/'1' characters
  have hdcform : ∀ q ∈ dcells, ∃ d, q = binCell d := by
    intro q hq
    rw [hdc] at hq
    rcases List.mem_flatMap.mp hq with ⟨b, _, hqb⟩
    rcases List.mem_map.mp hqb with ⟨s, _, hs⟩
    exact ⟨_, hs.symm⟩
  -- the whole text ends with the drum row
  unfold exportCSVText at hc
  have hrowsne : ∀ p ∈ (exportCells bpm m synths).map (joinSep ','), p ≠ [] := by
    intro p hp
    rcases List.mem_map.mp hp with ⟨row, hrow, hr⟩
    subst hr
    unfold exportCells at hrow
    rcases List.mem_cons.mp hrow with rfl | hrow'
    · exact headerRow_ne_nil bpm m synths.length
    · rcases List.mem_append.mp hrow' with hsy | hdr
      · rcases List.mem_map.mp hsy with ⟨sc, _, hr2⟩
        subst hr2
        refine joinSep_ne_nil ',' _ _ ?_
        simp [configCell]
      · rcases List.mem_singleton.mp hdr with rfl
        refine joinSep_ne_nil ',' _ _ ?_
        decide
  have hexplast : (exportCells bpm m synths).getLast? = some (drumRowCells m) := by
    unfold exportCells
    show ((headerCells bpm m synths.length :: List.map (trackRowCells m) synths) ++
        [drumRowCells m]).getLast? = some (drumRowCells m)
    exact List.getLast?_concat _
  have hmaplast : ((exportCells bpm m synths).map (joinSep ',')).getLast? =
      some (joinSep ',' (drumRowCells m)) := by
    rw [List.getLast?_map, hexplast]
    rfl
  rw [joinSep_getLast? '\n' _ _ hrowsne hmaplast] at hc
  -- the drum row ends with its last binary cell
  obtain ⟨q0, rest, hq0⟩ : ∃ q0 rest, dcells = q0 :: rest := by
    rcases hd : dcells with _ | ⟨q0, rest⟩
    · exact absurd hd hdcne
    · exact ⟨q0, rest, rfl⟩
  obtain ⟨qlast, hqlast⟩ : ∃ qlast, dcells.getLast? = some qlast := by
    rw [hq0]
    cases hgl : (q0 :: rest).getLast? with
    | none => simp at hgl
    | some q => exact ⟨q, rfl⟩
  have hqlastmem : qlast ∈ dcells := List.mem_of_mem_getLast? hqlast
  obtain ⟨dl, hdl⟩ := hdcform qlast hqlastmem
  have hdrumcells_ne : ∀ p ∈ drumRowCells m, p ≠ [] := by
    intro p hp
    unfold drumRowCells at hp
    rcases List.mem_cons.mp hp with rfl | htail
    · simp
    · obtain ⟨d, hd⟩ := hdcform p (by rw [hdc]; exact htail)
      exact hd ▸ binCell_ne_nil d
  have hdrumlast : (drumRowCells m).getLast? = some qlast := by
    unfold drumRowCells
    rw [← hdc, hq0]
    rw [List.getLast?_cons_cons]
    rw [← hq0]
    exact hqlast
  rw [joinSep_getLast? ',' _ _ hdrumcells_ne hdrumlast] at hc
  -- the last character of a binCell is '0' or '1'
  have hcq : c ∈ qlast := List.mem_of_mem_getLast? hc
  rw [hdl] at hcq
  unfold binCell at hcq
  rcases List.mem_map.mp hcq with ⟨x, _, hx⟩
  rcases hcont : dl.contains x with _ | _ <;> rw [hcont] at hx <;>
    exact hx ▸ (by decide)

theorem export_lines (bpm : ℕ) (m : TimeMatrix) (synths : List SynthConfig)
    (hS : 0 < m.totalSteps) (hB : 0 < m.blocks.length)
    (hgood : ∀ sc ∈ synths, GoodId sc.id)
    (hoct : ∀ b ∈ m.blocks, ∀ kv ∈ b.tracks, ∀ v ∈ kv.2, ∀ nv, v = some nv → 0 ≤ nv.octave) :
    splitSep '\n' (jsTrim (exportCSVText bpm m synths)) =
      (exportCells bpm m synths).map (joinSep ',') := by
  rw [jsTrim_eq_self _ (export_head_nospace bpm m synths)
    (export_last_nospace bpm m synths hS hB)]
  unfold exportCSVText
  refine splitSep_joinSep '\n' _ ?_ ?_
  · simp [exportCells]
  · intro p hp c hc
    rcases List.mem_map.mp hp with ⟨row, hrow, hr⟩
    exact row_chars row (exportCells_cellOK bpm m synths hgood hoct row hrow) c (hr ▸ hc)

theorem header_meta (bpm : ℕ) (m : TimeMatrix) (k : ℕ) :
    splitSep '-' (((splitSep ',' (joinSep ',' (headerCells bpm m k))).headD [])) =
      [natToStr bpm, natToStr (m.blocks.length * m.totalSteps), natToStr k] := by
  rw [splitSep_row _ (by simp [headerCells]) (headerCells_cellOK bpm m k)]
  show splitSep '-' (joinSep '-'
    [natToStr bpm, natToStr (m.blocks.length * m.totalSteps), natToStr k]) = _
  refine splitSep_joinSep '-' _ (by simp) ?_
  intro p hp c hc
  simp only [List.mem_cons, List.not_mem_nil, or_false] at hp
  rcases hp with rfl | rfl | rfl <;> exact (natToStr_cellChar _ c hc).2.1

theorem blocksNeeded_eq (S B : ℕ) (hS : 0 < S) (hB : 0 < B) :
    (B * S + S - 1) / S = B := by
  have h1 : B * S + S - 1 = (S - 1) + B * S := by omega
  rw [h1, Nat.add_mul_div_right _ _ hS, Nat.div_eq_of_lt (by omega), Nat.zero_add]

theorem replicate_head? {α : Type} (n : ℕ) (a : α) :
    (List.replicate (n + 1) a).head? = some a := by
  rw [List.replicate_succ]
  rfl

theorem import_m1 (S : ℕ) : ∀ B : ℕ,
    (List.range B).foldl (fun m _ => addBlock m)
      { totalSteps := S, blocks := [], clipboard := none } =
    ({ totalSteps := S,
       blocks := List.replicate B
         { tracks := [("bass-1", List.replicate S none)],
           drums := List.replicate S ([] : List String) },
       clipboard := none } : TimeMatrix) := by
  intro B
  induction B with
  | zero => rfl
  | succ B ih =>
      rw [List.range_succ, List.foldl_append, ih]
      rw [List.foldl_cons, List.foldl_nil]
      unfold addBlock
      cases B with
      | zero => rfl
      | succ B' =>
          rw [replicate_head? B']
          dsimp only
          simp only [List.map_cons, List.map_nil]
          rw [← List.replicate_succ']

/-! ### the import loops -/

theorem find?_map_set (id : String) (s : ℕ) (v : Option NoteEvent) :
    ∀ (l : List (String × List (Option NoteEvent))),
    (List.find? (fun kv => kv.1 = id)
        (l.map (fun kv => if kv.1 = id then (kv.1, kv.2.set s v) else kv))).map (fun kv => kv.2) =
      ((List.find? (fun kv => kv.1 = id) l).map (fun kv => kv.2)).map (fun tr => tr.set s v) := by
  intro l
  induction l with
  | nil => rfl
  | cons kv rest ih =>
      rw [List.map_cons]
      by_cases hk : kv.1 = id
      · rw [if_pos hk]
        rw [List.find?_cons_of_pos _ (by simpa using hk),
            List.find?_cons_of_pos _ (by simpa using hk)]
        rfl
      · rw [if_neg hk]
        rw [List.find?_cons_of_neg _ (by simpa using hk),
            List.find?_cons_of_neg _ (by simpa using hk)]
        exact ih

theorem find?_map_set_ne (id id' : String) (s : ℕ) (v : Option NoteEvent) (h : id' ≠ id) :
    ∀ (l : List (String × List (Option NoteEvent))),
    List.find? (fun kv => kv.1 = id')
        (l.map (fun kv => if kv.1 = id then (kv.1, kv.2.set s v) else kv)) =
      List.find? (fun kv => kv.1 = id') l := by
  intro l
  induction l with
  | nil => rfl
  | cons kv rest ih =>
      rw [List.map_cons]
      by_cases hk : kv.1 = id
      · have hk' : ¬kv.1 = id' := fun he => h (he ▸ hk ▸ rfl)
        rw [if_pos hk]
        rw [List.find?_cons_of_neg _ (by simpa using hk'),
            List.find?_cons_of_neg _ (by simpa using hk')]
        exact ih
      · rw [if_neg hk]
        by_cases hk' : kv.1 = id'
        · rw [List.find?_cons_of_pos _ (by simpa using hk'),
              List.find?_cons_of_pos _ (by simpa using hk')]
        · rw [List.find?_cons_of_neg _ (by simpa using hk'),
              List.find?_cons_of_neg _ (by simpa using hk')]
          exact ih

theorem trackOf_setTrackSlot_self (b : PatBlock) (id : String) (s : ℕ) (v : Option NoteEvent) :
    TimeMatrix.trackOf (setTrackSlot b id s v) id =
      (TimeMatrix.trackOf b id).map (fun tr => tr.set s v) := by
  unfold TimeMatrix.trackOf setTrackSlot
  exact find?_map_set id s v b.tracks

theorem trackOf_setTrackSlot_ne (b : PatBlock) (id id' : String) (s : ℕ) (v : Option NoteEvent)
    (h : id' ≠ id) :
    TimeMatrix.trackOf (setTrackSlot b id s v) id' = TimeMatrix.trackOf b id' := by
  unfold TimeMatrix.trackOf setTrackSlot
  rw [find?_map_set_ne id id' s v h b.tracks]

/-- The per-block effect of `registerTrack`. -/
theorem registerTrack_spec (m : TimeMatrix) (id : String) (S : ℕ) (hS : m.totalSteps = S) :
    (registerTrack m id).totalSteps = m.totalSteps ∧
    (registerTrack m id).blocks.length = m.blocks.length ∧
    ∀ bIdx b, m.blocks.get? bIdx = some b →
      ∃ b', (registerTrack m id).blocks.get? bIdx = some b' ∧
        b'.drums = b.drums ∧
        (∀ id', id' ≠ id → TimeMatrix.trackOf b' id' = TimeMatrix.trackOf b id') ∧
        (TimeMatrix.trackOf b id = none →
           TimeMatrix.trackOf b' id = some (List.replicate S none)) ∧
        (∀ tr, TimeMatrix.trackOf b id = some tr → TimeMatrix.trackOf b' id = some tr) := by
  refine ⟨rfl, by simp [registerTrack], ?_⟩
  intro bIdx b hb
  have hb' : (registerTrack m id).blocks.get? bIdx =
      some (if (b.tracks.find? (fun kv => kv.1 = id)).isSome then b
            else { b with tracks := b.tracks ++ [(id, List.replicate m.totalSteps none)] }) := by
    unfold registerTrack
    rw [List.get?_map, hb]
    rfl
  by_cases hf : (b.tracks.find? (fun kv => kv.1 = id)).isSome
  · rw [if_pos hf] at hb'
    refine ⟨b, hb', rfl, fun id' _ => rfl, ?_, fun tr htr => htr⟩
    intro hnone
    exfalso
    unfold TimeMatrix.trackOf at hnone
    rcases hfind : b.tracks.find? (fun kv => kv.1 = id) with _ | kv
    · rw [hfind] at hf; exact absurd hf (by simp)
    · rw [hfind] at hnone; exact absurd hnone (by simp)
  · rw [if_neg hf] at hb'
    have hfind : b.tracks.find? (fun kv => kv.1 = id) = none := by
      rcases hfind : b.tracks.find? (fun kv => kv.1 = id) with _ | kv
      · exact hfind
      · rw [hfind] at hf; exact absurd rfl hf
    refine ⟨_, hb', rfl, ?_, ?_, ?_⟩
    · intro id' hid'
      unfold TimeMatrix.trackOf
      dsimp only
      rcases hfind' : b.tracks.find? (fun kv => kv.1 = id') with _ | kv
      · rw [find?_append_of_none _ _ _ hfind']
        rw [List.find?_cons_of_neg _ (by simpa using fun he => hid' he.symm), List.find?_nil]
        rw [hfind']
      · rw [find?_append_of_some _ _ _ _ hfind', hfind']
    · intro _
      unfold TimeMatrix.trackOf
      dsimp only
      rw [find?_append_of_none _ _ _ hfind]
      rw [List.find?_cons_of_pos _ (by simp), hS]
      rfl
    · intro tr htr
      exfalso
      unfold TimeMatrix.trackOf at htr
      rw [hfind] at htr
      exact absurd htr (by simp)

/-- `decodeNoteCell` on a present cell, unfolded. -/
theorem decodeNoteCell_some (nd : List Char) :
    decodeNoteCell (some nd) =
      if nd = [] ∨ nd = ['0'] then none
      else
        match splitSep '-' nd with
        | [p0, p1, p2, p3] =>
            (match jsParseInt p0 with
             | none => none
             | some k =>
                 match (if 0 ≤ k then noteMapRevCSV.get? k.toNat else none) with
                 | none => none
                 | some name =>
                     some { note := name, octave := (jsParseInt p1).getD 0
                            slide := p2 = ['1'], accent := p3 = ['1'] })
        | _ => none := rfl

/-- The shared note-cell decision chain: failures yield `fNone`, a decoded
note `nv` yields `fSome nv`; the chain is `decodeNoteCell` in disguise. -/
theorem noteCell_chain {β : Type} (fNone : β) (fSome : NoteEvent → β) (nd : List Char) :
    (if nd = [] ∨ nd = ['0'] then fNone
     else
       match splitSep '-' nd with
       | [p0, p1, p2, p3] =>
           (match jsParseInt p0 with
            | none => fNone
            | some k =>
                match (if 0 ≤ k then noteMapRevCSV.get? k.toNat else none) with
                | none => fNone
                | some name =>
                    fSome { note := name, octave := (jsParseInt p1).getD 0
                            slide := p2 = ['1'], accent := p3 = ['1'] })
       | _ => fNone) =
    (match decodeNoteCell (some nd) with
     | none => fNone
     | some nv => fSome nv) := by
  rw [decodeNoteCell_some]
  by_cases hnd : nd = [] ∨ nd = ['0']
  · rw [if_pos hnd, if_pos hnd]
  · rw [if_neg hnd, if_neg hnd]
    rcases hsp : splitSep '-' nd with _ | ⟨p0, _ | ⟨p1, _ | ⟨p2, _ | ⟨p3, _ | ⟨p4, ps⟩⟩⟩⟩⟩ <;>
      dsimp only
    rcases hpi : jsParseInt p0 with _ | k <;> dsimp only
    rcases hrv : (if 0 ≤ k then noteMapRevCSV.get? k.toNat else none) with _ | name <;>
      dsimp only

theorem importNoteStep_none (S : ℕ) (id : String) (cells : List (List Char))
    (m : TimeMatrix) (sg : ℕ) (hc : cells.get? (sg + 1) = none) :
    importNoteStep S id cells m sg = m := by
  unfold importNoteStep
  rw [hc]

/-- `importNoteStep` through `decodeNoteCell`: a skipped cell leaves the
store; a decoded note is written at `(sg / S, sg % S)`. -/
theorem importNoteStep_eq (S : ℕ) (id : String) (cells : List (List Char))
    (m : TimeMatrix) (sg : ℕ) (nd : List Char) (hc : cells.get? (sg + 1) = some nd) :
    importNoteStep S id cells m sg =
      match decodeNoteCell (some nd) with
      | none => m
      | some nv =>
          match m.blocks.get? (sg / S) with
          | none => m
          | some b =>
              { m with blocks := (m.blocks.set (sg / S)
                  (setTrackSlot b id (sg % S) (some nv))) } := by
  have h1 : importNoteStep S id cells m sg =
      (if nd = [] ∨ nd = ['0'] then m
       else
         match splitSep '-' nd with
         | [p0, p1, p2, p3] =>
             (match jsParseInt p0 with
              | none => m
              | some k =>
                  match (if 0 ≤ k then noteMapRevCSV.get? k.toNat else none) with
                  | none => m
                  | some name =>
                      match m.blocks.get? (sg / S) with
                      | none => m
                      | some b =>
                          { m with blocks := (m.blocks.set (sg / S)
                              (setTrackSlot b id (sg % S)
                                (some { note := name, octave := (jsParseInt p1).getD 0
                                        slide := p2 = ['1'], accent := p3 = ['1'] }))) })
         | _ => m) := by
    unfold importNoteStep
    rw [hc]
  rw [h1]
  exact noteCell_chain m
    (fun nv => match m.blocks.get? (sg / S) with
     | none => m
     | some b => { m with blocks := (m.blocks.set (sg / S)
         (setTrackSlot b id (sg % S) (some nv))) }) nd

theorem importDrumStep_some (S : ℕ) (cells : List (List Char)) (m : TimeMatrix)
    (sg : ℕ) (bin : List Char) (hc : cells.get? (sg + 1) = some bin) (hne : bin ≠ []) :
    importDrumStep S cells m sg =
      match m.blocks.get? (sg / S) with
      | none => m
      | some b =>
          { m with blocks := (m.blocks.set (sg / S)
              { b with drums := b.drums.set (sg % S) (decodeBin bin) }) } := by
  unfold importDrumStep
  rw [hc]
  rcases bin with _ | ⟨c0, cs⟩
  · exact absurd rfl hne
  · rfl

/-- The note-import loop: starting from blank `id`-tracks, after `g`
steps position `bIdx * S + s < g` holds the decoded cell value and every
later position is still blank. -/
theorem noteLoop_spec (S B : ℕ) (hS : 0 < S) (id : String) (cells : List (List Char)) :
    ∀ (g : ℕ) (mc : TimeMatrix), g ≤ B * S → mc.blocks.length = B →
    (∀ bIdx b, mc.blocks.get? bIdx = some b →
       TimeMatrix.trackOf b id = some (List.replicate S none)) →
    (((List.range g).foldl (importNoteStep S id cells) mc).totalSteps = mc.totalSteps ∧
     ((List.range g).foldl (importNoteStep S id cells) mc).blocks.length = B ∧
     ∀ bIdx b, mc.blocks.get? bIdx = some b → ∃ b',
       ((List.range g).foldl (importNoteStep S id cells) mc).blocks.get? bIdx = some b' ∧
       b'.drums = b.drums ∧
       (∀ id', id' ≠ id → TimeMatrix.trackOf b' id' = TimeMatrix.trackOf b id') ∧
       ∃ tr', TimeMatrix.trackOf b' id = some tr' ∧ tr'.length = S ∧
         ∀ s, s < S →
           tr'.get? s = some (if bIdx * S + s < g
                              then decodeNoteCell (cells.get? (bIdx * S + s + 1))
                              else none)) := by
  intro g
  induction g with
  | zero =>
      intro mc _ hlen hpre
      refine ⟨rfl, hlen, ?_⟩
      intro bIdx b hb
      refine ⟨b, hb, rfl, fun id' _ => rfl, List.replicate S none, hpre bIdx b hb,
        by simp, ?_⟩
      intro s hs
      rw [replicate_get? none S s hs, if_neg (by omega)]
  | succ g ih =>
      intro mc hg hlen hpre
      obtain ⟨hts, hlen', hinv⟩ := ih mc (by omega) hlen hpre
      rw [List.range_succ, List.foldl_append, List.foldl_cons, List.foldl_nil]
      set r := (List.range g).foldl (importNoteStep S id cells) mc with hr
      have hgBS : g < B * S := hg
      have hq : g / S < B := (Nat.div_lt_iff_lt_mul hS).mpr hgBS
      have hdm : (g / S) * S + g % S = g := by
        rw [Nat.mul_comm]
        exact Nat.div_add_mod g S
      have hmod : g % S < S := Nat.mod_lt g hS
      rcases hc : cells.get? (g + 1) with _ | nd
      · -- absent cell: the step is a no-op and the cell decodes to `none`
        rw [importNoteStep_none S id cells r g hc]
        refine ⟨hts, hlen', ?_⟩
        intro bIdx b hb
        obtain ⟨b', hb', hdrums, hoth, tr, htr, hlentr, hslots⟩ := hinv bIdx b hb
        refine ⟨b', hb', hdrums, hoth, tr, htr, hlentr, ?_⟩
        intro s hs
        rw [hslots s hs]
        by_cases hpos : bIdx * S + s < g
        · rw [if_pos hpos, if_pos (by omega)]
        · by_cases hpos' : bIdx * S + s < g + 1
          · have hEq : bIdx * S + s = g := by omega
            rw [if_neg hpos, if_pos hpos', hEq, hc]
            rfl
          · rw [if_neg hpos, if_neg hpos']
      · rw [importNoteStep_eq S id cells r g nd hc]
        rcases hdec : decodeNoteCell (some nd) with _ | nv
        · -- skipped cell: the step is a no-op and the cell decodes to `none`
          refine ⟨hts, hlen', ?_⟩
          intro bIdx b hb
          obtain ⟨b', hb', hdrums, hoth, tr, htr, hlentr, hslots⟩ := hinv bIdx b hb
          refine ⟨b', hb', hdrums, hoth, tr, htr, hlentr, ?_⟩
          intro s hs
          rw [hslots s hs]
          by_cases hpos : bIdx * S + s < g
          · rw [if_pos hpos, if_pos (by omega)]
          · by_cases hpos' : bIdx * S + s < g + 1
            · have hEq : bIdx * S + s = g := by omega
              rw [if_neg hpos, if_pos hpos', hEq, hc, hdec]
            · rw [if_neg hpos, if_neg hpos']
        · dsimp only
          have hqlen : g / S < mc.blocks.length := by rw [hlen]; exact hq
          obtain ⟨bq, hbq⟩ : ∃ x, mc.blocks.get? (g / S) = some x := by
            rw [List.get?_eq_get hqlen]
            exact ⟨_, rfl⟩
          obtain ⟨bq', hbq', hdrq, hothq, trq, htrq, hlentrq, hslotsq⟩ := hinv (g / S) bq hbq
          rw [hbq']
          dsimp only
          have hqlen' : g / S < r.blocks.length := by rw [hlen']; exact hq
          refine ⟨hts, by simpa using hlen', ?_⟩
          intro bIdx b hb
          by_cases hbi : bIdx = g / S
          · subst hbi
            have hbbq : b = bq := by
              rw [hb] at hbq
              exact Option.some.inj hbq
            subst hbbq
            refine ⟨setTrackSlot bq' id (g % S) (some nv), ?_, ?_, ?_, ?_⟩
            · exact List.get?_set_eq_of_lt _ hqlen'
            · exact hdrq
            · intro id' hid'
              rw [trackOf_setTrackSlot_ne bq' id id' (g % S) (some nv) hid']
              exact hothq id' hid'
            · refine ⟨trq.set (g % S) (some nv), ?_, ?_, ?_⟩
              · rw [trackOf_setTrackSlot_self, htrq]
                rfl
              · rw [List.length_set]
                exact hlentrq
              · intro s hs
                by_cases hsq : s = g % S
                · subst hsq
                  rw [List.get?_set_eq_of_lt _ (by rw [hlentrq]; exact hmod)]
                  rw [if_pos (by omega), hdm, hc, hdec]
                · rw [List.get?_set_ne _ _ (fun he => hsq he.symm)]
                  rw [hslotsq s hs]
                  by_cases hpos : g / S * S + s < g
                  · rw [if_pos hpos, if_pos (by omega)]
                  · have hne : g / S * S + s ≠ g := by
                      intro hEq
                      apply hsq
                      omega
                    rw [if_neg hpos, if_neg (by omega)]
          · obtain ⟨b', hb', hdrums, hoth, tr, htr, hlentr, hslots⟩ := hinv bIdx b hb
            refine ⟨b', ?_, hdrums, hoth, tr, htr, hlentr, ?_⟩
            · rw [List.get?_set_ne _ _ (fun he => hbi he.symm)]
              exact hb'
            · intro s hs
              rw [hslots s hs]
              by_cases hpos : bIdx * S + s < g
              · rw [if_pos hpos, if_pos (by omega)]
              · have hne : bIdx * S + s ≠ g := by
                  intro hEq
                  apply hbi
                  have h2 : (bIdx * S + s) / S = bIdx := by
                    rw [Nat.add_comm, Nat.add_mul_div_right s bIdx hS,
                        Nat.div_eq_of_lt hs, Nat.zero_add]
                  rw [← hEq, h2]
                rw [if_neg hpos, if_neg (by omega)]

theorem get?_some_lt {α : Type} {l : List α} {n : ℕ} {a : α} (h : l.get? n = some a) :
    n < l.length := by
  by_contra hn
  rw [List.get?_eq_none.mpr (by omega)] at h
  exact absurd h (by simp)

/-- The drum-import loop: position `bIdx * S + s < g` holds the decoded
binary cell, later positions are untouched. -/
theorem drumLoop_spec (S B : ℕ) (hS : 0 < S) (cells : List (List Char))
    (hcell : ∀ sg, sg < B * S → ∃ bin, cells.get? (sg + 1) = some bin ∧ bin ≠ []) :
    ∀ (g : ℕ) (mc : TimeMatrix), g ≤ B * S → mc.blocks.length = B →
    (∀ bIdx b, mc.blocks.get? bIdx = some b → b.drums.length = S) →
    (((List.range g).foldl (importDrumStep S cells) mc).totalSteps = mc.totalSteps ∧
     ((List.range g).foldl (importDrumStep S cells) mc).blocks.length = B ∧
     ∀ bIdx b, mc.blocks.get? bIdx = some b → ∃ b',
       ((List.range g).foldl (importDrumStep S cells) mc).blocks.get? bIdx = some b' ∧
       b'.tracks = b.tracks ∧ b'.drums.length = S ∧
       ∀ s, s < S →
         b'.drums.get? s = if bIdx * S + s < g
                           then some (decodeBin ((cells.get? (bIdx * S + s + 1)).getD []))
                           else b.drums.get? s) := by
  intro g
  induction g with
  | zero =>
      intro mc _ hlen hdlen
      refine ⟨rfl, hlen, ?_⟩
      intro bIdx b hb
      refine ⟨b, hb, rfl, hdlen bIdx b hb, ?_⟩
      intro s _
      rw [if_neg (by omega)]
  | succ g ih =>
      intro mc hg hlen hdlen
      obtain ⟨hts, hlen', hinv⟩ := ih mc (by omega) hlen hdlen
      rw [List.range_succ, List.foldl_append, List.foldl_cons, List.foldl_nil]
      set r := (List.range g).foldl (importDrumStep S cells) mc with hr
      have hgBS : g < B * S := hg
      have hq : g / S < B := (Nat.div_lt_iff_lt_mul hS).mpr hgBS
      have hdm : (g / S) * S + g % S = g := by
        rw [Nat.mul_comm]
        exact Nat.div_add_mod g S
      have hmod : g % S < S := Nat.mod_lt g hS
      obtain ⟨bin, hbin, hbinne⟩ := hcell g hgBS
      have hqlen : g / S < mc.blocks.length := by rw [hlen]; exact hq
      obtain ⟨bq, hbq⟩ : ∃ x, mc.blocks.get? (g / S) = some x := by
        rw [List.get?_eq_get hqlen]
        exact ⟨_, rfl⟩
      obtain ⟨bq', hbq', htrq, hdlq, hslotsq⟩ := hinv (g / S) bq hbq
      rw [importDrumStep_some S cells r g bin hbin hbinne]
      rw [hbq']
      dsimp only
      have hqlen' : g / S < r.blocks.length := by rw [hlen']; exact hq
      refine ⟨hts, by simpa using hlen', ?_⟩
      intro bIdx b hb
      by_cases hbi : bIdx = g / S
      · subst hbi
        have hbbq : b = bq := by
          rw [hb] at hbq
          exact Option.some.inj hbq
        subst hbbq
        refine ⟨_, List.get?_set_eq_of_lt _ hqlen', htrq, ?_, ?_⟩
        · show (bq'.drums.set (g % S) (decodeBin bin)).length = S
          rw [List.length_set]
          exact hdlq
        · intro s hs
          show (bq'.drums.set (g % S) (decodeBin bin)).get? s = _
          by_cases hsq : s = g % S
          · subst hsq
            rw [List.get?_set_eq_of_lt _ (by rw [hdlq]; exact hmod)]
            rw [if_pos (by omega), hdm, hbin]
            rfl
          · rw [List.get?_set_ne _ _ (fun he => hsq he.symm)]
            rw [hslotsq s hs]
            by_cases hpos : g / S * S + s < g
            · rw [if_pos hpos, if_pos (by omega)]
            · have hne : g / S * S + s ≠ g := by
                intro hEq
                apply hsq
                omega
              rw [if_neg hpos, if_neg (by omega)]
      · obtain ⟨b', hb', htr, hdl, hslots⟩ := hinv bIdx b hb
        refine ⟨b', ?_, htr, hdl, ?_⟩
        · rw [List.get?_set_ne _ _ (fun he => hbi he.symm)]
          exact hb'
        · intro s hs
          rw [hslots s hs]
          by_cases hpos : bIdx * S + s < g
          · rw [if_pos hpos, if_pos (by omega)]
          · have hne : bIdx * S + s ≠ g := by
              intro hEq
              apply hbi
              have h2 : (bIdx * S + s) / S = bIdx := by
                rw [Nat.add_comm, Nat.add_mul_div_right s bIdx hS,
                    Nat.div_eq_of_lt hs, Nat.zero_add]
              rw [← hEq, h2]
            rw [if_neg hpos, if_neg (by omega)]

/-- Decoding a binary drum cell recovers the triggered channels, in
`drumOrder` order. -/
theorem decodeBin_binCell (d : List String) :
    decodeBin (binCell d) = drumOrder.filter (fun x => d.contains x) := by
  rcases h0 : d.contains "kick" <;> rcases h1 : d.contains "snare" <;>
  rcases h2 : d.contains "clap" <;> rcases h3 : d.contains "hat" <;>
  rcases h4 : d.contains "ohat" <;> rcases h5 : d.contains "tom" <;>
  rcases h6 : d.contains "htom" <;>
    simp only [binCell, drumOrder, List.map_cons, List.map_nil, List.filter_cons,
      List.filter_nil, h0, h1, h2, h3, h4, h5, h6] <;>
    decide

theorem isPrefixOf_through_colon : ∀ (pre idl rest : List Char),
    (∀ c ∈ pre, c ≠ ':') → pre.isPrefixOf (idl ++ ':' :: rest) = true →
    pre.isPrefixOf idl = true := by
  intro pre
  induction pre with
  | nil => intro idl rest _ _; cases idl <;> rfl
  | cons p ps ih =>
      intro idl rest hpre h
      cases idl with
      | nil =>
          exfalso
          rw [List.nil_append] at h
          have hp : p = ':' := by
            have h' : (p == ':' && ps.isPrefixOf rest) = true := h
            simpa using (Bool.and_eq_true_iff.mp h').1
          exact hpre p (List.mem_cons_self _ _) hp
      | cons a as =>
          rw [List.cons_append] at h
          have h' : (p == a && ps.isPrefixOf (as ++ ':' :: rest)) = true := h
          obtain ⟨hpa, htail⟩ := Bool.and_eq_true_iff.mp h'
          show (p == a && ps.isPrefixOf as) = true
          rw [hpa, ih as rest (fun c hc => hpre c (List.mem_cons_of_mem _ hc)) htail]
          rfl

theorem drums_not_prefix_of_config (id : String) (h : GoodId id) (rest : List Char) :
    "drums".data.isPrefixOf (id.data ++ ':' :: rest) = false := by
  rcases hp : "drums".data.isPrefixOf (id.data ++ ':' :: rest) with _ | _
  · rfl
  · exfalso
    have h1 := isPrefixOf_through_colon "drums".data id.data rest (by decide) hp
    exact absurd (h1.symm.trans h.2.2) (by decide)

/-- `importRow` on an exported synth row: the row registers its track id
and stores, at every `(block, step)` of the grid, the decoded note cell
of `m`'s corresponding slot; everything else is untouched. -/
theorem importRow_synth (S B : ℕ) (hS : 0 < S) (m : TimeMatrix) (sc : SynthConfig)
    (hgood : GoodId sc.id)
    (hoct : ∀ b ∈ m.blocks, ∀ kv ∈ b.tracks, ∀ v ∈ kv.2, ∀ nv, v = some nv → 0 ≤ nv.octave)
    (hBm : m.blocks.length = B) (hSm : m.totalSteps = S)
    (mc : TimeMatrix) (hmcS : mc.totalSteps = S) (hmlen : mc.blocks.length = B)
    (hpre : ∀ bIdx b, mc.blocks.get? bIdx = some b →
        TimeMatrix.trackOf b sc.id = none ∨
        TimeMatrix.trackOf b sc.id = some (List.replicate S none)) :
    ((importRow S (B * S) mc (joinSep ',' (trackRowCells m sc))).totalSteps = S ∧
     (importRow S (B * S) mc (joinSep ',' (trackRowCells m sc))).blocks.length = B ∧
     ∀ bIdx b, mc.blocks.get? bIdx = some b → ∃ b',
       (importRow S (B * S) mc (joinSep ',' (trackRowCells m sc))).blocks.get? bIdx = some b' ∧
       b'.drums = b.drums ∧
       (∀ id', id' ≠ sc.id → TimeMatrix.trackOf b' id' = TimeMatrix.trackOf b id') ∧
       ∃ tr', TimeMatrix.trackOf b' sc.id = some tr' ∧ tr'.length = S ∧
         ∀ s, s < S → tr'.get? s =
           some (decodeNoteCell (some (encodeNoteCell (noteAt m bIdx sc.id s))))) := by
  have hline : splitSep ',' (joinSep ',' (trackRowCells m sc)) = trackRowCells m sc :=
    splitSep_row _ (by unfold trackRowCells; exact List.cons_ne_nil _ _)
      (trackRowCells_cellOK m sc hgood hoct)
  have hred : importRow S (B * S) mc (joinSep ',' (trackRowCells m sc)) =
      (List.range (B * S)).foldl (importNoteStep S sc.id (trackRowCells m sc))
        (registerTrack mc sc.id) := by
    simp only [importRow]
    rw [hline]
    rw [show (((trackRowCells m sc).get? 0).getD []) = configCell sc from rfl]
    have hpf : ['d', 'r', 'u', 'm', 's'].isPrefixOf (configCell sc) = false :=
      drums_not_prefix_of_config sc.id hgood _
    rw [hpf]
    rw [if_neg (by simp)]
    have hct : (configCell sc).contains ':' = true := by
      refine List.elem_eq_true_of_mem ?_
      unfold configCell
      exact List.mem_append_right _ (List.mem_cons_self _ _)
    rw [hct, if_pos rfl]
    have hid : String.mk ((splitSep ':' (configCell sc)).headD []) = sc.id := by
      have h1 : splitSep ':' (configCell sc) =
          sc.id.data :: splitSep ':'
            (joinSep '-' [natToStr sc.volume, natToStr sc.distortion,
              natToStr sc.distTone, natToStr sc.distGain,
              natToStr sc.cutoff, natToStr sc.resonance,
              natToStr sc.envMod, natToStr sc.decay,
              natToStr sc.accentInt,
              natToStr (if sc.waveform = "square" then 1 else 0)]) := by
        unfold configCell
        exact splitSep_append ':' sc.id.data _ (fun c hc => (hgood.2.1 c hc).2.2.1)
      rw [h1]
      rfl
    rw [hid]
  rw [hred]
  obtain ⟨hrts, hrlen, hrinv⟩ := registerTrack_spec mc sc.id S hmcS
  have hrpre : ∀ bIdx b1, (registerTrack mc sc.id).blocks.get? bIdx = some b1 →
      TimeMatrix.trackOf b1 sc.id = some (List.replicate S none) := by
    intro bIdx b1 hb1
    have hlt : bIdx < mc.blocks.length := by
      have := get?_some_lt hb1
      rwa [hrlen] at this
    obtain ⟨b, hb⟩ : ∃ x, mc.blocks.get? bIdx = some x := by
      rw [List.get?_eq_get hlt]
      exact ⟨_, rfl⟩
    obtain ⟨b', hb', _, _, hnone, hsome⟩ := hrinv bIdx b hb
    have hbb : b1 = b' := by
      rw [hb1] at hb'
      exact Option.some.inj hb'
    subst hbb
    rcases hpre bIdx b hb with h0 | h0
    · exact hnone h0
    · exact hsome _ h0
  obtain ⟨hlts, hllen, hlinv⟩ := noteLoop_spec S B hS sc.id (trackRowCells m sc) (B * S)
      (registerTrack mc sc.id) (le_refl _) (by rw [hrlen]; exact hmlen) hrpre
  refine ⟨by rw [hlts, hrts]; exact hmcS, hllen, ?_⟩
  intro bIdx b hb
  obtain ⟨b', hbr', hdr, hoth, _, _⟩ := hrinv bIdx b hb
  obtain ⟨b'', hb'', hdr2, hoth2, tr', htr', hlentr', hslots⟩ := hlinv bIdx b' hbr'
  refine ⟨b'', hb'', by rw [hdr2, hdr], ?_, tr', htr', hlentr', ?_⟩
  · intro id' hid'
    rw [hoth2 id' hid', hoth id' hid']
  · intro s hs
    rw [hslots s hs]
    have hblt : bIdx < B := by
      have := get?_some_lt hb
      rwa [hmlen] at this
    obtain ⟨mb, hmb⟩ : ∃ x, m.blocks.get? bIdx = some x := by
      have : bIdx < m.blocks.length := by rw [hBm]; exact hblt
      rw [List.get?_eq_get this]
      exact ⟨_, rfl⟩
    have hposlt : bIdx * S + s < B * S := by
      calc bIdx * S + s < bIdx * S + S := by omega
        _ = (bIdx + 1) * S := (Nat.succ_mul bIdx S).symm
        _ ≤ B * S := Nat.mul_le_mul_right S hblt
    have hcell := trackRowCells_get? m sc bIdx s mb hmb (by rw [hSm]; exact hs)
    rw [hSm] at hcell
    rw [if_pos hposlt, hcell]

/-- `importRow` on the exported drum row: every `(block, step)` receives
the decoded binary cell of `m`'s drum set; tracks are untouched. -/
theorem importRow_drums (S B : ℕ) (hS : 0 < S) (m : TimeMatrix)
    (hBm : m.blocks.length = B) (hSm : m.totalSteps = S)
    (mc : TimeMatrix) (hmlen : mc.blocks.length = B)
    (hdlen : ∀ bIdx b, mc.blocks.get? bIdx = some b → b.drums.length = S) :
    ((importRow S (B * S) mc (joinSep ',' (drumRowCells m))).totalSteps = mc.totalSteps ∧
     (importRow S (B * S) mc (joinSep ',' (drumRowCells m))).blocks.length = B ∧
     ∀ bIdx b, mc.blocks.get? bIdx = some b → ∃ b',
       (importRow S (B * S) mc (joinSep ',' (drumRowCells m))).blocks.get? bIdx = some b' ∧
       b'.tracks = b.tracks ∧ b'.drums.length = S ∧
       ∀ s, s < S →
         b'.drums.get? s = some (decodeBin (binCell (drumsAt m bIdx s)))) := by
  have hline : splitSep ',' (joinSep ',' (drumRowCells m)) = drumRowCells m :=
    splitSep_row _ (by unfold drumRowCells; exact List.cons_ne_nil _ _)
      (drumRowCells_cellOK m)
  have hred : importRow S (B * S) mc (joinSep ',' (drumRowCells m)) =
      (List.range (B * S)).foldl (importDrumStep S (drumRowCells m)) mc := by
    simp only [importRow]
    rw [hline]
    rw [show (((drumRowCells m).get? 0).getD []) = "drums:7".data from rfl]
    rw [show ['d', 'r', 'u', 'm', 's'].isPrefixOf "drums:7".data = true from by decide]
    rw [if_pos rfl]
  rw [hred]
  have hcell : ∀ sg, sg < B * S → ∃ bin,
      (drumRowCells m).get? (sg + 1) = some bin ∧ bin ≠ [] := by
    intro sg hsg
    have hq : sg / S < B := (Nat.div_lt_iff_lt_mul hS).mpr hsg
    obtain ⟨mb, hmb⟩ : ∃ x, m.blocks.get? (sg / S) = some x := by
      have : sg / S < m.blocks.length := by rw [hBm]; exact hq
      rw [List.get?_eq_get this]
      exact ⟨_, rfl⟩
    have hmod : sg % S < S := Nat.mod_lt sg hS
    have hc := drumRowCells_get? m (sg / S) (sg % S) mb hmb (by rw [hSm]; exact hmod)
    rw [hSm] at hc
    have hidx : sg / S * S + sg % S = sg := by
      rw [Nat.mul_comm]
      exact Nat.div_add_mod sg S
    rw [hidx] at hc
    exact ⟨_, hc, binCell_ne_nil _⟩
  obtain ⟨hlts, hllen, hlinv⟩ := drumLoop_spec S B hS (drumRowCells m) hcell (B * S) mc
    (le_refl _) hmlen hdlen
  refine ⟨hlts, hllen, ?_⟩
  intro bIdx b hb
  obtain ⟨b', hb', htrk, hdl, hslots⟩ := hlinv bIdx b hb
  refine ⟨b', hb', htrk, hdl, ?_⟩
  intro s hs
  rw [hslots s hs]
  have hblt : bIdx < B := by
    have := get?_some_lt hb
    rwa [hmlen] at this
  have hposlt : bIdx * S + s < B * S := by
    calc bIdx * S + s < bIdx * S + S := by omega
      _ = (bIdx + 1) * S := (Nat.succ_mul bIdx S).symm
      _ ≤ B * S := Nat.mul_le_mul_right S hblt
  obtain ⟨mb, hmb⟩ : ∃ x, m.blocks.get? bIdx = some x := by
    have : bIdx < m.blocks.length := by rw [hBm]; exact hblt
    rw [List.get?_eq_get this]
    exact ⟨_, rfl⟩
  have hcellb := drumRowCells_get? m bIdx s mb hmb (by rw [hSm]; exact hs)
  rw [hSm] at hcellb
  rw [if_pos hposlt, hcellb]
  rfl

theorem decode_encode (v : Option NoteEvent) (hv : ∀ nv, v = some nv → ValidNote nv) :
    decodeNoteCell (some (encodeNoteCell v)) = v := by
  cases v with
  | none => exact decode_encode_none
  | some nv => exact decode_encode_note nv (hv nv rfl)

theorem noteAt_none_of_ge (m : TimeMatrix) (bIdx : ℕ) (id : String) (s : ℕ)
    (h : m.blocks.length ≤ bIdx) : noteAt m bIdx id s = none := by
  unfold noteAt
  rw [List.get?_eq_none.mpr h]

theorem drumsAt_none_of_ge (m : TimeMatrix) (bIdx s : ℕ)
    (h : m.blocks.length ≤ bIdx) : drumsAt m bIdx s = [] := by
  unfold drumsAt
  rw [List.get?_eq_none.mpr h]
  rfl

theorem drumsAt_eq (m : TimeMatrix) (bIdx s : ℕ) (b : PatBlock)
    (hb : m.blocks.get? bIdx = some b) : drumsAt m bIdx s = (b.drums.get? s).getD [] := by
  unfold drumsAt
  rw [hb]
  rfl

theorem noteAt_valid (m : TimeMatrix)
    (hnotes : ∀ b ∈ m.blocks, ∀ kv ∈ b.tracks, ∀ v ∈ kv.2, ∀ nv, v = some nv → ValidNote nv)
    (bIdx : ℕ) (id : String) (s : ℕ) (nv : NoteEvent)
    (h : noteAt m bIdx id s = some nv) : ValidNote nv := by
  rcases hb : m.blocks.get? bIdx with _ | b
  · rw [show noteAt m bIdx id s = none from by unfold noteAt; rw [hb]] at h
    exact absurd h (by simp)
  · rw [noteAt_eq m bIdx id s b hb] at h
    have hbm : b ∈ m.blocks := List.get?_mem hb
    rcases htr : TimeMatrix.trackOf b id with _ | track
    · rw [htr] at h; exact absurd h (by simp)
    · rw [htr] at h
      have h : (track.get? s).getD none = some nv := h
      rcases hts : track.get? s with _ | v
      · rw [hts] at h; exact absurd h (by simp)
      · rw [hts] at h
        obtain ⟨kv, hfind⟩ : ∃ kv, b.tracks.find? (fun kv => kv.1 = id) = some kv := by
          unfold TimeMatrix.trackOf at htr
          rcases hf : b.tracks.find? (fun kv => kv.1 = id) with _ | kv
          · rw [hf] at htr; exact absurd htr (by simp)
          · exact ⟨kv, hf⟩
        have hkvmem : kv ∈ b.tracks := List.mem_of_find?_eq_some hfind
        have htr2 : kv.2 = track := by
          unfold TimeMatrix.trackOf at htr
          rw [hfind] at htr
          simpa using htr
        have hvmem : v ∈ kv.2 := htr2 ▸ List.get?_mem hts
        exact hnotes b hbm kv hkvmem v hvmem nv (by simpa using h)

/-- The `'bass-1'` seed block of the rebuilt store. -/
theorem trackOf_seed (S : ℕ) (id : String) :
    TimeMatrix.trackOf
        { tracks := [("bass-1", List.replicate S none)],
          drums := List.replicate S ([] : List String) } id = none ∨
    TimeMatrix.trackOf
        { tracks := [("bass-1", List.replicate S none)],
          drums := List.replicate S ([] : List String) } id =
      some (List.replicate S none) := by
  unfold TimeMatrix.trackOf
  by_cases h : ("bass-1" : String) = id
  · right
    rw [List.find?_cons_of_pos _ (by simpa using h)]
    rfl
  · left
    rw [List.find?_cons_of_neg _ (by simpa using h), List.find?_nil]
    rfl

/-- Folding the exported synth rows over the freshly rebuilt store:
every row's track is reconstructed cell by cell, everything else is
untouched. -/
theorem import_synth_rows (S B : ℕ) (hS : 0 < S) (m : TimeMatrix)
    (hBm : m.blocks.length = B) (hSm : m.totalSteps = S)
    (hoct : ∀ b ∈ m.blocks, ∀ kv ∈ b.tracks, ∀ v ∈ kv.2, ∀ nv, v = some nv → 0 ≤ nv.octave) :
    ∀ (scs : List SynthConfig) (mc : TimeMatrix),
    (∀ sc ∈ scs, GoodId sc.id) → (scs.map (fun sc => sc.id)).Nodup →
    mc.totalSteps = S → mc.blocks.length = B →
    (∀ bIdx b, mc.blocks.get? bIdx = some b →
       ∀ sc ∈ scs, TimeMatrix.trackOf b sc.id = none ∨
         TimeMatrix.trackOf b sc.id = some (List.replicate S none)) →
    ((scs.foldl (fun acc sc =>
        importRow S (B * S) acc (joinSep ',' (trackRowCells m sc))) mc).totalSteps = S ∧
     (scs.foldl (fun acc sc =>
        importRow S (B * S) acc (joinSep ',' (trackRowCells m sc))) mc).blocks.length = B ∧
     ∀ bIdx b, mc.blocks.get? bIdx = some b → ∃ b',
       (scs.foldl (fun acc sc =>
          importRow S (B * S) acc (joinSep ',' (trackRowCells m sc))) mc).blocks.get? bIdx
         = some b' ∧
       b'.drums = b.drums ∧
       (∀ id', id' ∉ scs.map (fun sc => sc.id) →
          TimeMatrix.trackOf b' id' = TimeMatrix.trackOf b id') ∧
       (∀ sc ∈ scs, ∃ tr', TimeMatrix.trackOf b' sc.id = some tr' ∧ tr'.length = S ∧
          ∀ s, s < S → tr'.get? s =
            some (decodeNoteCell (some (encodeNoteCell (noteAt m bIdx sc.id s)))))) := by
  intro scs
  induction scs with
  | nil =>
      intro mc _ _ hmcS hmlen _
      refine ⟨hmcS, hmlen, ?_⟩
      intro bIdx b hb
      exact ⟨b, hb, rfl, fun id' _ => rfl, fun sc hsc => absurd hsc (List.not_mem_nil _)⟩
  | cons sc scs ih =>
      intro mc hgood hnodup hmcS hmlen hpre
      rw [List.map_cons, List.nodup_cons] at hnodup
      obtain ⟨hscnot, hnodup'⟩ := hnodup
      rw [List.foldl_cons]
      obtain ⟨h1ts, h1len, h1inv⟩ := importRow_synth S B hS m sc
        (hgood sc (List.mem_cons_self _ _)) hoct hBm hSm mc hmcS hmlen
        (fun bIdx b hb => hpre bIdx b hb sc (List.mem_cons_self _ _))
      set mc₁ := importRow S (B * S) mc (joinSep ',' (trackRowCells m sc)) with hmc₁
      have hpre₁ : ∀ bIdx b1, mc₁.blocks.get? bIdx = some b1 →
          ∀ sc' ∈ scs, TimeMatrix.trackOf b1 sc'.id = none ∨
            TimeMatrix.trackOf b1 sc'.id = some (List.replicate S none) := by
        intro bIdx b1 hb1 sc' hsc'
        have hlt : bIdx < mc.blocks.length := by
          have := get?_some_lt hb1
          rw [h1len] at this
          rw [hmlen]
          exact this
        obtain ⟨b, hb⟩ : ∃ x, mc.blocks.get? bIdx = some x := by
          rw [List.get?_eq_get hlt]
          exact ⟨_, rfl⟩
        obtain ⟨b', hb', _, hoth, _⟩ := h1inv bIdx b hb
        have hbb : b1 = b' := by
          rw [hb1] at hb'
          exact Option.some.inj hb'
        subst hbb
        have hne : sc'.id ≠ sc.id := by
          intro he
          exact hscnot (he ▸ List.mem_map_of_mem (fun x => x.id) hsc')
        rw [hoth sc'.id hne]
        exact hpre bIdx b hb sc' (List.mem_cons_of_mem _ hsc')
      obtain ⟨h2ts, h2len, h2inv⟩ := ih mc₁ (fun x hx => hgood x (List.mem_cons_of_mem _ hx))
        hnodup' h1ts h1len hpre₁
      refine ⟨h2ts, h2len, ?_⟩
      intro bIdx b hb
      obtain ⟨c, hc, hcdr, hcoth, tr₁, htr₁, hlentr₁, hslots₁⟩ := h1inv bIdx b hb
      obtain ⟨b₂, hb₂, hdr₂, hoth₂, hall₂⟩ := h2inv bIdx c hc
      refine ⟨b₂, hb₂, by rw [hdr₂, hcdr], ?_, ?_⟩
      · intro id' hid'
        rw [List.map_cons, List.mem_cons] at hid'
        push_neg at hid'
        rw [hoth₂ id' hid'.2, hcoth id' hid'.1]
      · intro sc' hsc'
        rcases List.mem_cons.mp hsc' with rfl | htail
        · refine ⟨tr₁, ?_, hlentr₁, hslots₁⟩
          rw [hoth₂ sc'.id hscnot, htr₁]
        · exact hall₂ sc' htail

theorem trackOf_congr (b1 b2 : PatBlock) (id : String) (h : b2.tracks = b1.tracks) :
    TimeMatrix.trackOf b2 id = TimeMatrix.trackOf b1 id := by
  unfold TimeMatrix.trackOf
  rw [h]

theorem noteAt_none_of_keyless (m : TimeMatrix) (bIdx : ℕ) (id : String) (s : ℕ)
    (b : PatBlock) (hb : m.blocks.get? bIdx = some b)
    (htr : TimeMatrix.trackOf b id = none) : noteAt m bIdx id s = none := by
  rw [noteAt_eq m bIdx id s b hb, htr]

theorem noteAt_none_of_step_ge (m : TimeMatrix) (bIdx : ℕ) (id : String) (s : ℕ)
    (b : PatBlock) (hb : m.blocks.get? bIdx = some b)
    (htlen : ∀ kv ∈ b.tracks, kv.2.length = m.totalSteps)
    (hs : m.totalSteps ≤ s) : noteAt m bIdx id s = none := by
  rw [noteAt_eq m bIdx id s b hb]
  rcases htr : TimeMatrix.trackOf b id with _ | track
  · rfl
  · obtain ⟨kv, hfind⟩ : ∃ kv, b.tracks.find? (fun kv => kv.1 = id) = some kv := by
      unfold TimeMatrix.trackOf at htr
      rcases hf : b.tracks.find? (fun kv => kv.1 = id) with _ | kv
      · rw [hf] at htr; exact absurd htr (by simp)
      · exact ⟨kv, hf⟩
    have htr2 : kv.2 = track := by
      unfold TimeMatrix.trackOf at htr
      rw [hfind] at htr
      simpa using htr
    have hlen : track.length = m.totalSteps := by
      rw [← htr2]
      exact htlen kv (List.mem_of_find?_eq_some hfind)
    show (track.get? s).getD none = none
    rw [List.get?_eq_none.mpr (by omega)]
    rfl

/-- C4 (amended): for every pattern store whose track ids are the
distinct, delimiter-free ids of the engine's synths, whose slot and drum
arrays have `totalSteps` entries, whose notes carry a `noteMap` pitch
name and a non-negative octave, and whose drum triggers are real channel
ids, exporting to CSV and importing the text back succeeds and
reconstructs an equivalent store: the same bpm, the same number of
blocks, the same note at every `(block, track, step)` and the same set
of triggered drum channels at every `(block, step)`. -/
theorem csv_roundtrip (bpm : ℕ) (m : TimeMatrix) (synths : List SynthConfig)
    (hS : 0 < m.totalSteps) (hB : 0 < m.blocks.length)
    (hgood : ∀ sc ∈ synths, GoodId sc.id)
    (hnodup : (synths.map (fun sc => sc.id)).Nodup)
    (hkeys : ∀ b ∈ m.blocks, ∀ kv ∈ b.tracks, kv.1 ∈ synths.map (fun sc => sc.id))
    (htlen : ∀ b ∈ m.blocks, ∀ kv ∈ b.tracks, kv.2.length = m.totalSteps)
    (hdlen : ∀ b ∈ m.blocks, b.drums.length = m.totalSteps)
    (hnotes : ∀ b ∈ m.blocks, ∀ kv ∈ b.tracks, ∀ v ∈ kv.2, ∀ nv, v = some nv → ValidNote nv)
    (hdrums : ∀ b ∈ m.blocks, ∀ d ∈ b.drums, ∀ x ∈ d, x ∈ drumOrder) :
    ∃ m' : TimeMatrix,
      importFromCSV m.totalSteps (exportCSVText bpm m synths) = some ((bpm : ℤ), m') ∧
      m'.totalSteps = m.totalSteps ∧
      m'.blocks.length = m.blocks.length ∧
      (∀ bIdx id s, noteAt m' bIdx id s = noteAt m bIdx id s) ∧
      (∀ bIdx s x, x ∈ drumsAt m' bIdx s ↔ x ∈ drumsAt m bIdx s) := by
  have hoct : ∀ b ∈ m.blocks, ∀ kv ∈ b.tracks, ∀ v ∈ kv.2, ∀ nv, v = some nv →
      0 ≤ nv.octave :=
    fun b hb kv hkv v hv nv he => (hnotes b hb kv hkv v hv nv he).2
  have hlines := export_lines bpm m synths hS hB hgood hoct
  simp only [importFromCSV]
  rw [hlines]
  rw [if_neg (by simp [exportCells])]
  rw [show ((exportCells bpm m synths).map (joinSep ',')).headD [] =
        joinSep ',' (headerCells bpm m synths.length) from rfl]
  rw [header_meta bpm m synths.length]
  rw [show (([natToStr bpm, natToStr (m.blocks.length * m.totalSteps),
        natToStr synths.length].get? 0).getD []) = natToStr bpm from rfl]
  rw [show (([natToStr bpm, natToStr (m.blocks.length * m.totalSteps),
        natToStr synths.length].get? 1).getD []) =
        natToStr (m.blocks.length * m.totalSteps) from rfl]
  rw [jsParseInt_natToStr bpm, jsParseInt_natToStr (m.blocks.length * m.totalSteps)]
  dsimp only
  have hmulpos : 0 < m.blocks.length * m.totalSteps := Nat.mul_pos hB hS
  rw [if_neg (show ¬ ((m.blocks.length * m.totalSteps : ℕ) : ℤ) ≤ 0 by omega)]
  rw [show (((m.blocks.length * m.totalSteps : ℕ) : ℤ)).toNat =
        m.blocks.length * m.totalSteps from rfl]
  rw [blocksNeeded_eq m.totalSteps m.blocks.length hS hB]
  rw [import_m1 m.totalSteps m.blocks.length]
  have hdrop : ((exportCells bpm m synths).map (joinSep ',')).drop 1 =
      (synths.map (trackRowCells m)).map (joinSep ',') ++ [joinSep ',' (drumRowCells m)] := by
    unfold exportCells
    rw [List.map_cons, List.map_append, List.map_singleton]
    rfl
  have hfold : ∀ init : TimeMatrix,
      List.foldl (importRow m.totalSteps (m.blocks.length * m.totalSteps)) init
        ((synths.map (trackRowCells m)).map (joinSep ',')) =
      synths.foldl (fun acc sc =>
        importRow m.totalSteps (m.blocks.length * m.totalSteps) acc
          (joinSep ',' (trackRowCells m sc))) init := by
    intro init
    rw [List.map_map, List.foldl_map]
    rfl
  rw [hdrop, List.foldl_append, hfold]
  -- the rebuilt blank store
  have hm1len : (List.replicate m.blocks.length
      ({ tracks := [("bass-1", List.replicate m.totalSteps none)],
         drums := List.replicate m.totalSteps ([] : List String) } : PatBlock)).length =
      m.blocks.length := List.length_replicate _ _
  have hm1get : ∀ bIdx b, (List.replicate m.blocks.length
      ({ tracks := [("bass-1", List.replicate m.totalSteps none)],
         drums := List.replicate m.totalSteps ([] : List String) } : PatBlock)).get? bIdx =
        some b →
      b = { tracks := [("bass-1", List.replicate m.totalSteps none)],
            drums := List.replicate m.totalSteps ([] : List String) } := by
    intro bIdx b h
    have hlt := get?_some_lt h
    rw [List.length_replicate] at hlt
    rw [replicate_get? _ _ _ hlt] at h
    exact (Option.some.inj h).symm
  -- the synth rows
  obtain ⟨h1ts, h1len, h1inv⟩ := import_synth_rows m.totalSteps m.blocks.length hS m rfl rfl
    hoct synths
    { totalSteps := m.totalSteps,
      blocks := List.replicate m.blocks.length
        { tracks := [("bass-1", List.replicate m.totalSteps none)],
          drums := List.replicate m.totalSteps ([] : List String) },
      clipboard := none }
    hgood hnodup rfl hm1len
    (by
      intro bIdx b hb sc _
      rw [hm1get bIdx b hb]
      exact trackOf_seed m.totalSteps sc.id)
  set r₁ := synths.foldl (fun acc sc =>
    importRow m.totalSteps (m.blocks.length * m.totalSteps) acc
      (joinSep ',' (trackRowCells m sc)))
    { totalSteps := m.totalSteps,
      blocks := List.replicate m.blocks.length
        { tracks := [("bass-1", List.replicate m.totalSteps none)],
          drums := List.replicate m.totalSteps ([] : List String) },
      clipboard := none } with hr₁
  have hr₁get : ∀ bIdx b1, r₁.blocks.get? bIdx = some b1 → ∃ b',
      r₁.blocks.get? bIdx = some b' ∧
      b'.drums = List.replicate m.totalSteps [] ∧
      (∀ id', id' ∉ synths.map (fun sc => sc.id) →
        TimeMatrix.trackOf b' id' =
          TimeMatrix.trackOf
            { tracks := [("bass-1", List.replicate m.totalSteps none)],
              drums := List.replicate m.totalSteps ([] : List String) } id') ∧
      (∀ sc ∈ synths, ∃ tr', TimeMatrix.trackOf b' sc.id = some tr' ∧
        tr'.length = m.totalSteps ∧
        ∀ s, s < m.totalSteps → tr'.get? s =
          some (decodeNoteCell (some (encodeNoteCell (noteAt m bIdx sc.id s))))) := by
    intro bIdx b1 hb1
    have hlt : bIdx < m.blocks.length := by
      have := get?_some_lt hb1
      rwa [h1len] at this
    obtain ⟨b0, hb0⟩ : ∃ x, (List.replicate m.blocks.length
        ({ tracks := [("bass-1", List.replicate m.totalSteps none)],
           drums := List.replicate m.totalSteps ([] : List String) } : PatBlock)).get? bIdx =
          some x := by
      rw [replicate_get? _ _ _ hlt]
      exact ⟨_, rfl⟩
    obtain ⟨b', hb', hdr, hoth, hall⟩ := h1inv bIdx b0 hb0
    have hb0eq := hm1get bIdx b0 hb0
    subst hb0eq
    exact ⟨b', hb', hdr, hoth, hall⟩
  -- the drum row
  obtain ⟨h3ts, h3len, h3inv⟩ := importRow_drums m.totalSteps m.blocks.length hS m rfl rfl
    r₁ h1len
    (by
      intro bIdx b1 hb1
      obtain ⟨b', hb', hdr, _, _⟩ := hr₁get bIdx b1 hb1
      have : b1 = b' := by
        rw [hb1] at hb'
        exact Option.some.inj hb'
      subst this
      rw [hdr, List.length_replicate])
  rw [List.foldl_cons, List.foldl_nil]
  refine ⟨_, rfl, h3ts.trans h1ts, h3len.trans (by rfl), ?_, ?_⟩
  · -- notes agree everywhere
    intro bIdx id s
    by_cases hbi : bIdx < m.blocks.length
    · obtain ⟨b1, hb1⟩ : ∃ x, r₁.blocks.get? bIdx = some x := by
        have : bIdx < r₁.blocks.length := by rw [h1len]; exact hbi
        rw [List.get?_eq_get this]
        exact ⟨_, rfl⟩
      obtain ⟨b', hb', hdr, hoth, hall⟩ := hr₁get bIdx b1 hb1
      have hb1b' : b1 = b' := by
        rw [hb1] at hb'
        exact Option.some.inj hb'
      subst hb1b'
      obtain ⟨b2, hb2, htrk2, hdl2, _⟩ := h3inv bIdx b1 hb1
      obtain ⟨mb, hmb⟩ : ∃ x, m.blocks.get? bIdx = some x := by
        rw [List.get?_eq_get hbi]
        exact ⟨_, rfl⟩
      have hmbm : mb ∈ m.blocks := List.get?_mem hmb
      have htrb2 : ∀ id', TimeMatrix.trackOf b2 id' = TimeMatrix.trackOf b1 id' :=
        fun id' => trackOf_congr b1 b2 id' htrk2
      rw [noteAt_eq _ bIdx id s b2 hb2]
      by_cases hid : id ∈ synths.map (fun sc => sc.id)
      · obtain ⟨sc, hsc, hscid⟩ := List.mem_map.mp hid
        subst hscid
        obtain ⟨tr', htr', hlentr', hslots⟩ := hall sc hsc
        rw [htrb2 sc.id, htr']
        by_cases hs : s < m.totalSteps
        · show (tr'.get? s).getD none = noteAt m bIdx sc.id s
          rw [hslots s hs]
          show decodeNoteCell (some (encodeNoteCell (noteAt m bIdx sc.id s))) =
            noteAt m bIdx sc.id s
          exact decode_encode _ (fun nv hnv => noteAt_valid m hnotes bIdx sc.id s nv hnv)
        · show (tr'.get? s).getD none = noteAt m bIdx sc.id s
          rw [List.get?_eq_none.mpr (by omega)]
          rw [noteAt_none_of_step_ge m bIdx sc.id s mb hmb
            (fun kv hkv => htlen mb hmbm kv hkv) (by omega)]
          rfl
      · -- a track id no synth owns: blank on both sides
        have hme : noteAt m bIdx id s = none := by
          rcases htrm : TimeMatrix.trackOf mb id with _ | track
          · exact noteAt_none_of_keyless m bIdx id s mb hmb htrm
          · exfalso
            obtain ⟨kv, hfind⟩ : ∃ kv, mb.tracks.find? (fun kv => kv.1 = id) = some kv := by
              unfold TimeMatrix.trackOf at htrm
              rcases hf : mb.tracks.find? (fun kv => kv.1 = id) with _ | kv
              · rw [hf] at htrm; exact absurd htrm (by simp)
              · exact ⟨kv, hf⟩
            have hkvid : kv.1 = id := by simpa using List.find?_some hfind
            exact hid (hkvid ▸ hkeys mb hmbm kv (List.mem_of_find?_eq_some hfind))
        rw [hme]
        rw [htrb2 id, hoth id hid]
        unfold TimeMatrix.trackOf
        by_cases hbass : ("bass-1" : String) = id
        · rw [List.find?_cons_of_pos _ (by simpa using hbass)]
          show ((List.replicate m.totalSteps none).get? s).getD none = none
          by_cases hs : s < m.totalSteps
          · rw [replicate_get? _ _ _ hs]
            rfl
          · rw [List.get?_eq_none.mpr (by rw [List.length_replicate]; omega)]
            rfl
        · rw [List.find?_cons_of_neg _ (by simpa using hbass), List.find?_nil]
          rfl
    · rw [noteAt_none_of_ge _ bIdx id s (by rw [h3len]; omega),
          noteAt_none_of_ge m bIdx id s (by omega)]
  · -- drum sets agree everywhere
    intro bIdx s x
    by_cases hbi : bIdx < m.blocks.length
    · obtain ⟨b1, hb1⟩ : ∃ y, r₁.blocks.get? bIdx = some y := by
        have : bIdx < r₁.blocks.length := by rw [h1len]; exact hbi
        rw [List.get?_eq_get this]
        exact ⟨_, rfl⟩
      obtain ⟨b2, hb2, _, hdl2, hdslots⟩ := h3inv bIdx b1 hb1
      obtain ⟨mb, hmb⟩ : ∃ y, m.blocks.get? bIdx = some y := by
        rw [List.get?_eq_get hbi]
        exact ⟨_, rfl⟩
      have hmbm : mb ∈ m.blocks := List.get?_mem hmb
      rw [drumsAt_eq _ bIdx s b2 hb2, drumsAt_eq m bIdx s mb hmb]
      by_cases hs : s < m.totalSteps
      · rw [hdslots s hs]
        show x ∈ decodeBin (binCell (drumsAt m bIdx s)) ↔ _
        rw [decodeBin_binCell, drumsAt_eq m bIdx s mb hmb]
        rw [List.mem_filter]
        constructor
        · intro ⟨_, hx⟩
          exact List.mem_of_elem_eq_true hx
        · intro hx
          have hxmem : x ∈ (mb.drums.get? s).getD [] := hx
          have hxdo : x ∈ drumOrder := by
            rcases hds : mb.drums.get? s with _ | dd
            · rw [hds] at hxmem
              exact absurd hxmem (by simp)
            · rw [hds] at hxmem
              exact hdrums mb hmbm dd (List.get?_mem hds) x hxmem
          exact ⟨hxdo, List.elem_eq_true_of_mem hx⟩
      · rw [List.get?_eq_none.mpr (by rw [hdl2]; omega)]
        rw [List.get?_eq_none.mpr (by rw [hdlen mb hmbm]; omega)]
    · have h1 : drumsAt _ bIdx s = [] := drumsAt_none_of_ge _ bIdx s (by rw [h3len]; omega)
      rw [h1, drumsAt_none_of_ge m bIdx s (by omega)]

/-- C4 counterexample: the claim quantifies over every store, but a `C`
note with octave `-1` is lost by the round trip.  The export prints the
cell `1--1-0-0`; `split('-')` yields five parts, so the import's
`nParts.length === 4` check skips the cell and the slot stays empty,
while the original store holds the note. -/
theorem csv_roundtrip_loses_negative_octave :
    noteAt
      { totalSteps := 1,
        blocks :=
          [{ tracks :=
               [("bass-1",
                 [some { note := "C", octave := -1, slide := false, accent := false }])],
             drums := [[]] }],
        clipboard := none } 0 "bass-1" 0 =
      some { note := "C", octave := -1, slide := false, accent := false } ∧
    (importFromCSV 1 (exportCSVText 120
        { totalSteps := 1,
          blocks :=
            [{ tracks :=
                 [("bass-1",
                   [some { note := "C", octave := -1, slide := false, accent := false }])],
               drums := [[]] }],
          clipboard := none }
        [{ id := "bass-1", volume := 100, distortion := 0, distTone := 0, distGain := 0,
           cutoff := 50, resonance := 30, envMod := 40, decay := 60, accentInt := 80,
           waveform := "square" }])).map
      (fun p => noteAt p.2 0 "bass-1" 0) = some none := by
  exact ⟨by decide, by decide⟩

theorem csv_roundtrip_witness :
    (0 < ({ totalSteps := 1,
            blocks :=
              [{ tracks :=
                   [("bass-1",
                     [some { note := "C", octave := 2, slide := false, accent := true }])],
                 drums := [["kick"]] }],
            clipboard := none } : TimeMatrix).totalSteps) ∧
    (∀ b ∈ ({ totalSteps := 1,
              blocks :=
                [{ tracks :=
                     [("bass-1",
                       [some { note := "C", octave := 2, slide := false, accent := true }])],
                   drums := [["kick"]] }],
              clipboard := none } : TimeMatrix).blocks,
       ∀ kv ∈ b.tracks, ∀ v ∈ kv.2, ∀ nv, v = some nv → ValidNote nv) ∧
    (∃ m' : TimeMatrix,
      importFromCSV 1 (exportCSVText 174
        { totalSteps := 1,
          blocks :=
            [{ tracks :=
                 [("bass-1",
                   [some { note := "C", octave := 2, slide := false, accent := true }])],
               drums := [["kick"]] }],
          clipboard := none }
        [{ id := "bass-1", volume := 100, distortion := 0, distTone := 0, distGain := 0,
           cutoff := 50, resonance := 30, envMod := 40, decay := 60, accentInt := 80,
           waveform := "square" }]) = some (((174 : ℕ) : ℤ), m') ∧
      m'.totalSteps = 1 ∧
      m'.blocks.length = 1 ∧
      (∀ bIdx id s, noteAt m' bIdx id s =
        noteAt
          { totalSteps := 1,
            blocks :=
              [{ tracks :=
                   [("bass-1",
                     [some { note := "C", octave := 2, slide := false, accent := true }])],
                 drums := [["kick"]] }],
            clipboard := none } bIdx id s) ∧
      (∀ bIdx s x, x ∈ drumsAt m' bIdx s ↔
        x ∈ drumsAt
          { totalSteps := 1,
            blocks :=
              [{ tracks :=
                   [("bass-1",
                     [some { note := "C", octave := 2, slide := false, accent := true }])],
                 drums := [["kick"]] }],
            clipboard := none } bIdx s)) := by
  have hnotes : ∀ b ∈ ({ totalSteps := 1,
                         blocks :=
                           [{ tracks :=
                                [("bass-1",
                                  [some { note := "C", octave := 2,
                                          slide := false, accent := true }])],
                              drums := [["kick"]] }],
                         clipboard := none } : TimeMatrix).blocks,
      ∀ kv ∈ b.tracks, ∀ v ∈ kv.2, ∀ nv, v = some nv → ValidNote nv := by
    intro b hb kv hkv v hv nv he
    simp only [List.mem_singleton] at hb
    subst hb
    simp only [List.mem_singleton] at hkv
    subst hkv
    simp only [List.mem_singleton] at hv
    subst hv
    obtain rfl : nv = { note := "C", octave := 2, slide := false, accent := true } :=
      (Option.some.inj he).symm
    decide
  refine ⟨by decide, hnotes, ?_⟩
  exact csv_roundtrip 174
    { totalSteps := 1,
      blocks :=
        [{ tracks :=
             [("bass-1",
               [some { note := "C", octave := 2, slide := false, accent := true }])],
           drums := [["kick"]] }],
      clipboard := none }
    [{ id := "bass-1", volume := 100, distortion := 0, distTone := 0, distGain := 0,
       cutoff := 50, resonance := 30, envMod := 40, decay := 60, accentInt := 80,
       waveform := "square" }]
    (by decide) (by decide) (by decide) (by decide) (by decide)
    (by decide) (by decide) hnotes (by decide)

theorem encodeNoteCell_ne_nil (v : Option NoteEvent) : encodeNoteCell v ≠ [] := by
  cases v with
  | none => exact List.cons_ne_nil _ _
  | some nv =>
      unfold encodeNoteCell
      dsimp only
      rw [joinSep_cons _ _ _ (List.cons_ne_nil _ _)]
      have := natToStr_ne_nil
        ((((noteMapCSV.find? (fun kv => kv.1 = nv.note)).map (·.2)).getD 0))
      cases hns : natToStr ((((noteMapCSV.find? (fun kv => kv.1 = nv.note)).map (·.2)).getD 0)) with
      | nil => exact absurd hns (this)
      | cons a as =>
          exact List.cons_ne_nil _ _

end CSV

/-! ## C8: frequency mapping -/

/-- C8: for every recognized pitch-class `p` and octave `o` the voice
resolves `440 * 2^((midiNote − 69)/12)` with
`midiNote = (o+1)*12 + semitoneIndex(p)`; `play("A", 4, …)` uses
exactly 440 Hz and `play("A", 5, …)` exactly 880 Hz; an unrecognized
pitch-class yields no frequency (the voice returns silently). -/
theorem pitch_frequency_exact :
    (∀ (p : String) (o : ℤ) (i : ℕ), noteIndex p = some i →
      playFreq p o = some (440 * (2 : ℝ) ^ ((((midiNote o i : ℤ) : ℝ) - 69) / 12))) ∧
    playFreq "A" 4 = some 440 ∧
    playFreq "A" 5 = some 880 ∧
    (∀ (p : String) (o : ℤ), noteIndex p = none → playFreq p o = none) := by
  refine ⟨?_, ?_, ?_, ?_⟩
  · intro p o i h
    simp [playFreq, h, midiFreq]
  · have h9 : noteIndex "A" = some 9 := by rfl
    have hm : midiNote 4 9 = 69 := by decide
    simp only [playFreq, h9, Option.map_some', midiFreq, hm]
    rw [show (((69 : ℤ) : ℝ) - 69) / 12 = 0 by norm_num, Real.rpow_zero, mul_one]
  · have h9 : noteIndex "A" = some 9 := by rfl
    have hm : midiNote 5 9 = 81 := by decide
    simp only [playFreq, h9, Option.map_some', midiFreq, hm]
    rw [show (((81 : ℤ) : ℝ) - 69) / 12 = 1 by norm_num, Real.rpow_one]
    norm_num
  · intro p o h
    simp [playFreq, h]

theorem pitch_frequency_exact_witness :
    noteIndex "C" = some 0 ∧
    playFreq "C" 3 = some (440 * (2 : ℝ) ^ ((((midiNote 3 0 : ℤ) : ℝ) - 69) / 12)) :=
  ⟨rfl, pitch_frequency_exact.1 "C" 3 0 rfl⟩

/-! ## C10: first slide note on a fresh voice -/

/-- C10: on the first `play` of a fresh voice (`lastFreq` still `0`)
with `slide = true` and a recognized pitch-class, the glide is
initialized to the new note's own frequency: the pitch ramp starts and
ends at the same value (the target frequency), and the call succeeds. -/
theorem first_slide_starts_at_target (p : String) (o : ℤ) (t : ℝ) (i : ℕ)
    (h : noteIndex p = some i) :
    playGlide 0 p o t true =
      some ([FreqAuto.setAt (midiFreq (midiNote o i)) t,
             FreqAuto.expRampTo (midiFreq (midiNote o i)) (t + 0.08)],
            midiFreq (midiNote o i)) := by
  simp [playGlide, h]

theorem first_slide_starts_at_target_witness :
    noteIndex "A" = some 9 ∧
    playGlide 0 "A" 4 0 true =
      some ([FreqAuto.setAt (midiFreq (midiNote 4 9)) 0,
             FreqAuto.expRampTo (midiFreq (midiNote 4 9)) (0 + 0.08)],
            midiFreq (midiNote 4 9)) :=
  ⟨rfl, first_slide_starts_at_target "A" 4 0 9 rfl⟩
